import Mathlib

/-!
Shallow embedding of the Satisfactory-optimization-tool production resolver:
the recursive combination generator with memoization and safety limits
(src/utils/recipeCombinations.ts), the cycle analyzer based on Tarjan's
strongly-connected-components algorithm (src/utils/recipeProcessor.ts), and
the condensation-graph builder (condensationGraphBuilder).

JavaScript objects are modelled as association lists with insert-or-replace
update (preserving first-insertion key order, last write wins), JS `Map` and
`Set` as association lists and duplicate-free lists, and the module-global
memoization cache and the shared combination counter as explicitly threaded
state.  General recursion is made structural with a fuel argument whose
exhaustion branch is unreachable for the fuel budgets the entry points supply.
Debug `console.log` tracing in the source has no effect on results and is not
modelled.
-/

/-- Item identifiers are strings (`itemClassName` in the source). -/
abbrev Item := String

/-- An (item, amount) pair, used for both recipe ingredients and products. -/
structure RecipeIngredient where
  item : Item
  amount : Nat
deriving DecidableEq

/-- A processed recipe (types/index-old.ts `ProcessedRecipe`); the fields the
core reads: identifier, display name, ingredient and product lists, producing
machine and the alternate flag.  Rates and duration are never consulted by the
resolver and are omitted. -/
structure ProcessedRecipe where
  className : String
  name : String
  ingredients : List RecipeIngredient
  products : List RecipeIngredient
  machineType : String
  alternate : Bool
deriving DecidableEq

/-- `RecipeIndex`: mapping from item to the ordered list of recipes that
output it, as an association list in key-insertion order. -/
abbrev RecipeIndex := List (Item × List ProcessedRecipe)

/-- Lookup of `recipeIndex[item]` (first matching key, as in a JS object). -/
def lookupIndex (idx : RecipeIndex) (item : Item) : Option (List ProcessedRecipe) :=
  (idx.find? (fun e => e.1 == item)).map Prod.snd

/-- `recipeIndex[itemClassName] || []`. -/
def availRecipes (idx : RecipeIndex) (item : Item) : List ProcessedRecipe :=
  (lookupIndex idx item).getD []

/-- `CircularAnalysis` (types/index-old.ts): SCC list, item-to-SCC map,
circular item set and circular recipe (className) set. -/
structure CircularAnalysis where
  stronglyConnectedComponents : List (List Item)
  itemToSCC : List (Item × Nat)
  circularItems : List Item
  circularRecipes : List String
deriving DecidableEq

/-- BASE_RESOURCES of recipeProcessor.ts: true raw/extractable resources. -/
def BASE_RESOURCES : List String :=
  ["Desc_OreIron_C", "Desc_OreCopper_C", "Desc_Stone_C", "Desc_Coal_C",
   "Desc_OreGold_C", "Desc_RawQuartz_C", "Desc_Sulfur_C", "Desc_OreBauxite_C",
   "Desc_OreUranium_C", "Desc_SAM_C",
   "Desc_Water_C", "Desc_LiquidOil_C", "Desc_NitrogenGas_C"]

/-- `isBaseResource` (recipeProcessor.ts). -/
def isBaseResource (itemClassName : Item) : Bool :=
  BASE_RESOURCES.contains itemClassName

/-- Substring occurrence on character lists, the semantics of JS
`String.prototype.includes`. -/
def charsContain (needle : List Char) : List Char → Bool
  | [] => needle.isEmpty
  | c :: t => needle.isPrefixOf (c :: t) || charsContain needle t

/-- JS `hay.includes(needle)`. -/
def includesStr (hay needle : String) : Bool :=
  charsContain needle.toList hay.toList

/-- `RecipePath`: a partial mapping item → chosen recipe, modelled as a JS
object: association list in key-insertion order without duplicate keys. -/
abbrev RecipePath := List (Item × ProcessedRecipe)

/-- Property access `path[k]`. -/
def pathLookup (p : RecipePath) (k : Item) : Option ProcessedRecipe :=
  (p.find? (fun e => e.1 == k)).map Prod.snd

/-- JS object update `{...p, [k]: r}`: replace in place if the key exists,
otherwise append (JS preserves first-insertion key order). -/
def setKey (p : RecipePath) (k : Item) (r : ProcessedRecipe) : RecipePath :=
  if p.any (fun e => e.1 == k) then
    p.map (fun e => if e.1 == k then (k, r) else e)
  else p ++ [(k, r)]

/-- JS object spread `{...p, ...q}`: fold the right object's writes over the
left one; for a key present in both, the later (right) write wins. -/
def mergePaths (p q : RecipePath) : RecipePath :=
  q.foldl (fun acc e => setKey acc e.1 e.2) p

/-- `CircularEdge`: a recorded cut point.  The source field `from` is a Lean
keyword and is rendered `fromItem` (and `to` as `toItem`). -/
structure CircularEdge where
  fromItem : Item
  toItem : Item
  recipeUsing : String
deriving DecidableEq

/-- One branch result of the recursive generator. -/
structure RecipeResult where
  path : RecipePath
  circulars : List CircularEdge
deriving DecidableEq

/-- The memoization cache, a JS `Map` keyed by strings. -/
abbrev MemoCache := List (String × List RecipeResult)

/-- `Map.get` (first match; keys are never duplicated by `cacheSet`). -/
def cacheGet (c : MemoCache) (k : String) : Option (List RecipeResult) :=
  (c.find? (fun e => e.1 == k)).map Prod.snd

/-- `Map.set`: overwrite in place if present, else append. -/
def cacheSet (c : MemoCache) (k : String) (v : List RecipeResult) : MemoCache :=
  if c.any (fun e => e.1 == k) then
    c.map (fun e => if e.1 == k then (k, v) else e)
  else c ++ [(k, v)]

/-- `clearMemoCache` empties the cache. -/
def clearMemoCache (_ : MemoCache) : MemoCache := []

/-- `getCacheKey`: the item, the raw-override flag and the joined path stack. -/
def getCacheKey (itemClassName : Item) (treatIngotsAsRaw : Bool)
    (pathStack : List Item) : String :=
  itemClassName ++ "|" ++ (if treatIngotsAsRaw then "true" else "false") ++ "|"
    ++ String.intercalate "→" pathStack

/-- Default configuration MAX_COMBINATIONS. -/
def MAX_COMBINATIONS : Nat := 1000

/-- Default configuration MAX_DEPTH. -/
def MAX_DEPTH : Nat := 20

/-- Recipe selection step of the generator: filter out recipes flagged
circular by the analysis; if every recipe for the item is circular, fall back
to exactly the first available recipe (`[availableRecipes[0]]`, rendered as
`take 1` for a list known to be nonempty at the call site). -/
def recipesToUse (circularRecipes : List String)
    (availableRecipes : List ProcessedRecipe) : List ProcessedRecipe :=
  let nonCircularRecipes :=
    availableRecipes.filter (fun r => !(circularRecipes.contains r.className))
  if !nonCircularRecipes.isEmpty then nonCircularRecipes
  else availableRecipes.take 1

/-- Result of one generator call: the returned list and the threaded mutable
state (memo cache and global combination counter). -/
structure GenOut where
  results : List RecipeResult
  cache : MemoCache
  count : Nat
deriving DecidableEq

/-- The type of a recursive generator entry specialised to its fixed
parameters: item, currentPath, pathStack, circularEdges, depth, cache, count. -/
abbrev GenFn :=
  Item → RecipePath → List Item → List CircularEdge → Nat → MemoCache → Nat → GenOut

/-- `ingredients.map(ing => generateRecipeCombinations(ing, ..., depth + 1))`:
run the sub-generator on each ingredient in order, threading cache and
counter, and collect the per-ingredient result lists. -/
def genIngredients (g : GenFn) (newPath : RecipePath) (newPathStack : List Item)
    (circularEdges : List CircularEdge) (depth : Nat) :
    List Item → MemoCache → Nat → (List (List RecipeResult) × MemoCache × Nat)
  | [], cache, count => ([], cache, count)
  | ing :: rest, cache, count =>
    let o := g ing newPath newPathStack circularEdges (depth + 1) cache count
    let r := genIngredients g newPath newPathStack circularEdges depth rest o.cache o.count
    (o.results :: r.1, r.2)

/-- `cartesianProductWithCirculars`: combine the per-ingredient result lists,
spreading the paths (right side wins on a shared key) and concatenating the
circular-edge lists. -/
def cartesianProductWithCirculars : List (List RecipeResult) → List RecipeResult
  | [] => [⟨[], []⟩]
  | [single] => single
  | first :: rest =>
    let restProduct := cartesianProductWithCirculars rest
    (first.map (fun firstItem =>
      restProduct.map (fun restItem =>
        (⟨mergePaths firstItem.path restItem.path,
          firstItem.circulars ++ restItem.circulars⟩ : RecipeResult)))).flatten

/-- JS `array.slice(0, e)`: a negative end index counts back from the end of
the array; the result is never longer than the array. -/
def jsSliceTo (l : List RecipeResult) (e : Int) : List RecipeResult :=
  if 0 ≤ e then l.take e.toNat else l.take ((l.length + e).toNat)

/-- The `for (const recipe of recipesToUse)` loop of the generator: per
recipe, either push one leaf result (no ingredients; the counter is bumped
without a ceiling test), or recurse into the ingredients, combine with the
cartesian product and push, truncating to the remaining budget and breaking
out of the loop when the push would exceed the ceiling. -/
def tryRecipes (MAXC : Nat) (g : GenFn) (itemClassName : Item)
    (currentPath : RecipePath) (newPathStack : List Item)
    (circularEdges : List CircularEdge) (depth : Nat) :
    List ProcessedRecipe → List RecipeResult → MemoCache → Nat →
      (List RecipeResult × MemoCache × Nat)
  | [], acc, cache, count => (acc, cache, count)
  | recipe :: rest, acc, cache, count =>
    let newPath := setKey currentPath itemClassName recipe
    let ingredients := recipe.ingredients.map (fun ing => ing.item)
    if ingredients.isEmpty then
      tryRecipes MAXC g itemClassName currentPath newPathStack circularEdges depth
        rest (acc ++ [⟨newPath, circularEdges⟩]) cache (count + 1)
    else
      let r := genIngredients g newPath newPathStack circularEdges depth
        ingredients cache count
      let combinedResults := cartesianProductWithCirculars r.1
      if r.2.2 + combinedResults.length > MAXC then
        (acc ++ jsSliceTo combinedResults ((MAXC : Int) - (r.2.2 : Int)), r.2.1, MAXC)
      else
        tryRecipes MAXC g itemClassName currentPath newPathStack circularEdges depth
          rest (acc ++ combinedResults) r.2.1 (r.2.2 + combinedResults.length)

/-- `generateRecipeCombinations`: the recursive resolver.  Checks, in source
order: memo cache, base resource, ingot raw-override, circular dependency on
the current path stack, missing recipes, circular-recipe filtering, recursion
depth, combination ceiling; then tries each candidate recipe and caches the
combined result.  `fuel` makes the recursion structural; the entry point
passes `MAXD + 2`, which the depth check keeps from ever reaching 0. -/
def generateRecipeCombinations (MAXC MAXD : Nat) (recipeIndex : RecipeIndex)
    (circularAnalysis : CircularAnalysis) (treatIngotsAsRaw : Bool) :
    Nat → GenFn
  | 0, _, currentPath, _, circularEdges, _, cache, count =>
    ⟨[⟨currentPath, circularEdges⟩], cache, count⟩
  | fuel + 1, itemClassName, currentPath, pathStack, circularEdges, depth, cache, count =>
    let cacheKey := getCacheKey itemClassName treatIngotsAsRaw pathStack
    match cacheGet cache cacheKey with
    | some cached => ⟨cached, cache, count⟩
    | none =>
      if isBaseResource itemClassName then
        ⟨[⟨currentPath, circularEdges⟩], cache, count⟩
      else if treatIngotsAsRaw && includesStr itemClassName "Ingot" then
        ⟨[⟨currentPath, circularEdges⟩], cache, count⟩
      else if pathStack.contains itemClassName then
        let indexInPath := pathStack.indexOf itemClassName
        let circularTo := (pathStack.get? indexInPath).getD ""
        let circularFrom := (pathStack.get? (pathStack.length - 1)).getD ""
        let recipeUsing :=
          match (pathLookup currentPath circularFrom).map (fun r => r.className) with
          | some s => if s = "" then circularFrom else s
          | none => circularFrom
        ⟨[⟨currentPath,
           circularEdges ++ [⟨circularFrom, circularTo, recipeUsing⟩]⟩], cache, count⟩
      else
        let availableRecipes := availRecipes recipeIndex itemClassName
        if availableRecipes.isEmpty then
          ⟨[⟨currentPath, circularEdges⟩], cache, count⟩
        else
          let toUse := recipesToUse circularAnalysis.circularRecipes availableRecipes
          if depth > MAXD then
            ⟨[⟨currentPath, circularEdges⟩], cache, count⟩
          else if count > MAXC then
            ⟨[], cache, count⟩
          else
            let newPathStack := pathStack ++ [itemClassName]
            let r := tryRecipes MAXC
              (generateRecipeCombinations MAXC MAXD recipeIndex circularAnalysis
                treatIngotsAsRaw fuel)
              itemClassName currentPath newPathStack circularEdges depth
              toUse [] cache count
            ⟨r.1, cacheSet r.2.1 cacheKey r.1, r.2.2⟩

/-- Code-point comparison of character lists, modelling `localeCompare`-based
ascending sorting of plain ASCII identifiers. -/
def charListLe : List Char → List Char → Bool
  | [], _ => true
  | _ :: _, [] => false
  | a :: as, b :: bs =>
    if a = b then charListLe as bs else decide (a.toNat < b.toNat)

/-- String order used for sorting path entries. -/
def strLe (a b : String) : Bool := charListLe a.toList b.toList

/-- Insert an entry into a key-sorted list of path entries. -/
def insertSortedEntry (e : Item × ProcessedRecipe) :
    List (Item × ProcessedRecipe) → List (Item × ProcessedRecipe)
  | [] => [e]
  | x :: xs => if strLe e.1 x.1 then e :: x :: xs else x :: insertSortedEntry e xs

/-- `Object.entries(path).sort(([a],[b]) => a.localeCompare(b))`. -/
def sortEntries (p : RecipePath) : List (Item × ProcessedRecipe) :=
  p.foldr insertSortedEntry []

/-- The deduplication signature of a path: the sorted `product:className`
pairs joined with a vertical bar. -/
def pathId (p : RecipePath) : String :=
  String.intercalate "|"
    ((sortEntries p).map (fun e => e.1 ++ ":" ++ e.2.className))

/-- `extractRawMaterials`: collect, over every chosen recipe's ingredients,
the items that have no producing recipe, are base resources, or are
ingot-matched while the raw-override flag is set (a JS `Set`: first-insertion
order, no duplicates). -/
def extractRawMaterials (recipePath : RecipePath) (recipeIndex : RecipeIndex)
    (treatIngotsAsRaw : Bool) : List Item :=
  recipePath.foldl (fun raws e =>
    e.2.ingredients.foldl (fun raws ingredient =>
      let itemClass := ingredient.item
      let hasRecipe := !(availRecipes recipeIndex itemClass).isEmpty
      let isIngot := treatIngotsAsRaw && includesStr itemClass "Ingot"
      if !hasRecipe || isBaseResource itemClass || isIngot then
        if raws.contains itemClass then raws else raws ++ [itemClass]
      else raws) raws) []

/-- One entry of the readable recipe chain. -/
structure ChainEntry where
  product : Item
  productName : String
  recipe : ProcessedRecipe
deriving DecidableEq

/-- The recursive `traverse` of `buildRecipeChain`: post-order over the chosen
path, each item visited once.  Fuel bounds the recursion through path
entries; the entry point supplies more than the path can consume. -/
def traverseChain (recipePath : RecipePath) :
    Nat → Item → List Item → (List ChainEntry × List Item)
  | 0, _, visited => ([], visited)
  | fuel + 1, item, visited =>
    if visited.contains item then ([], visited)
    else
      let visited := visited ++ [item]
      match pathLookup recipePath item with
      | none => ([], visited)
      | some recipe =>
        let r := recipe.ingredients.foldl
          (fun (acc : List ChainEntry × List Item) ing =>
            let c := traverseChain recipePath fuel ing.item acc.2
            (acc.1 ++ c.1, c.2)) ([], visited)
        (r.1 ++ [⟨item, recipe.name, recipe⟩], r.2)

/-- `buildRecipeChain`. -/
def buildRecipeChain (targetProduct : Item) (recipePath : RecipePath) :
    List ChainEntry :=
  (traverseChain recipePath (recipePath.length + 2) targetProduct []).1

/-- `ProductionCombination`. -/
structure ProductionCombination where
  id : String
  targetProduct : Item
  recipePath : RecipePath
  rawMaterials : List Item
  circularEdges : List CircularEdge
  recipeChain : List ChainEntry
deriving DecidableEq, Inhabited

/-- `getAllProductionCombinations` with explicit ceiling and depth limits:
clear the cache, run the recursive generator on the target, deduplicate the
raw results by path signature (a JS `Map`, first writer wins, insertion
order), and decorate each surviving path with raw materials and the recipe
chain. -/
def getAllWith (MAXC MAXD : Nat) (targetProduct : Item)
    (recipeIndex : RecipeIndex) (circularAnalysis : CircularAnalysis)
    (treatIngotsAsRaw : Bool) (initialCache : MemoCache) :
    List ProductionCombination :=
  let cache := clearMemoCache initialCache
  let out := generateRecipeCombinations MAXC MAXD recipeIndex circularAnalysis
    treatIngotsAsRaw (MAXD + 2) targetProduct [] [] [] 0 cache 0
  let uniquePaths := out.results.foldl
    (fun (m : List (String × RecipeResult)) result =>
      let pid := pathId result.path
      if m.any (fun e => e.1 == pid) then m else m ++ [(pid, result)]) []
  uniquePaths.map (fun e =>
    { id := pathId e.2.path
      targetProduct := targetProduct
      recipePath := e.2.path
      rawMaterials := extractRawMaterials e.2.path recipeIndex treatIngotsAsRaw
      circularEdges := e.2.circulars
      recipeChain := buildRecipeChain targetProduct e.2.path })

/-- `getAllProductionCombinations` at the default configuration. -/
def getAllProductionCombinations (targetProduct : Item)
    (recipeIndex : RecipeIndex) (circularAnalysis : CircularAnalysis)
    (treatIngotsAsRaw : Bool) (initialCache : MemoCache) :
    List ProductionCombination :=
  getAllWith MAX_COMBINATIONS MAX_DEPTH targetProduct recipeIndex
    circularAnalysis treatIngotsAsRaw initialCache

/-! Observer instrumentation for the path merges performed by the cartesian
product: the same generator, additionally reporting whether every pair of
partial paths that was spread together agreed on the item keys present in
both.  A faithfulness lemma below shows the instrumented generator computes
exactly the same `GenOut` as `generateRecipeCombinations`. -/

/-- Two partial paths agree on every item key present in both. -/
def pathsAgree (p q : RecipePath) : Bool :=
  p.all (fun e => match pathLookup q e.1 with
    | some r => r == e.2
    | none => true)

/-- Every merge performed by `cartesianProductWithCirculars` on this input is
between paths that agree on their shared keys. -/
def cartesianOk : List (List RecipeResult) → Bool
  | [] => true
  | [_] => true
  | first :: rest =>
    (first.all (fun firstItem =>
      (cartesianProductWithCirculars rest).all (fun restItem =>
        pathsAgree firstItem.path restItem.path))) && cartesianOk rest

/-- Instrumented generator entry type. -/
abbrev GenFnChk :=
  Item → RecipePath → List Item → List CircularEdge → Nat → MemoCache → Nat →
    (GenOut × Bool)

/-- Instrumented `genIngredients`. -/
def genIngredientsChk (g : GenFnChk) (newPath : RecipePath)
    (newPathStack : List Item) (circularEdges : List CircularEdge) (depth : Nat) :
    List Item → MemoCache → Nat →
      ((List (List RecipeResult) × MemoCache × Nat) × Bool)
  | [], cache, count => (([], cache, count), true)
  | ing :: rest, cache, count =>
    let o := g ing newPath newPathStack circularEdges (depth + 1) cache count
    let r := genIngredientsChk g newPath newPathStack circularEdges depth rest
      o.1.cache o.1.count
    ((o.1.results :: r.1.1, r.1.2), o.2 && r.2)

/-- Instrumented `tryRecipes`. -/
def tryRecipesChk (MAXC : Nat) (g : GenFnChk) (itemClassName : Item)
    (currentPath : RecipePath) (newPathStack : List Item)
    (circularEdges : List CircularEdge) (depth : Nat) :
    List ProcessedRecipe → List RecipeResult → MemoCache → Nat →
      ((List RecipeResult × MemoCache × Nat) × Bool)
  | [], acc, cache, count => ((acc, cache, count), true)
  | recipe :: rest, acc, cache, count =>
    let newPath := setKey currentPath itemClassName recipe
    let ingredients := recipe.ingredients.map (fun ing => ing.item)
    if ingredients.isEmpty then
      tryRecipesChk MAXC g itemClassName currentPath newPathStack circularEdges depth
        rest (acc ++ [⟨newPath, circularEdges⟩]) cache (count + 1)
    else
      let r := genIngredientsChk g newPath newPathStack circularEdges depth
        ingredients cache count
      let combinedResults := cartesianProductWithCirculars r.1.1
      if r.1.2.2 + combinedResults.length > MAXC then
        ((acc ++ jsSliceTo combinedResults ((MAXC : Int) - (r.1.2.2 : Int)), r.1.2.1, MAXC),
         r.2 && cartesianOk r.1.1)
      else
        let t := tryRecipesChk MAXC g itemClassName currentPath newPathStack
          circularEdges depth rest (acc ++ combinedResults) r.1.2.1
          (r.1.2.2 + combinedResults.length)
        (t.1, r.2 && cartesianOk r.1.1 && t.2)

/-- Instrumented `generateRecipeCombinations`. -/
def generateRecipeCombinationsChk (MAXC MAXD : Nat) (recipeIndex : RecipeIndex)
    (circularAnalysis : CircularAnalysis) (treatIngotsAsRaw : Bool) :
    Nat → GenFnChk
  | 0, _, currentPath, _, circularEdges, _, cache, count =>
    (⟨[⟨currentPath, circularEdges⟩], cache, count⟩, true)
  | fuel + 1, itemClassName, currentPath, pathStack, circularEdges, depth, cache, count =>
    let cacheKey := getCacheKey itemClassName treatIngotsAsRaw pathStack
    match cacheGet cache cacheKey with
    | some cached => (⟨cached, cache, count⟩, true)
    | none =>
      if isBaseResource itemClassName then
        (⟨[⟨currentPath, circularEdges⟩], cache, count⟩, true)
      else if treatIngotsAsRaw && includesStr itemClassName "Ingot" then
        (⟨[⟨currentPath, circularEdges⟩], cache, count⟩, true)
      else if pathStack.contains itemClassName then
        let indexInPath := pathStack.indexOf itemClassName
        let circularTo := (pathStack.get? indexInPath).getD ""
        let circularFrom := (pathStack.get? (pathStack.length - 1)).getD ""
        let recipeUsing :=
          match (pathLookup currentPath circularFrom).map (fun r => r.className) with
          | some s => if s = "" then circularFrom else s
          | none => circularFrom
        (⟨[⟨currentPath,
            circularEdges ++ [⟨circularFrom, circularTo, recipeUsing⟩]⟩], cache, count⟩, true)
      else
        let availableRecipes := availRecipes recipeIndex itemClassName
        if availableRecipes.isEmpty then
          (⟨[⟨currentPath, circularEdges⟩], cache, count⟩, true)
        else
          let toUse := recipesToUse circularAnalysis.circularRecipes availableRecipes
          if depth > MAXD then
            (⟨[⟨currentPath, circularEdges⟩], cache, count⟩, true)
          else if count > MAXC then
            (⟨[], cache, count⟩, true)
          else
            let newPathStack := pathStack ++ [itemClassName]
            let r := tryRecipesChk MAXC
              (generateRecipeCombinationsChk MAXC MAXD recipeIndex circularAnalysis
                treatIngotsAsRaw fuel)
              itemClassName currentPath newPathStack circularEdges depth
              toUse [] cache count
            (⟨r.1.1, cacheSet r.1.2.1 cacheKey r.1.1, r.1.2.2⟩, r.2)

/-- The whole top-level run performed every cartesian merge between agreeing
paths. -/
def runMergesAgree (MAXC MAXD : Nat) (targetProduct : Item)
    (recipeIndex : RecipeIndex) (circularAnalysis : CircularAnalysis)
    (treatIngotsAsRaw : Bool) : Bool :=
  (generateRecipeCombinationsChk MAXC MAXD recipeIndex circularAnalysis
    treatIngotsAsRaw (MAXD + 2) targetProduct [] [] [] 0 [] 0).2

/-! Concrete inputs used by witnesses and counterexamples. -/

/-- Empty circular analysis, as computed for an index with no cycles. -/
def anaEmpty : CircularAnalysis := ⟨[], [], [], []⟩

/-- Iron plate from iron ingot from iron ore. -/
def recIronPlate : ProcessedRecipe :=
  ⟨"Recipe_IronPlate_C", "Iron Plate", [⟨"Desc_IronIngot_C", 3⟩],
   [⟨"Desc_IronPlate_C", 2⟩], "Desc_ConstructorMk1_C", false⟩

/-- Iron ingot from iron ore. -/
def recIronIngot : ProcessedRecipe :=
  ⟨"Recipe_IngotIron_C", "Iron Ingot", [⟨"Desc_OreIron_C", 1⟩],
   [⟨"Desc_IronIngot_C", 1⟩], "Desc_SmelterMk1_C", false⟩

/-- A small linear index: plate ← ingot ← ore. -/
def idxIron : RecipeIndex :=
  [("Desc_IronPlate_C", [recIronPlate]), ("Desc_IronIngot_C", [recIronIngot])]

/-- Diamond-shaped index: A needs B and C, each of which needs X, and X has
two alternative recipes with no ingredients. -/
def recX1 : ProcessedRecipe := ⟨"Recipe_X1_C", "X one", [], [⟨"X", 1⟩], "M", false⟩

/-- Second alternative recipe for X. -/
def recX2 : ProcessedRecipe := ⟨"Recipe_X2_C", "X two", [], [⟨"X", 1⟩], "M", false⟩

/-- B from X. -/
def recBd : ProcessedRecipe := ⟨"Recipe_Bd_C", "B", [⟨"X", 1⟩], [⟨"B", 1⟩], "M", false⟩

/-- C from X. -/
def recCd : ProcessedRecipe := ⟨"Recipe_Cd_C", "C", [⟨"X", 1⟩], [⟨"C", 1⟩], "M", false⟩

/-- A from B and C. -/
def recAd : ProcessedRecipe :=
  ⟨"Recipe_Ad_C", "A", [⟨"B", 1⟩, ⟨"C", 1⟩], [⟨"A", 1⟩], "M", false⟩

/-- The diamond index. -/
def idxDiamond : RecipeIndex :=
  [("A", [recAd]), ("B", [recBd]), ("C", [recCd]), ("X", [recX1, recX2])]

/-- Four alternative no-ingredient recipes for one item. -/
def recLeaf (n : String) : ProcessedRecipe := ⟨n, n, [], [⟨"A", 1⟩], "M", false⟩

/-- Index with one item produced by four zero-ingredient recipes. -/
def idxLeaves : RecipeIndex :=
  [("A", [recLeaf "r1", recLeaf "r2", recLeaf "r3", recLeaf "r4"])]

/-! Condensation-graph builder (condensationGraphBuilder.ts).  This module
consumes its own recipe schema, keyed by `className`, together with a
precomputed `circularRelationships` record; both are imported JSON data in the
source and are parameters here. -/

/-- Ingredient / product entry of the condensation recipe schema. -/
structure CRecipeIngredient where
  className : String
  amount : Nat
deriving DecidableEq

/-- Recipe record of the condensation schema (fields the builder reads). -/
structure CRecipe where
  id : String
  className : String
  displayName : String
  ingredients : List CRecipeIngredient
  products : List CRecipeIngredient
  isAlternate : Bool
deriving DecidableEq

/-- Precomputed circular-relationship data consumed by the builder. -/
structure CircularRelationships where
  stronglyConnectedComponents : List (List String)
  circularItems : List String
  circularRecipes : List String
deriving DecidableEq

/-- `byProduct`: className → recipes producing it. -/
abbrev ByProduct := List (String × List CRecipe)

/-- The organized recipe data; the builder reads `byProduct` and
`circularRelationships` (the other fields of the source record are unused). -/
structure RecipesOrganized where
  byProduct : ByProduct
  circularRelationships : CircularRelationships
deriving DecidableEq

/-- Generic JS-object/Map read (first matching key). -/
def assocGet {β : Type} (m : List (String × β)) (k : String) : Option β :=
  (m.find? (fun e => e.1 == k)).map Prod.snd

/-- Generic JS-object/Map write: replace in place or append. -/
def assocSet {β : Type} (m : List (String × β)) (k : String) (v : β) :
    List (String × β) :=
  if m.any (fun e => e.1 == k) then
    m.map (fun e => if e.1 == k then (k, v) else e)
  else m ++ [(k, v)]

/-- `byProduct[className] || []`. -/
def byProductGet (bp : ByProduct) (className : String) : List CRecipe :=
  (assocGet bp className).getD []

/-- A node of the condensation graph: either a single product or a meta-node
covering one SCC (`type`), with the source's optional fields as options. -/
structure CondensationNode where
  id : String
  type : String
  name : Option String
  className : Option String
  products : Option (List String)
  productNames : Option (List String)
  recipeCount : Nat
  isCircular : Bool
deriving DecidableEq

/-- A deduplicated directed edge of the condensation graph. -/
structure CondensationEdge where
  source : String
  target : String
  recipes : List String
  isMulti : Bool
deriving DecidableEq

/-- Derived statistics of the condensation graph. -/
structure CondensationStats where
  totalNodes : Nat
  productNodes : Nat
  sccNodes : Nat
  totalEdges : Nat
deriving DecidableEq

/-- Layout hint carried by the graph. -/
structure CondensationLayout where
  type : String
  condensed : Bool
deriving DecidableEq

/-- The complete condensation graph structure. -/
structure CondensationGraph where
  nodes : List CondensationNode
  edges : List CondensationEdge
  stats : CondensationStats
  layout : CondensationLayout
deriving DecidableEq

/-- `getProductName`: display-name lookup with `|| className` fallback (JS
treats the empty string as falsy). -/
def getProductName (products : List (String × String)) (className : String) :
    String :=
  match assocGet products className with
  | some n => if n = "" then className else n
  | none => className

/-- Map each product to its SCC index (`productToSCC`); a later SCC listing
the same product overwrites, as JS `Map.set` does. -/
def buildProductToSCC (sccs : List (List String)) : List (String × Nat) :=
  sccs.enum.foldl (fun m p => p.2.foldl (fun m prod => assocSet m prod p.1) m) []

/-- Fuel for the breadth-first reachability scan: one unit per possible
enqueue (the initial target plus every ingredient occurrence). -/
def bfsFuel (bp : ByProduct) : Nat :=
  2 + bp.foldl (fun n e => n + e.2.foldl (fun n r => n + r.ingredients.length) 0) 0

/-- The `while (queue.length > 0)` loop of `findReachableProducts`. -/
def findReachableLoop (bp : ByProduct) : Nat → List String → List String → List String
  | 0, _, reachable => reachable
  | _ + 1, [], reachable => reachable
  | fuel + 1, current :: queue, reachable =>
    if reachable.contains current then findReachableLoop bp fuel queue reachable
    else
      let reachable := reachable ++ [current]
      let queue := (byProductGet bp current).foldl (fun q r =>
        r.ingredients.foldl (fun q ing =>
          if reachable.contains ing.className then q else q ++ [ing.className]) q)
        queue
      findReachableLoop bp fuel queue reachable

/-- `findReachableProducts`: BFS over ingredient edges from the target. -/
def findReachableProducts (targetProduct : String) (bp : ByProduct) :
    List String :=
  findReachableLoop bp (bfsFuel bp) [targetProduct] []

/-- Accumulator of the node-building loop. -/
structure NodeBuildState where
  nodes : List CondensationNode
  processedSCCs : List Nat
  nodeIdMap : List (String × String)
deriving DecidableEq

/-- One iteration of the node-building loop over the relevant products. -/
def buildNodesStep (bp : ByProduct) (circularItems : List String)
    (sccs : List (List String)) (productToSCC : List (String × Nat))
    (products : List (String × String)) (relevantProducts : List String)
    (st : NodeBuildState) (className : String) : NodeBuildState :=
  match assocGet productToSCC className with
  | some sccIndex =>
    if st.processedSCCs.contains sccIndex then st
    else
      let scc := (sccs.get? sccIndex).getD []
      let isActuallyCircular := decide (scc.length > 1)
        || (scc.length == 1 && circularItems.contains ((scc.get? 0).getD ""))
      if isActuallyCircular then
        let nodeId := "scc-" ++ toString sccIndex
        let sccProducts := scc.filter (fun p => relevantProducts.contains p)
        let node : CondensationNode :=
          { id := nodeId, type := "scc", name := none, className := none
            products := some sccProducts
            productNames := some (sccProducts.map (getProductName products))
            recipeCount := sccProducts.foldl
              (fun sum p => sum + (byProductGet bp p).length) 0
            isCircular := true }
        { nodes := st.nodes ++ [node]
          processedSCCs := st.processedSCCs ++ [sccIndex]
          nodeIdMap := sccProducts.foldl (fun m p => assocSet m p nodeId)
            st.nodeIdMap }
      else
        { nodes := st.nodes ++
            [{ id := className, type := "product"
               name := some (getProductName products className)
               className := some className, products := none, productNames := none
               recipeCount := (byProductGet bp className).length
               isCircular := false }]
          processedSCCs := st.processedSCCs ++ [sccIndex]
          nodeIdMap := assocSet st.nodeIdMap className className }
  | none =>
    { nodes := st.nodes ++
        [{ id := className, type := "product"
           name := some (getProductName products className)
           className := some className, products := none, productNames := none
           recipeCount := (byProductGet bp className).length
           isCircular := false }]
      processedSCCs := st.processedSCCs
      nodeIdMap := assocSet st.nodeIdMap className className }

/-- Accumulator of the edge-building loop. -/
structure EdgeBuildState where
  edges : List CondensationEdge
  edgeSet : List String
deriving DecidableEq

/-- One iteration of the edge-building loop over the relevant products. -/
def buildEdgesStep (bp : ByProduct) (nodeIdMap : List (String × String))
    (st : EdgeBuildState) (productClassName : String) : EdgeBuildState :=
  let recipes := byProductGet bp productClassName
  match assocGet nodeIdMap productClassName with
  | none => st
  | some sourceNodeId =>
    recipes.foldl (fun st recipe =>
      recipe.ingredients.foldl (fun st ingredient =>
        match assocGet nodeIdMap ingredient.className with
        | none => st
        | some targetNodeId =>
          if sourceNodeId == targetNodeId then st
          else
            let edgeKey := sourceNodeId ++ "->" ++ targetNodeId
            if st.edgeSet.contains edgeKey then st
            else
              let connectingRecipes := (recipes.filter (fun r =>
                r.ingredients.any (fun ing =>
                  assocGet nodeIdMap ing.className == some targetNodeId))).map
                (fun r => r.id)
              { edges := st.edges ++
                  [⟨sourceNodeId, targetNodeId, connectingRecipes,
                    decide (connectingRecipes.length > 1)⟩]
                edgeSet := st.edgeSet ++ [edgeKey] }) st) st

/-- `buildCondensationGraph`: select the relevant products (breadth-first
reachable set when a target is given, otherwise all byProduct keys), build
nodes (one meta-node per circular SCC, plain nodes otherwise), build
deduplicated edges, and derive the statistics. -/
def buildCondensationGraph (ro : RecipesOrganized)
    (products : List (String × String)) (targetProduct : Option String) :
    CondensationGraph :=
  let bp := ro.byProduct
  let sccs := ro.circularRelationships.stronglyConnectedComponents
  let circularItems := ro.circularRelationships.circularItems
  let productToSCC := buildProductToSCC sccs
  let relevantProducts := match targetProduct with
    | some t => findReachableProducts t bp
    | none => bp.map Prod.fst
  let nst := relevantProducts.foldl
    (buildNodesStep bp circularItems sccs productToSCC products relevantProducts)
    ⟨[], [], []⟩
  let est := relevantProducts.foldl (buildEdgesStep bp nst.nodeIdMap) ⟨[], []⟩
  let sccNodeCount := (nst.nodes.filter (fun n => n.type == "scc")).length
  { nodes := nst.nodes
    edges := est.edges
    stats := ⟨nst.nodes.length, nst.nodes.length - sccNodeCount, sccNodeCount,
      est.edges.length⟩
    layout := ⟨"dag", true⟩ }

/-- The items a node represents: the member products of a meta-node, or the
single className of a product node. -/
def nodeItems (n : CondensationNode) : List String :=
  match n.products with
  | some ps => ps
  | none =>
    match n.className with
    | some c => [c]
    | none => []

/-- All items represented by a node list. -/
def representedItems (nodes : List CondensationNode) : List String :=
  (nodes.map nodeItems).flatten

/-- Condensation-schema recipe for iron plate. -/
def croPlate : CRecipe :=
  ⟨"iron-plate", "Recipe_IronPlate_C", "Iron Plate",
   [⟨"Desc_IronIngot_C", 3⟩], [⟨"Desc_IronPlate_C", 2⟩], false⟩

/-- Condensation-schema recipe for iron ingot. -/
def croIngot : CRecipe :=
  ⟨"iron-ingot", "Recipe_IngotIron_C", "Iron Ingot",
   [⟨"Desc_OreIron_C", 1⟩], [⟨"Desc_IronIngot_C", 1⟩], false⟩

/-- Organized recipe data for the linear iron chain; iron ore appears only as
an ingredient, never as a byProduct key. -/
def roIron : RecipesOrganized :=
  ⟨[("Desc_IronPlate_C", [croPlate]), ("Desc_IronIngot_C", [croIngot])],
   ⟨[], [], []⟩⟩

/-! Cycle analyzer: `findStronglyConnectedComponents` (recipeProcessor.ts),
Tarjan's strongly-connected-components algorithm over the graph with an edge
from an item to each ingredient of each recipe producing it. -/

/-- JS `Set.add`: append if absent (keeps first-insertion order). -/
def addItem (l : List Item) (i : Item) : List Item :=
  if l.contains i then l else l ++ [i]

/-- All items in the graph: the index keys, then every ingredient item, in
first-seen order (a JS `Set`). -/
def allItemsOf (recipeIndex : RecipeIndex) : List Item :=
  let l := recipeIndex.foldl (fun acc e => addItem acc e.1) []
  recipeIndex.foldl (fun acc e =>
    e.2.foldl (fun acc r =>
      r.ingredients.foldl (fun acc ing => addItem acc ing.item) acc) acc) l

/-- Tarjan bookkeeping: discovery counter, discovery indices, low-links, the
"on stack" membership set, the explicit stack, and the emitted SCCs. -/
structure TarjanState where
  index : Nat
  indices : List (Item × Nat)
  lowLinks : List (Item × Nat)
  onStack : List Item
  stack : List Item
  sccs : List (List Item)
deriving DecidableEq

/-- `lowLinks.get(item)!` (the bang asserts presence; 0 is the model's value
for an absent key, never reached on the call sites). -/
def lowOf (s : TarjanState) (item : Item) : Nat :=
  (assocGet s.lowLinks item).getD 0

/-- `indices.get(item)!`. -/
def idxOf (s : TarjanState) (item : Item) : Nat :=
  (assocGet s.indices item).getD 0

/-- Overwrite `item`'s low-link. -/
def setLow (s : TarjanState) (item : Item) (v : Nat) : TarjanState :=
  { s with lowLinks := assocSet s.lowLinks item v }

/-- The do/while pop loop emitting one SCC: repeatedly pop the top of the
stack into the group until the root item itself has been popped.  Fuel is one
more than the stack length, so exhaustion is unreachable. -/
def popUntil (item : Item) : Nat → List Item → List Item → List Item →
    (List Item × List Item × List Item)
  | 0, stack, onStack, scc => (stack, onStack, scc)
  | fuel + 1, stack, onStack, scc =>
    match stack.getLast? with
    | none => (stack, onStack, scc)
    | some w =>
      let stack := stack.dropLast
      let onStack := onStack.filter (fun x => !(x == w))
      let scc := scc ++ [w]
      if w = item then (stack, onStack, scc)
      else popUntil item fuel stack onStack scc

/-- Pop the stack down to `item` and append the popped group to the SCCs. -/
def emitScc (item : Item) (s : TarjanState) : TarjanState :=
  let r := popUntil item (s.stack.length + 1) s.stack s.onStack []
  { s with stack := r.1, onStack := r.2.1, sccs := s.sccs ++ [r.2.2] }

/-- Process one successor edge of `item` in the edge scan: recurse into an
unvisited successor and fold its low-link in, or fold in the discovery index
of a successor still on the stack. -/
def visitSuccessor (g : Item → TarjanState → TarjanState) (item succ : Item)
    (s : TarjanState) : TarjanState :=
  match assocGet s.indices succ with
  | none =>
    let s := g succ s
    setLow s item (min (lowOf s item) (lowOf s succ))
  | some succIdx =>
    if s.onStack.contains succ then
      setLow s item (min (lowOf s item) succIdx)
    else s

/-- The nested recipe/ingredient edge scan of `strongConnect`. -/
def scanItem (g : Item → TarjanState → TarjanState) (recipeIndex : RecipeIndex)
    (item : Item) (s : TarjanState) : TarjanState :=
  (availRecipes recipeIndex item).foldl (fun s recipe =>
    recipe.ingredients.foldl (fun s ing => visitSuccessor g item ing.item s) s) s

/-- Assign a fresh discovery index and low-link and push the node. -/
def pushNode (item : Item) (s : TarjanState) : TarjanState :=
  { s with indices := assocSet s.indices item s.index
           lowLinks := assocSet s.lowLinks item s.index
           index := s.index + 1
           stack := s.stack ++ [item]
           onStack := addItem s.onStack item }

/-- `strongConnect`, with structural fuel: each nested call is on a
previously unvisited item, so the entry fuel (more than the item count)
cannot run out. -/
def strongConnect (recipeIndex : RecipeIndex) :
    Nat → Item → TarjanState → TarjanState
  | 0, _, s => s
  | fuel + 1, item, s =>
    let s := pushNode item s
    let s := scanItem (strongConnect recipeIndex fuel) recipeIndex item s
    if assocGet s.lowLinks item == assocGet s.indices item then emitScc item s
    else s

/-- The empty Tarjan state. -/
def initTarjan : TarjanState := ⟨0, [], [], [], [], []⟩

/-- Run Tarjan's algorithm on every item not yet visited. -/
def runTarjan (recipeIndex : RecipeIndex) : TarjanState :=
  let allItems := allItemsOf recipeIndex
  allItems.foldl (fun s item =>
    match assocGet s.indices item with
    | none => strongConnect recipeIndex (allItems.length + 1) item s
    | some _ => s) initTarjan

/-- `hasSelfLoop`: some recipe of the item lists the item itself. -/
def hasSelfLoop (item : Item) (recipeIndex : RecipeIndex) : Bool :=
  (availRecipes recipeIndex item).any (fun recipe =>
    recipe.ingredients.any (fun ing => ing.item == item))

/-- An SCC is circular when it has more than one item, or its single item
self-loops. -/
def sccIsCircular (recipeIndex : RecipeIndex) (scc : List Item) : Bool :=
  decide (scc.length > 1) ||
    (scc.length == 1 && hasSelfLoop (scc.headD "") recipeIndex)

/-- `findStronglyConnectedComponents`: run Tarjan's algorithm, then derive
the item→SCC map (later SCCs overwrite, as `Map.set` does), the circular-item
set, and the set of recipes whose ingredients close a cycle inside their own
SCC. -/
def findStronglyConnectedComponents (recipeIndex : RecipeIndex) :
    CircularAnalysis :=
  let s := runTarjan recipeIndex
  let sccs := s.sccs
  let itemToSCC := sccs.enum.foldl (fun m p =>
    p.2.foldl (fun m it => assocSet m it p.1) m) []
  let circularItems := sccs.enum.foldl (fun ci p =>
    if sccIsCircular recipeIndex p.2 then p.2.foldl addItem ci else ci) []
  let circularRecipes := recipeIndex.foldl (fun acc e =>
    if circularItems.contains e.1 then
      e.2.foldl (fun acc recipe =>
        let productSCC := assocGet itemToSCC e.1
        let hasCircularIngredient := recipe.ingredients.any (fun ing =>
          assocGet itemToSCC ing.item == productSCC)
        if hasCircularIngredient then addItem acc recipe.className else acc) acc
    else acc) []
  { stronglyConnectedComponents := sccs
    itemToSCC := itemToSCC
    circularItems := circularItems
    circularRecipes := circularRecipes }

/-- One ingredient edge of the item-dependency graph: some recipe producing
`a` lists `b` among its ingredients. -/
def depEdge (recipeIndex : RecipeIndex) (a b : Item) : Prop :=
  ∃ r ∈ availRecipes recipeIndex a, ∃ ing ∈ r.ingredients, ing.item = b

/-- Reachability through at least one ingredient edge. -/
def depReaches (recipeIndex : RecipeIndex) : Item → Item → Prop :=
  Relation.TransGen (depEdge recipeIndex)

/-- The ingredient-dependency graph has no cycle: no item reaches itself
(this covers self-loops, which are one-step cycles). -/
def depAcyclic (recipeIndex : RecipeIndex) : Prop :=
  ∀ a, ¬ depReaches recipeIndex a a

/-! Proof infrastructure for the Tarjan embedding: the execution invariant of
`TarjanState`, the pre- and postcondition of one `strongConnect` call, and the
invariant of its edge scan.  These predicates are verification artifacts, not
translations of source code. -/

/-- How many graph items are still unvisited (fuel measure). -/
def unvisitedCount (recipeIndex : RecipeIndex) (s : TarjanState) : Nat :=
  ((allItemsOf recipeIndex).filter
    (fun x => (assocGet s.indices x).isNone)).length

/-- Execution invariant of the Tarjan state. -/
structure TarjanInv (idx : RecipeIndex) (s : TarjanState) : Prop where
  low_dom : ∀ x, (assocGet s.lowLinks x).isSome ↔ (assocGet s.indices x).isSome
  idx_lt : ∀ x n, assocGet s.indices x = some n → n < s.index
  idx_inj : ∀ x y n, assocGet s.indices x = some n →
    assocGet s.indices y = some n → x = y
  low_le : ∀ x, (assocGet s.indices x).isSome → lowOf s x ≤ idxOf s x
  onStack_iff : ∀ x, s.onStack.contains x = true ↔ x ∈ s.stack
  nodup : (s.sccs.flatten ++ s.stack).Nodup
  visited_iff : ∀ x, (assocGet s.indices x).isSome ↔
    (x ∈ s.stack ∨ ∃ c ∈ s.sccs, x ∈ c)
  visited_sub : ∀ x, (assocGet s.indices x).isSome → x ∈ allItemsOf idx
  stack_incr : s.stack.Pairwise (fun a b => idxOf s a < idxOf s b)
  stack_reach : s.stack.Pairwise (Relation.ReflTransGen (depEdge idx))
  low_witness : ∀ u ∈ s.stack, ∃ x ∈ s.stack,
    idxOf s x = lowOf s u ∧ Relation.ReflTransGen (depEdge idx) u x
  scc_mutual : ∀ c ∈ s.sccs, ∀ x ∈ c, ∀ y ∈ c,
    Relation.ReflTransGen (depEdge idx) x y
  scc_nonempty : ∀ c ∈ s.sccs, c ≠ []
  scc_edges : ∀ i c, s.sccs.get? i = some c → ∀ x ∈ c, ∀ y, depEdge idx x y →
    ∃ j c', j ≤ i ∧ s.sccs.get? j = some c' ∧ y ∈ c'

/-- Precondition of `strongConnect idx fuel v s`. -/
structure SCPre (idx : RecipeIndex) (v : Item) (s : TarjanState) : Prop where
  inv : TarjanInv idx s
  unvisited : assocGet s.indices v = none
  mem_all : v ∈ allItemsOf idx
  stack_to_v : ∀ u ∈ s.stack, Relation.ReflTransGen (depEdge idx) u v

/-- Postcondition of `strongConnect idx fuel v s` returning `s'`. -/
structure SCPost (idx : RecipeIndex) (v : Item) (s s' : TarjanState) : Prop where
  inv : TarjanInv idx s'
  idx_stable : ∀ x, (assocGet s.indices x).isSome →
    assocGet s'.indices x = assocGet s.indices x
  low_stable : ∀ x, (assocGet s.indices x).isSome →
    assocGet s'.lowLinks x = assocGet s.lowLinks x
  counter_lt : s.index < s'.index
  v_index : assocGet s'.indices v = some s.index
  new_idx_ge : ∀ x n, assocGet s'.indices x = some n →
    (assocGet s.indices x).isSome ∨ s.index ≤ n
  reach_new : ∀ x, (assocGet s'.indices x).isSome →
    (assocGet s.indices x).isNone → Relation.ReflTransGen (depEdge idx) v x
  sccs_ext : ∃ new, s'.sccs = s.sccs ++ new
  stack_low : (s'.stack = s.stack ∧ lowOf s' v = idxOf s' v) ∨
    (∃ ext, s'.stack = s.stack ++ v :: ext ∧ lowOf s' v < idxOf s' v)
  ext_new : ∀ x ∈ s'.stack, x ∈ s.stack ∨ (assocGet s.indices x).isNone
  ext_strict : ∀ x ∈ s'.stack, x ∉ s.stack → x ≠ v → lowOf s' x < idxOf s' x
  ext_low_ge : ∀ x ∈ s'.stack, x ∉ s.stack → lowOf s' v ≤ lowOf s' x
  ext_edgeP : ∀ x ∈ s'.stack, x ∉ s.stack → ∀ y, depEdge idx x y →
    (∃ c ∈ s'.sccs, y ∈ c) ∨ (y ∈ s'.stack ∧ lowOf s' x ≤ idxOf s' y)

/-- Invariant of the edge scan of `v`: `s0stk` and `i0` are the stack and
counter before `v` was pushed, `s1` the state right after the push, `done`
the successors already processed, and `t` the current state. -/
structure ScanInv (idx : RecipeIndex) (v : Item) (i0 : Nat) (s0stk : List Item)
    (s1 : TarjanState) (done : List Item) (t : TarjanState) : Prop where
  inv : TarjanInv idx t
  idx_stable : ∀ x, (assocGet s1.indices x).isSome →
    assocGet t.indices x = assocGet s1.indices x
  low_stable_old : ∀ x, (assocGet s1.indices x).isSome → x ≠ v →
    assocGet t.lowLinks x = assocGet s1.lowLinks x
  counter_ge : s1.index ≤ t.index
  new_idx_ge : ∀ x n, assocGet t.indices x = some n →
    (assocGet s1.indices x).isSome ∨ s1.index ≤ n
  stack_shape : ∃ ext, t.stack = s0stk ++ v :: ext ∧
    ∀ x ∈ ext, (assocGet s1.indices x).isNone ∧ lowOf t x < idxOf t x ∧
      lowOf t v ≤ lowOf t x
  reach_new : ∀ x, (assocGet t.indices x).isSome →
    (assocGet s1.indices x).isNone → Relation.ReflTransGen (depEdge idx) v x
  sccs_ext : ∃ new, t.sccs = s1.sccs ++ new
  edgeP_done : ∀ y ∈ done, (∃ c ∈ t.sccs, y ∈ c) ∨
    (y ∈ t.stack ∧ lowOf t v ≤ idxOf t y)
  edgeP_ext : ∀ x, x ∈ t.stack → (assocGet s1.indices x).isNone → ∀ y,
    depEdge idx x y →
    (∃ c ∈ t.sccs, y ∈ c) ∨ (y ∈ t.stack ∧ lowOf t x ≤ idxOf t y)

/-- The flattened successor list of an item: every ingredient of every recipe
producing it, in scan order. -/
def succList (recipeIndex : RecipeIndex) (item : Item) : List Item :=
  ((availRecipes recipeIndex item).map
    (fun r => r.ingredients.map (fun ing => ing.item))).flatten

/-- A rank function on the linear iron index, witnessing its acyclicity
(verification artifact). -/
def rankIron (s : Item) : Nat :=
  if s = "Desc_IronPlate_C" then 2 else if s = "Desc_IronIngot_C" then 1 else 0

/-- Mutually circular pair: the only recipe of each item needs the other
item. -/
def recCircA : ProcessedRecipe :=
  ⟨"Recipe_CA_C", "Circ A", [⟨"ItemB", 1⟩], [⟨"ItemA", 1⟩], "M", false⟩

/-- The matching second recipe of the circular pair. -/
def recCircB : ProcessedRecipe :=
  ⟨"Recipe_CB_C", "Circ B", [⟨"ItemA", 1⟩], [⟨"ItemB", 1⟩], "M", false⟩

/-- A two-item index whose ingredient graph is the 2-cycle ItemA ↔ ItemB. -/
def idxCirc : RecipeIndex :=
  [("ItemA", [recCircA]), ("ItemB", [recCircB])]

/-! Theorems.  Supporting lemmas come first; each claim's theorem carries a
doc comment naming the claim. -/

theorem pathLookup_cons (e : Item × ProcessedRecipe) (p : RecipePath) (k : Item) :
    pathLookup (e :: p) k = if e.1 == k then some e.2 else pathLookup p k := by
  simp only [pathLookup, List.find?]
  cases h : (e.1 == k) <;> simp [h]

theorem pathLookup_map_set (p : RecipePath) (k : Item) (r : ProcessedRecipe)
    (k' : Item) :
    pathLookup (p.map (fun e => if e.1 == k then (k, r) else e)) k'
      = if k' = k then (if p.any (fun e => e.1 == k) then some r else none)
        else pathLookup p k' := by
  induction p with
  | nil => by_cases h : k' = k <;> simp [pathLookup, h]
  | cons e p ih =>
    rw [List.map_cons, pathLookup_cons, pathLookup_cons]
    by_cases hek : e.1 = k
    · by_cases hk : k' = k
      · subst hk; simp [hek, ih]
      · have h1 : ((if (e.1 == k) = true then (k, r) else e).1 == k') = false := by
          simp only [hek, beq_self_eq_true, if_true]
          exact beq_eq_false_iff_ne.mpr (fun h => hk h.symm)
        have h2 : (e.1 == k') = false := by
          rw [hek]; exact beq_eq_false_iff_ne.mpr (fun h => hk h.symm)
        simp only [h1, h2, Bool.false_eq_true, if_false, ih, if_neg hk]
    · have h1 : (if (e.1 == k) = true then (k, r) else e) = e := by
        simp [beq_eq_false_iff_ne.mpr hek]
      rw [h1]
      by_cases hk : k' = k
      · subst hk
        have h2 : (e.1 == k') = false := beq_eq_false_iff_ne.mpr hek
        simp only [h2, Bool.false_eq_true, if_false, ih, if_pos rfl, List.any_cons,
          Bool.false_or]
      · rw [if_neg hk]
        cases h : (e.1 == k') with
        | true => simp only [h, if_true]
        | false => simp only [h, Bool.false_eq_true, if_false, ih, if_neg hk]

theorem pathLookup_append (p q : RecipePath) (k : Item) :
    pathLookup (p ++ q) k
      = match pathLookup p k with
        | some r => some r
        | none => pathLookup q k := by
  induction p with
  | nil => simp [pathLookup]
  | cons e p ih =>
    rw [List.cons_append, pathLookup_cons, pathLookup_cons]
    cases h : (e.1 == k) <;> simp [ih]

theorem pathLookup_setKey (p : RecipePath) (k : Item) (r : ProcessedRecipe)
    (k' : Item) :
    pathLookup (setKey p k r) k' = if k' = k then some r else pathLookup p k' := by
  unfold setKey
  by_cases hany : p.any (fun e => e.1 == k)
  · rw [if_pos hany, pathLookup_map_set, if_pos hany]
  · rw [if_neg hany, pathLookup_append]
    by_cases hk : k' = k
    · subst hk
      have hnone : pathLookup p k' = none := by
        induction p with
        | nil => rfl
        | cons e p ih =>
          rw [pathLookup_cons]
          simp only [List.any_cons, Bool.or_eq_true, not_or] at hany
          have : (e.1 == k') = false := by
            cases h : (e.1 == k') with
            | true => exact absurd h hany.1
            | false => rfl
          simp only [this, Bool.false_eq_true, if_false]
          exact ih hany.2
      rw [hnone]
      simp [pathLookup]
    · rw [if_neg hk]
      cases h : pathLookup p k' with
      | some r' => rfl
      | none =>
        simp only [pathLookup, List.find?]
        have : (k == k') = false := beq_eq_false_iff_ne.mpr (fun h => hk h.symm)
        simp [this]

theorem pathLookup_eq_none_of_not_mem_keys (q : RecipePath) (k : Item)
    (h : k ∉ q.map Prod.fst) : pathLookup q k = none := by
  induction q with
  | nil => rfl
  | cons e q ih =>
    rw [pathLookup_cons]
    simp only [List.map_cons, List.mem_cons, not_or] at h
    have : (e.1 == k) = false := beq_eq_false_iff_ne.mpr (fun he => h.1 he.symm)
    simp only [this, Bool.false_eq_true, if_false]
    exact ih h.2

theorem mergePaths_lookup (q : RecipePath) (hq : (q.map Prod.fst).Nodup)
    (p : RecipePath) (k : Item) :
    pathLookup (mergePaths p q) k
      = match pathLookup q k with
        | some r => some r
        | none => pathLookup p k := by
  induction q generalizing p with
  | nil => rfl
  | cons e q ih =>
    rw [List.map_cons, List.nodup_cons] at hq
    have step : mergePaths p (e :: q) = mergePaths (setKey p e.1 e.2) q := by
      simp [mergePaths]
    rw [step, ih hq.2, pathLookup_cons]
    by_cases hek : e.1 = k
    · have hnone : pathLookup q k = none :=
        pathLookup_eq_none_of_not_mem_keys _ _ (hek ▸ hq.1)
      rw [hnone, pathLookup_setKey]
      simp [hek]
    · rw [pathLookup_setKey, if_neg (fun h => hek h.symm)]
      simp [beq_eq_false_iff_ne.mpr hek]

theorem genIngredientsChk_fst (g : GenFn) (gChk : GenFnChk)
    (hg : ∀ i p s e d c n, (gChk i p s e d c n).1 = g i p s e d c n)
    (np : RecipePath) (nps : List Item) (ce : List CircularEdge) (d : Nat)
    (ings : List Item) :
    ∀ (cache : MemoCache) (count : Nat),
      (genIngredientsChk gChk np nps ce d ings cache count).1
        = genIngredients g np nps ce d ings cache count := by
  induction ings with
  | nil => intro cache count; rfl
  | cons ing rest ih =>
    intro cache count
    simp only [genIngredientsChk, genIngredients, hg, ih]

theorem tryRecipesChk_fst (MAXC : Nat) (g : GenFn) (gChk : GenFnChk)
    (hg : ∀ i p s e d c n, (gChk i p s e d c n).1 = g i p s e d c n)
    (item : Item) (cp : RecipePath) (nps : List Item) (ce : List CircularEdge)
    (d : Nat) (recipes : List ProcessedRecipe) :
    ∀ (acc : List RecipeResult) (cache : MemoCache) (count : Nat),
      (tryRecipesChk MAXC gChk item cp nps ce d recipes acc cache count).1
        = tryRecipes MAXC g item cp nps ce d recipes acc cache count := by
  induction recipes with
  | nil => intro acc cache count; rfl
  | cons recipe rest ih =>
    intro acc cache count
    simp only [tryRecipesChk, tryRecipes, genIngredientsChk_fst g gChk hg]
    by_cases hie : (recipe.ingredients.map (fun ing => ing.item)).isEmpty = true
    · simp only [hie, if_true, ih]
    · simp only [Bool.not_eq_true] at hie
      simp only [hie, Bool.false_eq_true, if_false]
      split
      · rfl
      · simp only [ih]

theorem generateRecipeCombinationsChk_fst (MAXC MAXD : Nat)
    (idx : RecipeIndex) (ana : CircularAnalysis) (flag : Bool) (fuel : Nat) :
    ∀ i p s e d c n,
      (generateRecipeCombinationsChk MAXC MAXD idx ana flag fuel i p s e d c n).1
        = generateRecipeCombinations MAXC MAXD idx ana flag fuel i p s e d c n := by
  induction fuel with
  | zero => intro i p s e d c n; rfl
  | succ fuel ih =>
    intro i p s e d c n
    simp only [generateRecipeCombinationsChk, generateRecipeCombinations]
    cases hc : cacheGet c (getCacheKey i flag s) with
    | some cached => rfl
    | none =>
      simp only
      split <;> try rfl
      split <;> try rfl
      split <;> try rfl
      split <;> try rfl
      split <;> try rfl
      split <;> try rfl
      simp only [tryRecipesChk_fst MAXC _ _ ih]

/-- C1 counterexample: on the diamond-shaped index (A needs B and C, each made
from X, and X has two alternative recipes), the top-level generation run
combines ingredient-level result sets whose partial RecipePaths assign
different recipes to the shared item X, so not every cartesian-product merge
is between agreeing paths (the faithfulness lemma
generateRecipeCombinationsChk_fst ties the instrumented run to the
generator). -/
theorem C1_counterexample :
    runMergesAgree MAX_COMBINATIONS MAX_DEPTH "A" idxDiamond anaEmpty false
      = false := by decide

/-- C1 (amended): partial RecipePaths combined by the generator's cartesian
product may disagree on a shared item key (diamond dependencies are resolved
independently per ingredient); the object spread used by
cartesianProductWithCirculars resolves every such disagreement right-biased,
the later operand's write winning: a lookup in mergePaths p q takes q's
binding when present and falls back to p. -/
theorem C1_merge_right_biased (q : RecipePath) (hq : (q.map Prod.fst).Nodup)
    (p : RecipePath) (k : Item) :
    pathLookup (mergePaths p q) k
      = match pathLookup q k with
        | some r => some r
        | none => pathLookup p k :=
  mergePaths_lookup q hq p k

/-- Witness for the amended C1 theorem at a concrete conflicting merge. -/
theorem C1_witness :
    (([("X", recX2)].map Prod.fst).Nodup : Prop) ∧
      pathLookup (mergePaths [("X", recX1)] [("X", recX2)]) "X"
        = match pathLookup [("X", recX2)] "X" with
          | some r => some r
          | none => pathLookup [("X", recX1)] "X" :=
  ⟨by decide, C1_merge_right_biased [("X", recX2)] (by decide) [("X", recX1)] "X"⟩

/-- C3 counterexample: with a configured ceiling of 3, an item produced by
four zero-ingredient recipes yields four returned combinations: each leaf
result is pushed with a counter bump but no ceiling test, so the returned
count exceeds the ceiling (and in particular does not equal it, though the
true combination count exceeds the ceiling). -/
theorem C3_counterexample :
    3 < (getAllWith 3 20 "A" idxLeaves anaEmpty false []).length := by decide

/-- C6: when every recipe available for an item is flagged circular by the
CircularAnalysis, the generator's recipe-selection step recipesToUse (the list
the recipe loop of generateRecipeCombinations iterates) is exactly the
singleton of the first recipe in the index's source order, rather than empty
or a failure. -/
theorem C6_all_circular_uses_first (circularRecipes : List String)
    (r : ProcessedRecipe) (rest : List ProcessedRecipe)
    (h : ∀ q ∈ r :: rest, circularRecipes.contains q.className = true) :
    recipesToUse circularRecipes (r :: rest) = [r] := by
  have hfil : (r :: rest).filter
      (fun q => !(circularRecipes.contains q.className)) = [] := by
    rw [List.filter_eq_nil_iff]
    intro a ha
    simpa using h a ha
  simp only [recipesToUse]
  rw [hfil]
  simp

/-- Witness for C6 at a concrete item whose only recipes are all circular. -/
theorem C6_witness :
    (∀ q ∈ [recAd, recBd], (["Recipe_Ad_C", "Recipe_Bd_C"] : List String).contains
        q.className = true) ∧
      recipesToUse ["Recipe_Ad_C", "Recipe_Bd_C"] [recAd, recBd] = [recAd] :=
  ⟨by decide,
   C6_all_circular_uses_first ["Recipe_Ad_C", "Recipe_Bd_C"] recAd [recBd] (by decide)⟩

/-- C8: running the top-level combination generation twice on identical inputs
yields identical lists of ProductionCombination ids, whatever memoization
cache contents each run started from, because getAllProductionCombinations
clears the cache before generating. -/
theorem C8_two_run_determinism (target : Item) (idx : RecipeIndex)
    (ana : CircularAnalysis) (flag : Bool) (cache1 cache2 : MemoCache) :
    (getAllProductionCombinations target idx ana flag cache1).map
        (fun c => c.id)
      = (getAllProductionCombinations target idx ana flag cache2).map
        (fun c => c.id) := rfl

/-- C10: a generator call on an item that is not a base resource, not
raw-overridden, not already open on the path stack, and produced by at least
one recipe, whose key the memo cache does not hold, returns — when the depth
exceeds the maximum — the singleton result carrying the incoming RecipePath
and CircularEdge list unchanged, with cache and counter untouched, exactly
like a raw-material leaf. -/
theorem C10_depth_truncation (MAXC MAXD : Nat) (idx : RecipeIndex)
    (ana : CircularAnalysis) (flag : Bool) (fuel : Nat) (item : Item)
    (currentPath : RecipePath) (pathStack : List Item)
    (circularEdges : List CircularEdge) (depth : Nat) (cache : MemoCache)
    (count : Nat)
    (hmiss : cacheGet cache (getCacheKey item flag pathStack) = none)
    (hbase : isBaseResource item = false)
    (hingot : (flag && includesStr item "Ingot") = false)
    (hstack : pathStack.contains item = false)
    (hrec : (availRecipes idx item).isEmpty = false)
    (hdepth : depth > MAXD) :
    generateRecipeCombinations MAXC MAXD idx ana flag (fuel + 1) item
        currentPath pathStack circularEdges depth cache count
      = ⟨[⟨currentPath, circularEdges⟩], cache, count⟩ := by
  simp only [generateRecipeCombinations, hmiss, hbase, hingot, hstack, hrec,
    Bool.false_eq_true, if_false, hdepth, if_true]

/-- Witness for C10 at a concrete over-deep call. -/
theorem C10_witness :
    (cacheGet [] (getCacheKey "Desc_IronPlate_C" false []) = none ∧
      isBaseResource "Desc_IronPlate_C" = false ∧
      (false && includesStr "Desc_IronPlate_C" "Ingot") = false ∧
      ([] : List Item).contains "Desc_IronPlate_C" = false ∧
      (availRecipes idxIron "Desc_IronPlate_C").isEmpty = false ∧ 21 > 20) ∧
    generateRecipeCombinations 1000 20 idxIron anaEmpty false 1
        "Desc_IronPlate_C" [] [] [] 21 [] 0
      = ⟨[⟨[], []⟩], [], 0⟩ :=
  ⟨⟨rfl, by decide, rfl, rfl, by decide, by decide⟩,
   C10_depth_truncation 1000 20 idxIron anaEmpty false 0 "Desc_IronPlate_C"
     [] [] [] 21 [] 0 rfl (by decide) rfl rfl (by decide) (by decide)⟩

theorem mem_extractRawMaterials (idx : RecipeIndex) (flag : Bool)
    (p : RecipePath) (m : Item)
    (hm : m ∈ extractRawMaterials p idx flag) :
    (availRecipes idx m).isEmpty = true ∨ isBaseResource m = true ∨
      (flag = true ∧ includesStr m "Ingot" = true) := by
  have inner : ∀ (ings : List RecipeIngredient) (raws : List Item),
      (∀ x ∈ raws, (availRecipes idx x).isEmpty = true ∨ isBaseResource x = true ∨
        (flag = true ∧ includesStr x "Ingot" = true)) →
      ∀ x ∈ ings.foldl (fun raws ingredient =>
          let itemClass := ingredient.item
          let hasRecipe := !(availRecipes idx itemClass).isEmpty
          let isIngot := flag && includesStr itemClass "Ingot"
          if !hasRecipe || isBaseResource itemClass || isIngot then
            if raws.contains itemClass then raws else raws ++ [itemClass]
          else raws) raws,
        (availRecipes idx x).isEmpty = true ∨ isBaseResource x = true ∨
          (flag = true ∧ includesStr x "Ingot" = true) := by
    intro ings
    induction ings with
    | nil => intro raws h x hx; exact h x hx
    | cons ing rest ih =>
      intro raws h x hx
      rw [List.foldl_cons] at hx
      refine ih _ ?_ x hx
      intro y hy
      by_cases hcond : (!(!(availRecipes idx ing.item).isEmpty)
          || isBaseResource ing.item || (flag && includesStr ing.item "Ingot")) = true
      · simp only [hcond, if_true] at hy
        by_cases hdup : raws.contains ing.item = true
        · simp only [hdup, if_true] at hy
          exact h y hy
        · simp only [Bool.not_eq_true] at hdup
          simp only [hdup, Bool.false_eq_true, if_false, List.mem_append,
            List.mem_singleton] at hy
          rcases hy with hy | rfl
          · exact h y hy
          · simp only [Bool.not_not, Bool.or_eq_true, Bool.and_eq_true] at hcond
            tauto
      · simp only [Bool.not_eq_true] at hcond
        simp only [hcond, Bool.false_eq_true, if_false] at hy
        exact h y hy
  unfold extractRawMaterials at hm
  have outer : ∀ (entries : RecipePath) (raws : List Item),
      (∀ x ∈ raws, (availRecipes idx x).isEmpty = true ∨ isBaseResource x = true ∨
        (flag = true ∧ includesStr x "Ingot" = true)) →
      ∀ x ∈ entries.foldl (fun raws e =>
          e.2.ingredients.foldl (fun raws ingredient =>
            let itemClass := ingredient.item
            let hasRecipe := !(availRecipes idx itemClass).isEmpty
            let isIngot := flag && includesStr itemClass "Ingot"
            if !hasRecipe || isBaseResource itemClass || isIngot then
              if raws.contains itemClass then raws else raws ++ [itemClass]
            else raws) raws) raws,
        (availRecipes idx x).isEmpty = true ∨ isBaseResource x = true ∨
          (flag = true ∧ includesStr x "Ingot" = true) := by
    intro entries
    induction entries with
    | nil => intro raws h x hx; exact h x hx
    | cons e rest ih =>
      intro raws h x hx
      rw [List.foldl_cons] at hx
      exact ih _ (fun y hy => inner e.2.ingredients raws h y hy) x hx
  exact outer p [] (by intro x hx; cases hx) m hm

/-- C7: every item in the rawMaterials list of any ProductionCombination
returned by the generator has no producing recipe in the RecipeIndex, or
belongs to the configured base-resource set, or the raw-override flag is set
and the item matches the ingot naming rule — the three conditions are never
simultaneously false. -/
theorem C7_raw_materials (MAXC MAXD : Nat) (target : Item) (idx : RecipeIndex)
    (ana : CircularAnalysis) (flag : Bool) (cache0 : MemoCache)
    (combo : ProductionCombination) (m : Item)
    (hc : combo ∈ getAllWith MAXC MAXD target idx ana flag cache0)
    (hm : m ∈ combo.rawMaterials) :
    (availRecipes idx m).isEmpty = true ∨ isBaseResource m = true ∨
      (flag = true ∧ includesStr m "Ingot" = true) := by
  simp only [getAllWith, List.mem_map] at hc
  obtain ⟨e, he, rfl⟩ := hc
  exact mem_extractRawMaterials idx flag e.2.path m (by simpa using hm)

/-- Witness for C7 on the concrete iron index: iron ore appears in the raw
materials of the single returned combination and has no producing recipe. -/
theorem C7_witness :
    ((getAllWith 1000 20 "Desc_IronPlate_C" idxIron anaEmpty false []).length = 1 ∧
     ∃ combo ∈ getAllWith 1000 20 "Desc_IronPlate_C" idxIron anaEmpty false [],
       "Desc_OreIron_C" ∈ combo.rawMaterials) ∧
    ((availRecipes idxIron "Desc_OreIron_C").isEmpty = true ∨
      isBaseResource "Desc_OreIron_C" = true ∨
      (false = true ∧ includesStr "Desc_OreIron_C" "Ingot" = true)) := by
  refine ⟨by decide, ?_⟩
  refine C7_raw_materials 1000 20 "Desc_IronPlate_C" idxIron anaEmpty false []
    ((getAllWith 1000 20 "Desc_IronPlate_C" idxIron anaEmpty false []).headI)
    "Desc_OreIron_C" ?_ ?_
  · decide
  · decide

theorem mem_recipesToUse (crs : List String) (avail : List ProcessedRecipe)
    (r : ProcessedRecipe) (hr : r ∈ recipesToUse crs avail) : r ∈ avail := by
  simp only [recipesToUse] at hr
  split at hr
  · exact List.mem_of_mem_filter hr
  · exact List.mem_of_mem_take hr

theorem mem_availRecipes (idx : RecipeIndex) (item : Item)
    (r : ProcessedRecipe) (hr : r ∈ availRecipes idx item) :
    ∃ e ∈ idx, r ∈ e.2 := by
  simp only [availRecipes, lookupIndex] at hr
  cases hfind : idx.find? (fun e => e.1 == item) with
  | none => rw [hfind] at hr; cases hr
  | some e =>
    rw [hfind] at hr
    exact ⟨e, List.mem_of_find?_eq_some hfind, hr⟩

theorem jsSliceTo_length_le (l : List RecipeResult) (e : Int) :
    (jsSliceTo l e).length ≤ l.length := by
  unfold jsSliceTo
  split <;> exact (List.length_take _ _).trans_le (by omega)

theorem jsSliceTo_length_le_toNat (l : List RecipeResult) (e : Int) (he : 0 ≤ e) :
    (jsSliceTo l e).length ≤ e.toNat := by
  unfold jsSliceTo
  rw [if_pos he]
  exact (List.length_take _ _).trans_le (by omega)

theorem genIngredients_count (M : Nat) (g : GenFn)
    (hg : ∀ i p s e d c n, n ≤ M →
      n ≤ (g i p s e d c n).count ∧ (g i p s e d c n).count ≤ M)
    (np : RecipePath) (nps : List Item) (ce : List CircularEdge) (d : Nat)
    (ings : List Item) :
    ∀ (cache : MemoCache) (count : Nat), count ≤ M →
      count ≤ (genIngredients g np nps ce d ings cache count).2.2 ∧
        (genIngredients g np nps ce d ings cache count).2.2 ≤ M := by
  induction ings with
  | nil => intro cache count h; exact ⟨le_refl _, h⟩
  | cons ing rest ih =>
    intro cache count h
    simp only [genIngredients]
    have h1 := hg ing np nps ce (d + 1) cache count h
    have h2 := ih (g ing np nps ce (d + 1) cache count).cache
      (g ing np nps ce (d + 1) cache count).count h1.2
    exact ⟨h1.1.trans h2.1, h2.2⟩

theorem tryRecipes_count (M : Nat) (g : GenFn)
    (hg : ∀ i p s e d c n, n ≤ M →
      n ≤ (g i p s e d c n).count ∧ (g i p s e d c n).count ≤ M)
    (item : Item) (cp : RecipePath) (nps : List Item) (ce : List CircularEdge)
    (d : Nat) (recipes : List ProcessedRecipe)
    (hrec : ∀ r ∈ recipes, r.ingredients ≠ []) :
    ∀ (acc : List RecipeResult) (cache : MemoCache) (count : Nat), count ≤ M →
      count ≤ (tryRecipes M g item cp nps ce d recipes acc cache count).2.2 ∧
        (tryRecipes M g item cp nps ce d recipes acc cache count).2.2 ≤ M := by
  induction recipes with
  | nil => intro acc cache count h; exact ⟨le_refl _, h⟩
  | cons recipe rest ih =>
    intro acc cache count h
    have hne : (recipe.ingredients.map (fun ing => ing.item)).isEmpty = false := by
      have := hrec recipe (List.mem_cons_self _ _)
      cases hi : recipe.ingredients with
      | nil => exact absurd hi this
      | cons a l => simp [hi]
    simp only [tryRecipes, hne, Bool.false_eq_true, if_false]
    have hgi := genIngredients_count M g hg (setKey cp item recipe) nps ce d
      (recipe.ingredients.map (fun ing => ing.item)) cache count h
    split
    · exact ⟨hgi.1.trans hgi.2, le_refl M⟩
    · rename_i hnotgt
      have hle : (genIngredients g (setKey cp item recipe) nps ce d
          (recipe.ingredients.map (fun ing => ing.item)) cache count).2.2 +
          (cartesianProductWithCirculars (genIngredients g (setKey cp item recipe)
            nps ce d (recipe.ingredients.map (fun ing => ing.item)) cache
            count).1).length ≤ M := by omega
      have := ih (fun r hr => hrec r (List.mem_cons_of_mem _ hr))
        (acc ++ cartesianProductWithCirculars (genIngredients g (setKey cp item recipe)
          nps ce d (recipe.ingredients.map (fun ing => ing.item)) cache count).1)
        (genIngredients g (setKey cp item recipe) nps ce d
          (recipe.ingredients.map (fun ing => ing.item)) cache count).2.1
        ((genIngredients g (setKey cp item recipe) nps ce d
          (recipe.ingredients.map (fun ing => ing.item)) cache count).2.2 +
          (cartesianProductWithCirculars (genIngredients g (setKey cp item recipe)
            nps ce d (recipe.ingredients.map (fun ing => ing.item)) cache
            count).1).length) hle
      exact ⟨le_trans (le_trans hgi.1 (Nat.le_add_right _ _)) this.1, this.2⟩

theorem gen_count (M D : Nat) (idx : RecipeIndex) (ana : CircularAnalysis)
    (flag : Bool)
    (hidx : ∀ e ∈ idx, ∀ r ∈ e.2, r.ingredients ≠ []) :
    ∀ (fuel : Nat) (i : Item) (p : RecipePath) (s : List Item)
      (e : List CircularEdge) (d : Nat) (c : MemoCache) (n : Nat), n ≤ M →
      n ≤ (generateRecipeCombinations M D idx ana flag fuel i p s e d c n).count ∧
        (generateRecipeCombinations M D idx ana flag fuel i p s e d c n).count ≤ M := by
  intro fuel
  induction fuel with
  | zero => intro i p s e d c n h; exact ⟨le_refl _, h⟩
  | succ fuel ih =>
    intro i p s e d c n h
    simp only [generateRecipeCombinations]
    cases hc : cacheGet c (getCacheKey i flag s) with
    | some cached => exact ⟨le_refl _, h⟩
    | none =>
      simp only
      split
      · exact ⟨le_refl _, h⟩
      split
      · exact ⟨le_refl _, h⟩
      split
      · exact ⟨le_refl _, h⟩
      split
      · exact ⟨le_refl _, h⟩
      split
      · exact ⟨le_refl _, h⟩
      split
      · exact ⟨le_refl _, h⟩
      have hrec : ∀ r ∈ recipesToUse ana.circularRecipes (availRecipes idx i),
          r.ingredients ≠ [] := by
        intro r hr
        obtain ⟨en, hen, hren⟩ := mem_availRecipes idx i r (mem_recipesToUse _ _ r hr)
        exact hidx en hen r hren
      exact tryRecipes_count M _ ih i p (s ++ [i]) e d _ hrec [] c n h

theorem tryRecipes_length (M : Nat) (g : GenFn)
    (hg : ∀ i p s e d c n, n ≤ M →
      n ≤ (g i p s e d c n).count ∧ (g i p s e d c n).count ≤ M)
    (item : Item) (cp : RecipePath) (nps : List Item) (ce : List CircularEdge)
    (d : Nat) (recipes : List ProcessedRecipe)
    (hrec : ∀ r ∈ recipes, r.ingredients ≠ []) :
    ∀ (acc : List RecipeResult) (cache : MemoCache) (count : Nat), count ≤ M →
      (tryRecipes M g item cp nps ce d recipes acc cache count).1.length
        ≤ acc.length + (M - count) := by
  induction recipes with
  | nil => intro acc cache count h; exact Nat.le_add_right _ _
  | cons recipe rest ih =>
    intro acc cache count h
    have hne : (recipe.ingredients.map (fun ing => ing.item)).isEmpty = false := by
      have := hrec recipe (List.mem_cons_self _ _)
      cases hi : recipe.ingredients with
      | nil => exact absurd hi this
      | cons a l => simp [hi]
    simp only [tryRecipes, hne, Bool.false_eq_true, if_false]
    have hgi := genIngredients_count M g hg (setKey cp item recipe) nps ce d
      (recipe.ingredients.map (fun ing => ing.item)) cache count h
    split
    · rename_i hgt
      rw [List.length_append]
      have hsl := jsSliceTo_length_le_toNat
        (cartesianProductWithCirculars (genIngredients g (setKey cp item recipe)
          nps ce d (recipe.ingredients.map (fun ing => ing.item)) cache count).1)
        ((M : Int) - ((genIngredients g (setKey cp item recipe) nps ce d
          (recipe.ingredients.map (fun ing => ing.item)) cache count).2.2 : Int))
        (by omega)
      have h1 := hgi.1
      have h2 := hgi.2
      omega
    · rename_i hnotgt
      have hle : (genIngredients g (setKey cp item recipe) nps ce d
          (recipe.ingredients.map (fun ing => ing.item)) cache count).2.2 +
          (cartesianProductWithCirculars (genIngredients g (setKey cp item recipe)
            nps ce d (recipe.ingredients.map (fun ing => ing.item)) cache
            count).1).length ≤ M := by omega
      have hrest := ih (fun r hr => hrec r (List.mem_cons_of_mem _ hr))
        (acc ++ cartesianProductWithCirculars (genIngredients g (setKey cp item recipe)
          nps ce d (recipe.ingredients.map (fun ing => ing.item)) cache count).1)
        (genIngredients g (setKey cp item recipe) nps ce d
          (recipe.ingredients.map (fun ing => ing.item)) cache count).2.1
        ((genIngredients g (setKey cp item recipe) nps ce d
          (recipe.ingredients.map (fun ing => ing.item)) cache count).2.2 +
          (cartesianProductWithCirculars (genIngredients g (setKey cp item recipe)
            nps ce d (recipe.ingredients.map (fun ing => ing.item)) cache
            count).1).length) hle
      rw [List.length_append] at hrest
      have h1 := hgi.1
      omega

theorem gen_top_length (M D : Nat) (idx : RecipeIndex) (ana : CircularAnalysis)
    (flag : Bool)
    (hidx : ∀ e ∈ idx, ∀ r ∈ e.2, r.ingredients ≠ []) (fuel : Nat) (i : Item)
    (p : RecipePath) (s : List Item) (e : List CircularEdge) (d : Nat)
    (cache : MemoCache) (n : Nat) (hn : n ≤ M)
    (hmiss : cacheGet cache (getCacheKey i flag s) = none) :
    (generateRecipeCombinations M D idx ana flag (fuel + 1) i p s e d cache
      n).results.length ≤ max 1 (M - n) := by
  simp only [generateRecipeCombinations, hmiss]
  split
  · exact le_max_of_le_left (by simp)
  split
  · exact le_max_of_le_left (by simp)
  split
  · exact le_max_of_le_left (by simp)
  split
  · exact le_max_of_le_left (by simp)
  split
  · exact le_max_of_le_left (by simp)
  split
  · exact le_max_of_le_left (by simp)
  have hrec : ∀ r ∈ recipesToUse ana.circularRecipes (availRecipes idx i),
      r.ingredients ≠ [] := by
    intro r hr
    obtain ⟨en, hen, hren⟩ := mem_availRecipes idx i r (mem_recipesToUse _ _ r hr)
    exact hidx en hen r hren
  have := tryRecipes_length M _ (gen_count M D idx ana flag hidx fuel) i p
    (s ++ [i]) e d _ hrec [] cache n hn
  simp only [List.length_nil, Nat.zero_add] at this
  exact le_max_of_le_right this

theorem dedup_foldl_length (l : List RecipeResult) :
    ∀ (m : List (String × RecipeResult)),
      (l.foldl (fun m result =>
        if m.any (fun e => e.1 == pathId result.path) then m
        else m ++ [(pathId result.path, result)]) m).length ≤ m.length + l.length := by
  induction l with
  | nil => intro m; simp
  | cons a l ih =>
    intro m
    rw [List.foldl_cons]
    split
    · have h1 := ih m
      simp only [List.length_cons]
      omega
    · have h1 := ih (m ++ [(pathId a.path, a)])
      simp only [List.length_append, List.length_cons, List.length_nil] at h1 ⊢
      omega

/-- C3 (amended): provided the ceiling is at least 1 and no recipe anywhere in
the RecipeIndex has an empty ingredient list (zero-ingredient recipes are
pushed with a counter bump but no ceiling test, which can overshoot), the
number of ProductionCombinations returned by the generator never exceeds the
configured ceiling; truncation, pruning and deduplication can leave the
returned count below the ceiling even when the true combination count exceeds
it, so no exact-ceiling guarantee holds. -/
theorem C3_ceiling_bound (M D : Nat) (target : Item) (idx : RecipeIndex)
    (ana : CircularAnalysis) (flag : Bool) (cache0 : MemoCache)
    (hM : 1 ≤ M)
    (hidx : ∀ e ∈ idx, ∀ r ∈ e.2, r.ingredients ≠ []) :
    (getAllWith M D target idx ana flag cache0).length ≤ M := by
  simp only [getAllWith, List.length_map]
  have htop := gen_top_length M D idx ana flag hidx (D + 1) target [] [] [] 0
    (clearMemoCache cache0) 0 (Nat.zero_le M) rfl
  have hdedup := dedup_foldl_length
    (generateRecipeCombinations M D idx ana flag (D + 2) target [] [] [] 0
      (clearMemoCache cache0) 0).results []
  simp only [List.length_nil, Nat.zero_add] at hdedup
  have : (D + 1) + 1 = D + 2 := rfl
  rw [this] at htop
  simp only [Nat.sub_zero] at htop
  have hmax : max 1 M = M := Nat.max_eq_right hM
  rw [hmax] at htop
  exact hdedup.trans htop

/-- Witness for the amended C3 theorem on the concrete iron index. -/
theorem C3_witness :
    (1 ≤ 2 ∧ ∀ e ∈ idxIron, ∀ r ∈ e.2, r.ingredients ≠ []) ∧
      (getAllWith 2 20 "Desc_IronPlate_C" idxIron anaEmpty false []).length ≤ 2 :=
  ⟨⟨by decide, by decide⟩,
   C3_ceiling_bound 2 20 "Desc_IronPlate_C" idxIron anaEmpty false []
     (by decide) (by decide)⟩

theorem assocGet_cons {β : Type} (e : String × β) (m : List (String × β))
    (k : String) :
    assocGet (e :: m) k = if e.1 == k then some e.2 else assocGet m k := by
  simp only [assocGet, List.find?]
  cases h : (e.1 == k) <;> simp [h]

theorem assocGet_map_set {β : Type} (m : List (String × β)) (k : String)
    (v : β) (k' : String) :
    assocGet (m.map (fun e => if e.1 == k then (k, v) else e)) k'
      = if k' = k then (if m.any (fun e => e.1 == k) then some v else none)
        else assocGet m k' := by
  induction m with
  | nil => by_cases h : k' = k <;> simp [assocGet, h]
  | cons e m ih =>
    rw [List.map_cons, assocGet_cons, assocGet_cons]
    by_cases hek : e.1 = k
    · by_cases hk : k' = k
      · subst hk; simp [hek, ih]
      · have h1 : ((if (e.1 == k) = true then (k, v) else e).1 == k') = false := by
          simp only [hek, beq_self_eq_true, if_true]
          exact beq_eq_false_iff_ne.mpr (fun h => hk h.symm)
        have h2 : (e.1 == k') = false := by
          rw [hek]; exact beq_eq_false_iff_ne.mpr (fun h => hk h.symm)
        simp only [h1, h2, Bool.false_eq_true, if_false, ih, if_neg hk]
    · have h1 : (if (e.1 == k) = true then (k, v) else e) = e := by
        simp [beq_eq_false_iff_ne.mpr hek]
      rw [h1]
      by_cases hk : k' = k
      · subst hk
        have h2 : (e.1 == k') = false := beq_eq_false_iff_ne.mpr hek
        simp only [h2, Bool.false_eq_true, if_false, ih, if_pos rfl, List.any_cons,
          Bool.false_or]
      · rw [if_neg hk]
        cases h : (e.1 == k') with
        | true => simp only [h, if_true]
        | false => simp only [h, Bool.false_eq_true, if_false, ih, if_neg hk]

theorem assocGet_append {β : Type} (p q : List (String × β)) (k : String) :
    assocGet (p ++ q) k
      = match assocGet p k with
        | some r => some r
        | none => assocGet q k := by
  induction p with
  | nil => simp [assocGet]
  | cons e p ih =>
    rw [List.cons_append, assocGet_cons, assocGet_cons]
    cases h : (e.1 == k) <;> simp [ih]

theorem assocGet_assocSet {β : Type} (m : List (String × β)) (k : String)
    (v : β) (k' : String) :
    assocGet (assocSet m k v) k' = if k' = k then some v else assocGet m k' := by
  unfold assocSet
  by_cases hany : m.any (fun e => e.1 == k)
  · rw [if_pos hany, assocGet_map_set, if_pos hany]
  · rw [if_neg hany, assocGet_append]
    by_cases hk : k' = k
    · subst hk
      have hnone : assocGet m k' = none := by
        induction m with
        | nil => rfl
        | cons e m ih =>
          rw [assocGet_cons]
          simp only [List.any_cons, Bool.or_eq_true, not_or] at hany
          have : (e.1 == k') = false := by
            cases h : (e.1 == k') with
            | true => exact absurd h hany.1
            | false => rfl
          simp only [this, Bool.false_eq_true, if_false]
          exact ih hany.2
      rw [hnone]
      simp [assocGet]
    · rw [if_neg hk]
      cases h : assocGet m k' with
      | some r' => rfl
      | none =>
        simp only [assocGet, List.find?]
        have : (k == k') = false := beq_eq_false_iff_ne.mpr (fun h => hk h.symm)
        simp [this]

theorem buildProductToSCC_spec (sccs : List (List String)) (m : String) (j : Nat)
    (h : assocGet (buildProductToSCC sccs) m = some j) :
    ∃ l, sccs.get? j = some l ∧ m ∈ l := by
  have main : ∀ (pairs : List (Nat × List String)) (acc : List (String × Nat)),
      (∀ p ∈ pairs, sccs.get? p.1 = some p.2) →
      (∀ k v, assocGet acc k = some v → ∃ l, sccs.get? v = some l ∧ k ∈ l) →
      ∀ k v, assocGet (pairs.foldl
          (fun m p => p.2.foldl (fun m prod => assocSet m prod p.1) m) acc) k
          = some v →
        ∃ l, sccs.get? v = some l ∧ k ∈ l := by
    intro pairs
    induction pairs with
    | nil => intro acc hp hacc k v hkv; exact hacc k v hkv
    | cons p rest ih =>
      intro acc hp hacc k v hkv
      rw [List.foldl_cons] at hkv
      refine ih _ (fun q hq => hp q (List.mem_cons_of_mem _ hq)) ?_ k v hkv
      have hinner : ∀ (elems : List String) (acc : List (String × Nat)),
          (∀ e ∈ elems, e ∈ p.2) →
          (∀ k v, assocGet acc k = some v → ∃ l, sccs.get? v = some l ∧ k ∈ l) →
          ∀ k v, assocGet (elems.foldl (fun m prod => assocSet m prod p.1) acc) k
              = some v →
            ∃ l, sccs.get? v = some l ∧ k ∈ l := by
        intro elems
        induction elems with
        | nil => intro acc he hacc k v hkv; exact hacc k v hkv
        | cons e rest2 ih2 =>
          intro acc he hacc k v hkv
          rw [List.foldl_cons] at hkv
          refine ih2 _ (fun q hq => he q (List.mem_cons_of_mem _ hq)) ?_ k v hkv
          intro k v hkv2
          rw [assocGet_assocSet] at hkv2
          by_cases hk : k = e
          · rw [if_pos hk] at hkv2
            cases hkv2
            exact ⟨p.2, hp p (List.mem_cons_self _ _),
              by rw [hk]; exact he e (List.mem_cons_self _ _)⟩
          · rw [if_neg hk] at hkv2
            exact hacc k v hkv2
      exact hinner p.2 acc (fun e he => he) hacc
  refine main sccs.enum [] (fun p hp => List.mem_enum_iff_get?.mp hp)
    (fun k v hkv => by cases hkv) m j ?_
  exact h

theorem representedItems_append (ns : List CondensationNode)
    (n : CondensationNode) :
    representedItems (ns ++ [n]) = representedItems ns ++ nodeItems n := by
  simp [representedItems]

theorem buildNodesStep_inv (bp : ByProduct) (circularItems : List String)
    (sccs : List (List String)) (pSCC : List (String × Nat))
    (products : List (String × String)) (relevant : List String)
    (hpscc : ∀ m j, assocGet pSCC m = some j → ∃ l, sccs.get? j = some l ∧ m ∈ l)
    (st : NodeBuildState) (c : String) (hc : c ∈ relevant)
    (hA : ∀ x ∈ representedItems st.nodes, x ∈ relevant)
    (hB : ∀ i ∈ st.processedSCCs, ∀ m, assocGet pSCC m = some i → m ∈ relevant →
      m ∈ representedItems st.nodes) :
    (∀ x ∈ representedItems
        (buildNodesStep bp circularItems sccs pSCC products relevant st c).nodes,
      x ∈ relevant) ∧
    (∀ i ∈ (buildNodesStep bp circularItems sccs pSCC products relevant st
        c).processedSCCs,
      ∀ m, assocGet pSCC m = some i → m ∈ relevant →
        m ∈ representedItems
          (buildNodesStep bp circularItems sccs pSCC products relevant st c).nodes) ∧
    c ∈ representedItems
      (buildNodesStep bp circularItems sccs pSCC products relevant st c).nodes ∧
    (∀ x ∈ representedItems st.nodes,
      x ∈ representedItems
        (buildNodesStep bp circularItems sccs pSCC products relevant st c).nodes) := by
  cases hm : assocGet pSCC c with
  | none =>
    simp only [buildNodesStep, hm, representedItems_append]
    refine ⟨?_, ?_, ?_, ?_⟩
    · intro x hx
      rcases List.mem_append.mp hx with hx | hx
      · exact hA x hx
      · simp only [nodeItems, List.mem_singleton] at hx
        exact hx ▸ hc
    · intro i hi m hmi hmr
      exact List.mem_append.mpr (Or.inl (hB i hi m hmi hmr))
    · exact List.mem_append.mpr (Or.inr (by simp [nodeItems]))
    · intro x hx
      exact List.mem_append.mpr (Or.inl hx)
  | some i =>
    simp only [buildNodesStep, hm]
    by_cases hproc : st.processedSCCs.contains i = true
    · simp only [hproc, if_true]
      exact ⟨hA, hB, hB i (List.mem_of_elem_eq_true hproc) c hm hc,
        fun x hx => hx⟩
    · simp only [Bool.not_eq_true] at hproc
      simp only [hproc, Bool.false_eq_true, if_false]
      obtain ⟨l, hl, hcl⟩ := hpscc c i hm
      split
      · rename_i hcirc
        simp only [representedItems_append]
        refine ⟨?_, ?_, ?_, ?_⟩
        · intro x hx
          rcases List.mem_append.mp hx with hx | hx
          · exact hA x hx
          · simp only [nodeItems] at hx
            exact List.mem_of_elem_eq_true (List.mem_filter.mp hx).2
        · intro i' hi' m hmi hmr
          rcases List.mem_append.mp hi' with hi' | hi'
          · exact List.mem_append.mpr (Or.inl (hB i' hi' m hmi hmr))
          · simp only [List.mem_singleton] at hi'
            subst hi'
            obtain ⟨l', hl', hml'⟩ := hpscc m i' hmi
            rw [hl] at hl'
            cases hl'
            refine List.mem_append.mpr (Or.inr ?_)
            simp only [nodeItems]
            refine List.mem_filter.mpr ⟨?_, List.elem_eq_true_of_mem hmr⟩
            rw [hl]
            exact hml'
        · refine List.mem_append.mpr (Or.inr ?_)
          simp only [nodeItems]
          refine List.mem_filter.mpr ⟨?_, List.elem_eq_true_of_mem hc⟩
          rw [hl]
          exact hcl
        · intro x hx
          exact List.mem_append.mpr (Or.inl hx)
      · rename_i hcirc
        have hlen : l.length ≤ 1 := by
          simp only [Bool.or_eq_true, not_or, Bool.and_eq_true] at hcirc
          have := hcirc.1
          rw [hl] at this
          simp only [Option.getD_some, decide_eq_true_eq] at this
          omega
        have hsing : l = [c] := by
          cases l with
          | nil => cases hcl
          | cons a t =>
            cases t with
            | nil =>
              simp only [List.mem_singleton] at hcl
              rw [hcl]
            | cons b u => simp at hlen
        simp only [representedItems_append]
        refine ⟨?_, ?_, ?_, ?_⟩
        · intro x hx
          rcases List.mem_append.mp hx with hx | hx
          · exact hA x hx
          · simp only [nodeItems, List.mem_singleton] at hx
            exact hx ▸ hc
        · intro i' hi' m hmi hmr
          rcases List.mem_append.mp hi' with hi' | hi'
          · exact List.mem_append.mpr (Or.inl (hB i' hi' m hmi hmr))
          · simp only [List.mem_singleton] at hi'
            subst hi'
            obtain ⟨l', hl', hml'⟩ := hpscc m i' hmi
            rw [hl] at hl'
            cases hl'
            rw [hsing] at hml'
            simp only [List.mem_singleton] at hml'
            refine List.mem_append.mpr (Or.inr ?_)
            simp [nodeItems, hml']
        · exact List.mem_append.mpr (Or.inr (by simp [nodeItems]))
        · intro x hx
          exact List.mem_append.mpr (Or.inl hx)

theorem buildNodes_fold_inv (bp : ByProduct) (circularItems : List String)
    (sccs : List (List String)) (pSCC : List (String × Nat))
    (products : List (String × String)) (relevant : List String)
    (hpscc : ∀ m j, assocGet pSCC m = some j → ∃ l, sccs.get? j = some l ∧ m ∈ l) :
    ∀ (todo : List String) (st : NodeBuildState),
      (∀ c ∈ todo, c ∈ relevant) →
      (∀ x ∈ representedItems st.nodes, x ∈ relevant) →
      (∀ i ∈ st.processedSCCs, ∀ m, assocGet pSCC m = some i → m ∈ relevant →
        m ∈ representedItems st.nodes) →
      (∀ x ∈ representedItems (todo.foldl
          (buildNodesStep bp circularItems sccs pSCC products relevant) st).nodes,
        x ∈ relevant) ∧
      (∀ c ∈ todo, c ∈ representedItems (todo.foldl
          (buildNodesStep bp circularItems sccs pSCC products relevant) st).nodes) ∧
      (∀ x ∈ representedItems st.nodes, x ∈ representedItems (todo.foldl
          (buildNodesStep bp circularItems sccs pSCC products relevant) st).nodes) := by
  intro todo
  induction todo with
  | nil =>
    intro st htodo hA hB
    exact ⟨hA, fun c hc => absurd hc (List.not_mem_nil c), fun x hx => hx⟩
  | cons c rest ih =>
    intro st htodo hA hB
    obtain ⟨sA, sB, sC, sM⟩ := buildNodesStep_inv bp circularItems sccs pSCC
      products relevant hpscc st c (htodo c (List.mem_cons_self _ _)) hA hB
    rw [List.foldl_cons]
    obtain ⟨fA, fC, fM⟩ := ih
      (buildNodesStep bp circularItems sccs pSCC products relevant st c)
      (fun c' hc' => htodo c' (List.mem_cons_of_mem _ hc')) sA sB
    refine ⟨fA, ?_, fun x hx => fM x (sM x hx)⟩
    intro c' hc'
    rcases List.mem_cons.mp hc' with hc' | hc'
    · subst hc'
      exact fM c' sC
    · exact fC c' hc'

/-- C2 counterexample: on the linear iron index, iron ore appears as a recipe
ingredient but is a byProduct key of no entry, and the no-target condensation
graph represents no node for it: the represented-item set is not the set of
items appearing as an output or an ingredient. -/
theorem C2_counterexample :
    (representedItems (buildCondensationGraph roIron [] none).nodes).contains
        "Desc_OreIron_C" = false ∧
      roIron.byProduct.any (fun e => e.2.any (fun r =>
        r.ingredients.any (fun ing => ing.className == "Desc_OreIron_C"))) = true := by
  decide

/-- C2 (amended): when the CondensationGraphBuilder is invoked without a
target item, the set of items represented by its emitted nodes (plain product
nodes plus all members of meta-nodes) equals exactly the set of byProduct
keys, the items appearing as a recipe output; ingredient-only items receive
no node. -/
theorem C2_no_target_nodes (ro : RecipesOrganized)
    (products : List (String × String)) (x : String) :
    x ∈ representedItems (buildCondensationGraph ro products none).nodes ↔
      x ∈ ro.byProduct.map Prod.fst := by
  have base : ∀ y, y ∈ representedItems (NodeBuildState.mk [] [] []).nodes → False := by
    intro y hy
    simp [representedItems] at hy
  obtain ⟨fA, fC, _⟩ := buildNodes_fold_inv ro.byProduct
    ro.circularRelationships.circularItems
    ro.circularRelationships.stronglyConnectedComponents
    (buildProductToSCC ro.circularRelationships.stronglyConnectedComponents)
    products (ro.byProduct.map Prod.fst)
    (buildProductToSCC_spec ro.circularRelationships.stronglyConnectedComponents)
    (ro.byProduct.map Prod.fst) ⟨[], [], []⟩ (fun c hc => hc)
    (fun y hy => absurd hy (fun hy => base y hy))
    (fun i hi => absurd hi (List.not_mem_nil i))
  simp only [buildCondensationGraph]
  exact ⟨fun hx => fA x hx, fun hx => fC x hx⟩

theorem mem_addItem (l : List Item) (i x : Item) :
    x ∈ addItem l i ↔ x ∈ l ∨ x = i := by
  unfold addItem
  split
  · rename_i h
    constructor
    · exact Or.inl
    · rintro (hx | rfl)
      · exact hx
      · exact List.mem_of_elem_eq_true h
  · simp [List.mem_append]

theorem contains_iff_mem (l : List Item) (x : Item) :
    l.contains x = true ↔ x ∈ l :=
  ⟨List.mem_of_elem_eq_true, List.elem_eq_true_of_mem⟩

theorem popUntil_spec (item : Item) :
    ∀ (ext : List Item), item ∉ ext →
    ∀ (pre onStack scc : List Item) (fuel : Nat), ext.length + 1 ≤ fuel →
      ∃ onStack', popUntil item fuel (pre ++ item :: ext) onStack scc
        = (pre, onStack', scc ++ ext.reverse ++ [item]) ∧
        ∀ x, x ∈ onStack' ↔ x ∈ onStack ∧ ¬(x = item ∨ x ∈ ext) := by
  intro ext
  induction ext using List.reverseRecOn with
  | nil =>
    intro hni pre onStack scc fuel hfuel
    match fuel, hfuel with
    | f + 1, _ =>
      refine ⟨onStack.filter (fun x => !(x == item)), ?_, ?_⟩
      · show popUntil item (f + 1) (pre ++ [item]) onStack scc = _
        unfold popUntil
        rw [List.getLast?_concat]
        show (if item = item
            then ((pre ++ [item]).dropLast,
              List.filter (fun x => !x == item) onStack, scc ++ [item])
            else popUntil item f ((pre ++ [item]).dropLast)
              (List.filter (fun x => !x == item) onStack) (scc ++ [item])) = _
        rw [if_pos rfl, List.dropLast_concat]
        simp only [List.reverse_nil, List.append_nil]
      · intro x
        simp only [List.mem_filter, Bool.not_eq_true']
        constructor
        · rintro ⟨h1, h2⟩
          exact ⟨h1, by simp [beq_eq_false_iff_ne.mp h2]⟩
        · rintro ⟨h1, h2⟩
          push_neg at h2
          exact ⟨h1, beq_eq_false_iff_ne.mpr h2.1⟩
  | append_singleton l a ih =>
    intro hni pre onStack scc fuel hfuel
    have hnil : item ∉ l := fun h => hni (List.mem_append.mpr (Or.inl h))
    have hnia : item ≠ a := fun h => hni (List.mem_append.mpr (Or.inr (by simp [h])))
    rw [List.length_append, List.length_singleton] at hfuel
    match fuel, hfuel with
    | f + 1, hf =>
      have hf' : l.length + 1 ≤ f := by omega
      have hstk : pre ++ item :: (l ++ [a]) = (pre ++ item :: l) ++ [a] := by
        simp
      obtain ⟨onStack', heq, hmem⟩ := ih hnil pre
        (onStack.filter (fun x => !(x == a))) (scc ++ [a]) f hf'
      refine ⟨onStack', ?_, ?_⟩
      · show popUntil item (f + 1) (pre ++ item :: (l ++ [a])) onStack scc = _
        rw [hstk]
        unfold popUntil
        rw [List.getLast?_concat]
        simp only [List.dropLast_concat]
        rw [if_neg (fun h => hnia h.symm)]
        rw [heq]
        simp
      · intro x
        rw [hmem x]
        simp only [List.mem_filter, Bool.not_eq_true', List.mem_append,
          List.mem_singleton]
        constructor
        · rintro ⟨⟨h1, h2⟩, h3⟩
          push_neg at h3
          refine ⟨h1, ?_⟩
          push_neg
          exact ⟨h3.1, h3.2, beq_eq_false_iff_ne.mp h2⟩
        · rintro ⟨h1, h2⟩
          push_neg at h2
          exact ⟨⟨h1, beq_eq_false_iff_ne.mpr h2.2.2⟩, by push_neg; exact ⟨h2.1, h2.2.1⟩⟩

theorem emitScc_spec (v : Item) (s : TarjanState) (pre ext : List Item)
    (hstk : s.stack = pre ++ v :: ext) (hni : v ∉ ext) :
    ∃ onStack', emitScc v s =
      { s with stack := pre, onStack := onStack',
               sccs := s.sccs ++ [ext.reverse ++ [v]] } ∧
      ∀ x, x ∈ onStack' ↔ x ∈ s.onStack ∧ ¬(x = v ∨ x ∈ ext) := by
  obtain ⟨onStack', heq, hmem⟩ := popUntil_spec v ext hni pre s.onStack []
    (s.stack.length + 1) (by rw [hstk]; simp; omega)
  refine ⟨onStack', ?_, hmem⟩
  unfold emitScc
  rw [hstk] at heq ⊢
  rw [heq]
  rfl

theorem idxOf_setLow (s : TarjanState) (item : Item) (v : Nat) (x : Item) :
    idxOf (setLow s item v) x = idxOf s x := rfl

theorem indices_setLow (s : TarjanState) (item : Item) (v : Nat) :
    (setLow s item v).indices = s.indices := rfl

theorem lowOf_setLow (s : TarjanState) (item : Item) (v : Nat) (x : Item) :
    lowOf (setLow s item v) x = if x = item then v else lowOf s x := by
  unfold lowOf setLow
  simp only [assocGet_assocSet]
  split <;> rfl

theorem lowLinks_setLow_get (s : TarjanState) (item : Item) (v : Nat) (x : Item) :
    assocGet (setLow s item v).lowLinks x
      = if x = item then some v else assocGet s.lowLinks x := by
  unfold setLow
  simp only [assocGet_assocSet]

theorem filter_length_mono {α : Type} {p q : α → Bool}
    (h : ∀ x, p x = true → q x = true) :
    ∀ l : List α, (l.filter p).length ≤ (l.filter q).length := by
  intro l
  induction l with
  | nil => simp
  | cons a l ih =>
    simp only [List.filter_cons]
    cases hp : p a with
    | true =>
      simp only [hp, h a hp, if_true, List.length_cons]
      omega
    | false =>
      cases hq : q a with
      | true =>
        simp only [hp, hq, Bool.false_eq_true, if_false, if_true, List.length_cons]
        omega
      | false =>
        simp only [hp, hq, Bool.false_eq_true, if_false]
        exact ih

theorem stack_descent (idx : RecipeIndex) (t : TarjanState)
    (hInv : TarjanInv idx t) (v : Item) (pre ext : List Item)
    (hstk : t.stack = pre ++ v :: ext)
    (hext : ∀ x ∈ ext, lowOf t x < idxOf t x) :
    ∀ u ∈ v :: ext, Relation.ReflTransGen (depEdge idx) u v := by
  have main : ∀ n u, u ∈ v :: ext → idxOf t u = n →
      Relation.ReflTransGen (depEdge idx) u v := by
    intro n
    induction n using Nat.strong_induction_on with
    | _ n ih =>
      intro u hu hn
      rcases List.mem_cons.mp hu with rfl | hu
      · exact Relation.ReflTransGen.refl
      · obtain ⟨x, hxstk, hxidx, hreach⟩ := hInv.low_witness u
          (by rw [hstk]; exact List.mem_append.mpr (Or.inr (List.mem_cons_of_mem _ hu)))
        have hxlt : idxOf t x < idxOf t u := by
          rw [hxidx]
          exact hext u hu
        rw [hstk] at hxstk
        rcases List.mem_append.mp hxstk with hxpre | hxcons
        · -- x sits before v on the stack, so it reaches v
          have hpair := hInv.stack_reach
          rw [hstk, List.pairwise_append] at hpair
          exact hreach.trans (hpair.2.2 x hxpre v (List.mem_cons_self _ _))
        · rcases List.mem_cons.mp hxcons with rfl | hxext
          · exact hreach
          · exact hreach.trans (ih (idxOf t x) (hn ▸ hxlt) x
              (List.mem_cons_of_mem _ hxext) rfl)
  intro u hu
  exact main (idxOf t u) u hu rfl

theorem indices_pushNode (v : Item) (s : TarjanState) (x : Item) :
    assocGet (pushNode v s).indices x
      = if x = v then some s.index else assocGet s.indices x := by
  unfold pushNode
  simp only [assocGet_assocSet]

theorem lowLinks_pushNode (v : Item) (s : TarjanState) (x : Item) :
    assocGet (pushNode v s).lowLinks x
      = if x = v then some s.index else assocGet s.lowLinks x := by
  unfold pushNode
  simp only [assocGet_assocSet]

theorem idxOf_pushNode (v : Item) (s : TarjanState) (x : Item) :
    idxOf (pushNode v s) x = if x = v then s.index else idxOf s x := by
  unfold idxOf
  rw [indices_pushNode]
  split <;> rfl

theorem lowOf_pushNode (v : Item) (s : TarjanState) (x : Item) :
    lowOf (pushNode v s) x = if x = v then s.index else lowOf s x := by
  unfold lowOf
  rw [lowLinks_pushNode]
  split <;> rfl

theorem pushNode_spec (idx : RecipeIndex) (v : Item) (s0 : TarjanState)
    (hpre : SCPre idx v s0) :
    TarjanInv idx (pushNode v s0) ∧
    ScanInv idx v s0.index s0.stack (pushNode v s0) [] (pushNode v s0) ∧
    assocGet (pushNode v s0).indices v = some s0.index ∧
    (pushNode v s0).index = s0.index + 1 ∧
    (pushNode v s0).stack = s0.stack ++ [v] := by
  obtain ⟨hinv, hunv, hall, hreach⟩ := hpre
  have hvstk : v ∉ s0.stack := by
    intro h
    have := (hinv.visited_iff v).mpr (Or.inl h)
    rw [hunv] at this
    cases this
  have hvscc : ∀ c ∈ s0.sccs, v ∉ c := by
    intro c hc h
    have := (hinv.visited_iff v).mpr (Or.inr ⟨c, hc, h⟩)
    rw [hunv] at this
    cases this
  have hstk : (pushNode v s0).stack = s0.stack ++ [v] := rfl
  have hsccs : (pushNode v s0).sccs = s0.sccs := rfl
  have hidx : ∀ x, assocGet (pushNode v s0).indices x
      = if x = v then some s0.index else assocGet s0.indices x :=
    indices_pushNode v s0
  have hlow : ∀ x, assocGet (pushNode v s0).lowLinks x
      = if x = v then some s0.index else assocGet s0.lowLinks x :=
    lowLinks_pushNode v s0
  have hctr : (pushNode v s0).index = s0.index + 1 := rfl
  have hvis_old : ∀ x, x ≠ v →
      ((assocGet (pushNode v s0).indices x).isSome ↔
        (assocGet s0.indices x).isSome) := by
    intro x hx
    rw [hidx x, if_neg hx]
  have hioldval : ∀ x, x ≠ v → idxOf (pushNode v s0) x = idxOf s0 x := by
    intro x hx
    rw [idxOf_pushNode, if_neg hx]
  have hloldval : ∀ x, x ≠ v → lowOf (pushNode v s0) x = lowOf s0 x := by
    intro x hx
    rw [lowOf_pushNode, if_neg hx]
  have hstkne : ∀ x ∈ s0.stack, x ≠ v := fun x hx h => hvstk (h ▸ hx)
  have hinv1 : TarjanInv idx (pushNode v s0) := by
    refine ⟨?_, ?_, ?_, ?_, ?_, ?_, ?_, ?_, ?_, ?_, ?_, ?_, ?_, ?_⟩
    · intro x
      rw [hidx x, hlow x]
      by_cases hx : x = v
      · simp [hx]
      · rw [if_neg hx, if_neg hx]
        exact hinv.low_dom x
    · intro x n hx
      rw [hidx x] at hx
      rw [hctr]
      by_cases hxv : x = v
      · rw [if_pos hxv] at hx
        cases hx
        omega
      · rw [if_neg hxv] at hx
        have := hinv.idx_lt x n hx
        omega
    · intro x y n hx hy
      rw [hidx x] at hx
      rw [hidx y] at hy
      by_cases hxv : x = v <;> by_cases hyv : y = v
      · rw [hxv, hyv]
      · rw [if_pos hxv] at hx
        rw [if_neg hyv] at hy
        cases hx
        exact absurd (hinv.idx_lt y _ hy) (by omega)
      · rw [if_neg hxv] at hx
        rw [if_pos hyv] at hy
        cases hy
        exact absurd (hinv.idx_lt x _ hx) (by omega)
      · rw [if_neg hxv] at hx
        rw [if_neg hyv] at hy
        exact hinv.idx_inj x y n hx hy
    · intro x hx
      by_cases hxv : x = v
      · subst hxv
        rw [idxOf_pushNode, lowOf_pushNode, if_pos rfl, if_pos rfl]
      · rw [hioldval x hxv, hloldval x hxv]
        rw [hvis_old x hxv] at hx
        exact hinv.low_le x hx
    · intro x
      show (addItem s0.onStack v).contains x = true ↔ x ∈ s0.stack ++ [v]
      rw [contains_iff_mem, mem_addItem, List.mem_append, List.mem_singleton]
      rw [← contains_iff_mem, hinv.onStack_iff]
    · show ((pushNode v s0).sccs.flatten ++ (s0.stack ++ [v])).Nodup
      rw [hsccs, ← List.append_assoc, List.nodup_append]
      refine ⟨hinv.nodup, List.nodup_singleton v, ?_⟩
      intro a ha hav
      rw [List.mem_singleton] at hav
      subst hav
      rcases List.mem_append.mp ha with ha | ha
      · obtain ⟨c, hc, hac⟩ := List.mem_flatten.mp ha
        exact hvscc c hc hac
      · exact hvstk ha
    · intro x
      rw [hidx x, hstk, hsccs]
      by_cases hxv : x = v
      · subst hxv
        simp
      · rw [if_neg hxv]
        rw [List.mem_append, List.mem_singleton]
        constructor
        · intro h
          rcases (hinv.visited_iff x).mp h with h | h
          · exact Or.inl (Or.inl h)
          · exact Or.inr h
        · rintro ((h | h) | h)
          · exact (hinv.visited_iff x).mpr (Or.inl h)
          · exact absurd h hxv
          · exact (hinv.visited_iff x).mpr (Or.inr h)
    · intro x hx
      rw [hidx x] at hx
      by_cases hxv : x = v
      · exact hxv ▸ hall
      · rw [if_neg hxv] at hx
        exact hinv.visited_sub x hx
    · rw [hstk, List.pairwise_append]
      refine ⟨?_, List.pairwise_singleton _ _, ?_⟩
      · refine List.Pairwise.imp_of_mem ?_ hinv.stack_incr
        intro a b ha hb h
        rw [hioldval a (hstkne a ha), hioldval b (hstkne b hb)]
        exact h
      · intro a ha b hb
        rw [List.mem_singleton] at hb
        subst hb
        rw [hioldval a (hstkne a ha), idxOf_pushNode, if_pos rfl]
        have : (assocGet s0.indices a).isSome :=
          (hinv.visited_iff a).mpr (Or.inl ha)
        obtain ⟨n, hn⟩ := Option.isSome_iff_exists.mp this
        have := hinv.idx_lt a n hn
        unfold idxOf
        rw [hn]
        simpa using this
    · rw [hstk, List.pairwise_append]
      refine ⟨hinv.stack_reach, List.pairwise_singleton _ _, ?_⟩
      intro a ha b hb
      rw [List.mem_singleton] at hb
      subst hb
      exact hreach a ha
    · intro u hu
      rw [hstk] at hu
      rcases List.mem_append.mp hu with hu | hu
      · obtain ⟨x, hxs, hxi, hxr⟩ := hinv.low_witness u hu
        refine ⟨x, by rw [hstk]; exact List.mem_append.mpr (Or.inl hxs), ?_, hxr⟩
        rw [hioldval x (hstkne x hxs), hloldval u (hstkne u hu)]
        exact hxi
      · rw [List.mem_singleton] at hu
        subst hu
        refine ⟨u, by rw [hstk]; exact List.mem_append.mpr (Or.inr (by simp)), ?_,
          Relation.ReflTransGen.refl⟩
        rw [idxOf_pushNode, lowOf_pushNode, if_pos rfl, if_pos rfl]
    · rw [hsccs]
      exact hinv.scc_mutual
    · rw [hsccs]
      exact hinv.scc_nonempty
    · rw [hsccs]
      exact hinv.scc_edges
  refine ⟨hinv1, ?_, by rw [hidx v, if_pos rfl], hctr, hstk⟩
  refine ⟨hinv1, fun x _ => rfl, fun x _ _ => rfl, le_refl _, ?_, ?_, ?_, ?_, ?_, ?_⟩
  · intro x n hx
    exact Or.inl (by rw [hx]; rfl)
  · refine ⟨[], by rw [hstk], ?_⟩
    intro x hx
    cases hx
  · intro x h1 h2
    rw [Option.isNone_iff_eq_none] at h2
    rw [h2] at h1
    cases h1
  · exact ⟨[], by rw [List.append_nil]⟩
  · intro y hy
    cases hy
  · intro x hxs hxu y hxy
    exfalso
    have : (assocGet (pushNode v s0).indices x).isSome := by
      apply (hinv1.visited_iff x).mpr
      exact Or.inl hxs
    rw [Option.isNone_iff_eq_none] at hxu
    rw [hxu] at this
    cases this

theorem unvisitedCount_mono (idx : RecipeIndex) (s t : TarjanState)
    (h : ∀ x, (assocGet s.indices x).isSome → (assocGet t.indices x).isSome) :
    unvisitedCount idx t ≤ unvisitedCount idx s := by
  unfold unvisitedCount
  refine filter_length_mono ?_ _
  intro x hx
  rw [Option.isNone_iff_eq_none] at hx ⊢
  cases hs : assocGet s.indices x with
  | none => rfl
  | some k =>
    have := h x (by rw [hs]; rfl)
    rw [hx] at this
    cases this

theorem depEdge_iff_mem_succList (idx : RecipeIndex) (a y : Item) :
    depEdge idx a y ↔ y ∈ succList idx a := by
  unfold depEdge succList
  rw [List.mem_flatten]
  constructor
  · rintro ⟨r, hr, ing, hing, rfl⟩
    exact ⟨r.ingredients.map (fun ing => ing.item),
      List.mem_map.mpr ⟨r, hr, rfl⟩, List.mem_map.mpr ⟨ing, hing, rfl⟩⟩
  · rintro ⟨l, hl, hy⟩
    obtain ⟨r, hr, rfl⟩ := List.mem_map.mp hl
    obtain ⟨ing, hing, rfl⟩ := List.mem_map.mp hy
    exact ⟨r, hr, ing, hing, rfl⟩

theorem mem_foldl_addItem_ing (f : RecipeIngredient → Item) :
    ∀ (l : List RecipeIngredient) (acc : List Item) (x : Item),
      x ∈ l.foldl (fun acc ing => addItem acc (f ing)) acc ↔
        x ∈ acc ∨ ∃ ing ∈ l, f ing = x := by
  intro l
  induction l with
  | nil => simp
  | cons a l ih =>
    intro acc x
    rw [List.foldl_cons, ih, mem_addItem]
    constructor
    · rintro ((h | h) | ⟨ing, h1, h2⟩)
      · exact Or.inl h
      · exact Or.inr ⟨a, List.mem_cons_self _ _, h.symm⟩
      · exact Or.inr ⟨ing, List.mem_cons_of_mem _ h1, h2⟩
    · rintro (h | ⟨ing, h1, h2⟩)
      · exact Or.inl (Or.inl h)
      · rcases List.mem_cons.mp h1 with rfl | h1
        · exact Or.inl (Or.inr h2.symm)
        · exact Or.inr ⟨ing, h1, h2⟩

theorem mem_foldl_addItem_rec :
    ∀ (l : List ProcessedRecipe) (acc : List Item) (x : Item),
      x ∈ l.foldl (fun acc r =>
          r.ingredients.foldl (fun acc ing => addItem acc ing.item) acc) acc ↔
        x ∈ acc ∨ ∃ r ∈ l, ∃ ing ∈ r.ingredients, ing.item = x := by
  intro l
  induction l with
  | nil => simp
  | cons a l ih =>
    intro acc x
    rw [List.foldl_cons, ih, mem_foldl_addItem_ing]
    constructor
    · rintro ((h | ⟨ing, h1, h2⟩) | ⟨r, h1, h2⟩)
      · exact Or.inl h
      · exact Or.inr ⟨a, List.mem_cons_self _ _, ing, h1, h2⟩
      · exact Or.inr ⟨r, List.mem_cons_of_mem _ h1, h2⟩
    · rintro (h | ⟨r, h1, h2⟩)
      · exact Or.inl (Or.inl h)
      · rcases List.mem_cons.mp h1 with rfl | h1
        · exact Or.inl (Or.inr h2)
        · exact Or.inr ⟨r, h1, h2⟩

theorem mem_allItemsOf (idx : RecipeIndex) (x : Item) :
    x ∈ allItemsOf idx ↔
      (∃ e ∈ idx, e.1 = x) ∨
      (∃ e ∈ idx, ∃ r ∈ e.2, ∃ ing ∈ r.ingredients, ing.item = x) := by
  unfold allItemsOf
  have keys : ∀ (l : List (Item × List ProcessedRecipe)) (acc : List Item),
      x ∈ l.foldl (fun acc e => addItem acc e.1) acc ↔
        x ∈ acc ∨ ∃ e ∈ l, e.1 = x := by
    intro l
    induction l with
    | nil => simp
    | cons a l ih =>
      intro acc
      rw [List.foldl_cons, ih, mem_addItem]
      constructor
      · rintro ((h | h) | ⟨e, h1, h2⟩)
        · exact Or.inl h
        · exact Or.inr ⟨a, List.mem_cons_self _ _, h.symm⟩
        · exact Or.inr ⟨e, List.mem_cons_of_mem _ h1, h2⟩
      · rintro (h | ⟨e, h1, h2⟩)
        · exact Or.inl (Or.inl h)
        · rcases List.mem_cons.mp h1 with rfl | h1
          · exact Or.inl (Or.inr h2.symm)
          · exact Or.inr ⟨e, h1, h2⟩
  have ings : ∀ (l : List (Item × List ProcessedRecipe)) (acc : List Item),
      x ∈ l.foldl (fun acc e =>
          e.2.foldl (fun acc r =>
            r.ingredients.foldl (fun acc ing => addItem acc ing.item) acc) acc) acc ↔
        x ∈ acc ∨ ∃ e ∈ l, ∃ r ∈ e.2, ∃ ing ∈ r.ingredients, ing.item = x := by
    intro l
    induction l with
    | nil => simp
    | cons a l ih =>
      intro acc
      rw [List.foldl_cons, ih, mem_foldl_addItem_rec]
      constructor
      · rintro ((h | ⟨r, h1, h2⟩) | ⟨e, h1, h2⟩)
        · exact Or.inl h
        · exact Or.inr ⟨a, List.mem_cons_self _ _, r, h1, h2⟩
        · exact Or.inr ⟨e, List.mem_cons_of_mem _ h1, h2⟩
      · rintro (h | ⟨e, h1, h2⟩)
        · exact Or.inl (Or.inl h)
        · rcases List.mem_cons.mp h1 with rfl | h1
          · exact Or.inl (Or.inr h2)
          · exact Or.inr ⟨e, h1, h2⟩
  rw [ings, keys]
  simp only [List.not_mem_nil, false_or]

theorem succ_mem_allItems (idx : RecipeIndex) (a y : Item)
    (h : depEdge idx a y) : y ∈ allItemsOf idx := by
  obtain ⟨r, hr, ing, hing, rfl⟩ := h
  obtain ⟨e, he, hre⟩ := mem_availRecipes idx a r hr
  exact (mem_allItemsOf idx ing.item).mpr (Or.inr ⟨e, he, r, hre, ing, hing, rfl⟩)

theorem setLow_min_inv (idx : RecipeIndex) (s : TarjanState) (v : Item)
    (m : Nat) (hinv : TarjanInv idx s) (hv : v ∈ s.stack)
    (hm : m ≤ lowOf s v)
    (hwit : ∃ x ∈ s.stack, idxOf s x = m ∧ Relation.ReflTransGen (depEdge idx) v x) :
    TarjanInv idx (setLow s v m) := by
  have hidx : (setLow s v m).indices = s.indices := rfl
  have hstk : (setLow s v m).stack = s.stack := rfl
  have hsccs : (setLow s v m).sccs = s.sccs := rfl
  have honstk : (setLow s v m).onStack = s.onStack := rfl
  have hctr : (setLow s v m).index = s.index := rfl
  have hvvis : (assocGet s.indices v).isSome :=
    (hinv.visited_iff v).mpr (Or.inl hv)
  refine ⟨?_, ?_, ?_, ?_, ?_, ?_, ?_, ?_, ?_, ?_, ?_, ?_, ?_, ?_⟩
  · intro x
    rw [hidx, lowLinks_setLow_get]
    by_cases hx : x = v
    · rw [if_pos hx, hx]
      simpa using hvvis
    · rw [if_neg hx]
      exact hinv.low_dom x
  · intro x n hx
    rw [hidx] at hx
    rw [hctr]
    exact hinv.idx_lt x n hx
  · intro x y n hx hy
    rw [hidx] at hx hy
    exact hinv.idx_inj x y n hx hy
  · intro x hx
    rw [hidx] at hx
    rw [show idxOf (setLow s v m) x = idxOf s x from rfl, lowOf_setLow]
    by_cases hxv : x = v
    · rw [if_pos hxv, hxv]
      exact hm.trans (hinv.low_le v hvvis)
    · rw [if_neg hxv]
      exact hinv.low_le x hx
  · intro x
    rw [honstk, hstk]
    exact hinv.onStack_iff x
  · rw [hsccs, hstk]
    exact hinv.nodup
  · intro x
    rw [hidx, hstk, hsccs]
    exact hinv.visited_iff x
  · intro x hx
    rw [hidx] at hx
    exact hinv.visited_sub x hx
  · rw [hstk]
    refine List.Pairwise.imp_of_mem ?_ hinv.stack_incr
    intro a b _ _ h
    exact h
  · rw [hstk]
    exact hinv.stack_reach
  · intro u hu
    rw [hstk] at hu
    by_cases huv : u = v
    · subst huv
      obtain ⟨x, hxs, hxm, hxr⟩ := hwit
      refine ⟨x, by rw [hstk]; exact hxs, ?_, hxr⟩
      rw [show idxOf (setLow s u m) x = idxOf s x from rfl, lowOf_setLow,
        if_pos rfl, hxm]
    · obtain ⟨x, hxs, hxm, hxr⟩ := hinv.low_witness u hu
      refine ⟨x, by rw [hstk]; exact hxs, ?_, hxr⟩
      rw [show idxOf (setLow s v m) x = idxOf s x from rfl, lowOf_setLow,
        if_neg huv, hxm]
  · rw [hsccs]
    exact hinv.scc_mutual
  · rw [hsccs]
    exact hinv.scc_nonempty
  · rw [hsccs]
    exact hinv.scc_edges


theorem stack_setLow (s : TarjanState) (item : Item) (v : Nat) :
    (setLow s item v).stack = s.stack := rfl

theorem sccs_setLow (s : TarjanState) (item : Item) (v : Nat) :
    (setLow s item v).sccs = s.sccs := rfl

theorem index_setLow (s : TarjanState) (item : Item) (v : Nat) :
    (setLow s item v).index = s.index := rfl

theorem visitSuccessor_step (idx : RecipeIndex) (fuel : Nat)
    (g : Item → TarjanState → TarjanState)
    (hg : ∀ w u, SCPre idx w u → unvisitedCount idx u < fuel →
      SCPost idx w u (g w u))
    (v : Item) (i0 : Nat) (s0stk : List Item) (s1 : TarjanState)
    (done : List Item) (t : TarjanState) (succ : Item)
    (hscan : ScanInv idx v i0 s0stk s1 done t)
    (hedge : depEdge idx v succ)
    (hidx_v : assocGet s1.indices v = some i0)
    (hs0vis : ∀ x ∈ s0stk, (assocGet s1.indices x).isSome)
    (hfuel : unvisitedCount idx s1 < fuel) :
    ScanInv idx v i0 s0stk s1 (done ++ [succ]) (visitSuccessor g v succ t) := by
  obtain ⟨ext, hstk, hextP⟩ := hscan.stack_shape
  have hvt_idx : assocGet t.indices v = some i0 := by
    rw [hscan.idx_stable v (by rw [hidx_v]; rfl)]
    exact hidx_v
  have hidxOf_v : idxOf t v = i0 := by unfold idxOf; rw [hvt_idx]; rfl
  have hvt_vis : (assocGet t.indices v).isSome := by rw [hvt_idx]; rfl
  have hv_stk : v ∈ t.stack := by rw [hstk]; simp
  have hlowv_le : lowOf t v ≤ i0 := by
    have := hscan.inv.low_le v hvt_vis
    rwa [hidxOf_v] at this
  have hstknodup : t.stack.Nodup := hscan.inv.nodup.of_append_right
  have hvext : v ∉ ext := by
    rw [hstk] at hstknodup
    exact (List.nodup_cons.mp hstknodup.of_append_right).1
  have hvis_mono : ∀ x, (assocGet s1.indices x).isSome →
      (assocGet t.indices x).isSome := by
    intro x hx
    rw [hscan.idx_stable x hx]
    exact hx
  have hstk_vis : ∀ x ∈ t.stack, (assocGet t.indices x).isSome := by
    intro x hx
    exact (hscan.inv.visited_iff x).mpr (Or.inl hx)
  cases hsi : assocGet t.indices succ with
  | some succIdx =>
    by_cases hon : t.onStack.contains succ = true
    · have hred : visitSuccessor g v succ t
          = setLow t v (min (lowOf t v) succIdx) := by
        unfold visitSuccessor
        rw [hsi]
        show (if t.onStack.contains succ = true then
            setLow t v (min (lowOf t v) succIdx) else t) = _
        rw [if_pos hon]
      rw [hred]
      have hsucc_stk : succ ∈ t.stack := (hscan.inv.onStack_iff succ).mp hon
      have hidxOf_succ : idxOf t succ = succIdx := by
        unfold idxOf; rw [hsi]; rfl
      have hm_le : min (lowOf t v) succIdx ≤ lowOf t v := Nat.min_le_left _ _
      have hwit : ∃ x ∈ t.stack, idxOf t x = min (lowOf t v) succIdx ∧
          Relation.ReflTransGen (depEdge idx) v x := by
        rcases le_total (lowOf t v) succIdx with hc | hc
        · rw [Nat.min_eq_left hc]
          exact hscan.inv.low_witness v hv_stk
        · rw [Nat.min_eq_right hc]
          exact ⟨succ, hsucc_stk, hidxOf_succ, Relation.ReflTransGen.single hedge⟩
      have hinv' := setLow_min_inv idx t v (min (lowOf t v) succIdx)
        hscan.inv hv_stk hm_le hwit
      refine ⟨hinv', ?_, ?_, ?_, ?_, ?_, ?_, ?_, ?_, ?_⟩
      · intro x hx
        rw [indices_setLow]
        exact hscan.idx_stable x hx
      · intro x hx hxv
        rw [lowLinks_setLow_get, if_neg hxv]
        exact hscan.low_stable_old x hx hxv
      · rw [index_setLow]
        exact hscan.counter_ge
      · intro x n hx
        rw [indices_setLow] at hx
        exact hscan.new_idx_ge x n hx
      · refine ⟨ext, by rw [stack_setLow]; exact hstk, ?_⟩
        intro x hx
        obtain ⟨h1, h2, h3⟩ := hextP x hx
        have hxv : x ≠ v := fun h => hvext (h ▸ hx)
        refine ⟨h1, ?_, ?_⟩
        · rw [idxOf_setLow, lowOf_setLow, if_neg hxv]
          exact h2
        · rw [lowOf_setLow, if_pos rfl, lowOf_setLow, if_neg hxv]
          exact le_trans hm_le h3
      · intro x hx hxn
        rw [indices_setLow] at hx
        exact hscan.reach_new x hx hxn
      · rw [sccs_setLow]
        exact hscan.sccs_ext
      · intro y hy
        rcases List.mem_append.mp hy with hy | hy
        · rcases hscan.edgeP_done y hy with ⟨c, hc, hyc⟩ | ⟨hys, hb⟩
          · exact Or.inl ⟨c, hc, hyc⟩
          · refine Or.inr ⟨hys, ?_⟩
            rw [lowOf_setLow, if_pos rfl, idxOf_setLow]
            exact le_trans hm_le hb
        · rw [List.mem_singleton] at hy
          subst hy
          refine Or.inr ⟨hsucc_stk, ?_⟩
          rw [lowOf_setLow, if_pos rfl, idxOf_setLow, hidxOf_succ]
          exact Nat.min_le_right _ _
      · intro x hxs hxn y hxy
        rw [stack_setLow] at hxs
        have hxv : x ≠ v := by
          intro h
          subst h
          rw [Option.isNone_iff_eq_none, hidx_v] at hxn
          cases hxn
        rcases hscan.edgeP_ext x hxs hxn y hxy with ⟨c, hc, hyc⟩ | ⟨hys, hb⟩
        · exact Or.inl ⟨c, hc, hyc⟩
        · refine Or.inr ⟨hys, ?_⟩
          rw [lowOf_setLow, if_neg hxv, idxOf_setLow]
          exact hb
    · have hred : visitSuccessor g v succ t = t := by
        unfold visitSuccessor
        rw [hsi]
        show (if t.onStack.contains succ = true then
            setLow t v (min (lowOf t v) succIdx) else t) = _
        rw [if_neg hon]
      rw [hred]
      have hsucc_nstk : succ ∉ t.stack := fun h =>
        hon ((hscan.inv.onStack_iff succ).mpr h)
      have hsucc_scc : ∃ c ∈ t.sccs, succ ∈ c := by
        rcases (hscan.inv.visited_iff succ).mp (by rw [hsi]; rfl) with h | h
        · exact absurd h hsucc_nstk
        · exact h
      refine ⟨hscan.inv, hscan.idx_stable, hscan.low_stable_old,
        hscan.counter_ge, hscan.new_idx_ge, ⟨ext, hstk, hextP⟩,
        hscan.reach_new, hscan.sccs_ext, ?_, hscan.edgeP_ext⟩
      intro y hy
      rcases List.mem_append.mp hy with hy | hy
      · exact hscan.edgeP_done y hy
      · rw [List.mem_singleton] at hy
        subst hy
        exact Or.inl hsucc_scc
  | none =>
    have hred : visitSuccessor g v succ t
        = setLow (g succ t) v
          (min (lowOf (g succ t) v) (lowOf (g succ t) succ)) := by
      unfold visitSuccessor
      rw [hsi]
    rw [hred]
    have hsucc_s1none : assocGet s1.indices succ = none := by
      cases h : assocGet s1.indices succ with
      | none => rfl
      | some k =>
        have := hscan.idx_stable succ (by rw [h]; rfl)
        rw [hsi, h] at this
        cases this
    have hne_sv : succ ≠ v := by
      intro h
      rw [h, hidx_v] at hsucc_s1none
      cases hsucc_s1none
    have hsucc_nstk : succ ∉ t.stack := by
      intro h
      have := hstk_vis succ h
      rw [hsi] at this
      cases this
    have hpre2 : SCPre idx succ t := by
      refine ⟨hscan.inv, hsi, succ_mem_allItems idx v succ hedge, ?_⟩
      intro u hu
      rw [hstk] at hu
      rcases List.mem_append.mp hu with hu | hu
      · have hpair := hscan.inv.stack_reach
        rw [hstk, List.pairwise_append] at hpair
        exact (hpair.2.2 u hu v (List.mem_cons_self _ _)).trans
          (Relation.ReflTransGen.single hedge)
      · rcases List.mem_cons.mp hu with rfl | hu
        · exact Relation.ReflTransGen.single hedge
        · exact (stack_descent idx t hscan.inv v s0stk ext hstk
            (fun x hx => (hextP x hx).2.1) u (List.mem_cons_of_mem _ hu)).trans
            (Relation.ReflTransGen.single hedge)
    have hfuel2 : unvisitedCount idx t < fuel :=
      lt_of_le_of_lt (unvisitedCount_mono idx s1 t hvis_mono) hfuel
    have P := hg succ t hpre2 hfuel2
    obtain ⟨newSccs, hnew⟩ := P.sccs_ext
    have hvs'_idx : assocGet (g succ t).indices v = some i0 := by
      rw [P.idx_stable v hvt_vis]
      exact hvt_idx
    have hidxOf'_v : idxOf (g succ t) v = i0 := by
      unfold idxOf; rw [hvs'_idx]; rfl
    have hlow'_v : lowOf (g succ t) v = lowOf t v := by
      unfold lowOf
      rw [P.low_stable v hvt_vis]
    have hidxOf'_succ : idxOf (g succ t) succ = t.index := by
      unfold idxOf; rw [P.v_index]; rfl
    have hi0_lt : i0 < t.index := hscan.inv.idx_lt v i0 hvt_idx
    have ht_prefix : ∀ x ∈ t.stack, x ∈ (g succ t).stack := by
      intro x hx
      rcases P.stack_low with ⟨h, _⟩ | ⟨ext', h, _⟩
      · rw [h]; exact hx
      · rw [h]; exact List.mem_append.mpr (Or.inl hx)
    have hv_stk' : v ∈ (g succ t).stack := ht_prefix v hv_stk
    have hstable_stack : ∀ x ∈ t.stack,
        idxOf (g succ t) x = idxOf t x ∧ lowOf (g succ t) x = lowOf t x := by
      intro x hx
      constructor
      · unfold idxOf; rw [P.idx_stable x (hstk_vis x hx)]
      · unfold lowOf; rw [P.low_stable x (hstk_vis x hx)]
    have hm_le : min (lowOf (g succ t) v) (lowOf (g succ t) succ)
        ≤ lowOf (g succ t) v := Nat.min_le_left _ _
    have hwit : ∃ x ∈ (g succ t).stack,
        idxOf (g succ t) x
          = min (lowOf (g succ t) v) (lowOf (g succ t) succ) ∧
        Relation.ReflTransGen (depEdge idx) v x := by
      rcases le_total (lowOf (g succ t) v) (lowOf (g succ t) succ) with hc | hc
      · rw [Nat.min_eq_left hc]
        exact P.inv.low_witness v hv_stk'
      · rw [Nat.min_eq_right hc]
        rcases P.stack_low with ⟨hstt, heq⟩ | ⟨ext', hstk', hlt'⟩
        · exfalso
          rw [heq, hidxOf'_succ, hlow'_v] at hc
          omega
        · have hsucc_stk' : succ ∈ (g succ t).stack := by
            rw [hstk']
            exact List.mem_append.mpr (Or.inr (List.mem_cons_self _ _))
          obtain ⟨x, hxs, hxi, hxr⟩ := P.inv.low_witness succ hsucc_stk'
          exact ⟨x, hxs, hxi, (Relation.ReflTransGen.single hedge).trans hxr⟩
    have hinv' := setLow_min_inv idx (g succ t) v
      (min (lowOf (g succ t) v) (lowOf (g succ t) succ)) P.inv hv_stk' hm_le hwit
    refine ⟨hinv', ?_, ?_, ?_, ?_, ?_, ?_, ?_, ?_, ?_⟩
    · intro x hx
      rw [indices_setLow, P.idx_stable x (hvis_mono x hx)]
      exact hscan.idx_stable x hx
    · intro x hx hxv
      rw [lowLinks_setLow_get, if_neg hxv, P.low_stable x (hvis_mono x hx)]
      exact hscan.low_stable_old x hx hxv
    · rw [index_setLow]
      exact le_trans hscan.counter_ge (le_of_lt P.counter_lt)
    · intro x n hx
      rw [indices_setLow] at hx
      rcases P.new_idx_ge x n hx with h | h
      · have := P.idx_stable x h
        rw [hx] at this
        rcases hscan.new_idx_ge x n this.symm with h2 | h2
        · exact Or.inl h2
        · exact Or.inr h2
      · exact Or.inr (le_trans hscan.counter_ge h)
    · rcases P.stack_low with ⟨hstt, heq⟩ | ⟨ext', hstk', hlt'⟩
      · refine ⟨ext, by rw [stack_setLow, hstt]; exact hstk, ?_⟩
        intro x hx
        obtain ⟨h1, h2, h3⟩ := hextP x hx
        have hxv : x ≠ v := fun h => hvext (h ▸ hx)
        have hxstk : x ∈ t.stack := by
          rw [hstk]
          exact List.mem_append.mpr (Or.inr (List.mem_cons_of_mem _ hx))
        obtain ⟨hsx, hlx⟩ := hstable_stack x hxstk
        refine ⟨h1, ?_, ?_⟩
        · rw [idxOf_setLow, lowOf_setLow, if_neg hxv, hsx, hlx]
          exact h2
        · rw [lowOf_setLow, if_pos rfl, lowOf_setLow, if_neg hxv, hlx]
          exact le_trans (le_trans hm_le (le_of_eq hlow'_v)) h3
      · refine ⟨ext ++ succ :: ext', ?_, ?_⟩
        · rw [stack_setLow, hstk', hstk]
          simp
        · intro x hx
          have hnodup' : (g succ t).stack.Nodup := P.inv.nodup.of_append_right
          rw [hstk'] at hnodup'
          rcases List.mem_append.mp hx with hx | hx
          · obtain ⟨h1, h2, h3⟩ := hextP x hx
            have hxv : x ≠ v := fun h => hvext (h ▸ hx)
            have hxstk : x ∈ t.stack := by
              rw [hstk]
              exact List.mem_append.mpr (Or.inr (List.mem_cons_of_mem _ hx))
            obtain ⟨hsx, hlx⟩ := hstable_stack x hxstk
            refine ⟨h1, ?_, ?_⟩
            · rw [idxOf_setLow, lowOf_setLow, if_neg hxv, hsx, hlx]
              exact h2
            · rw [lowOf_setLow, if_pos rfl, lowOf_setLow, if_neg hxv, hlx]
              exact le_trans (le_trans hm_le (le_of_eq hlow'_v)) h3
          · rcases List.mem_cons.mp hx with rfl | hx
            · refine ⟨by rw [hsucc_s1none]; rfl, ?_, ?_⟩
              · rw [idxOf_setLow, lowOf_setLow, if_neg hne_sv]
                exact hlt'
              · rw [lowOf_setLow, if_pos rfl, lowOf_setLow, if_neg hne_sv]
                exact Nat.min_le_right _ _
            · have hxs' : x ∈ (g succ t).stack := by
                rw [hstk']
                exact List.mem_append.mpr (Or.inr (List.mem_cons_of_mem _ hx))
              have hxnt : x ∉ t.stack := by
                intro h
                exact (List.nodup_append.mp hnodup').2.2 h
                  (List.mem_cons_of_mem _ hx)
              have hxsucc : x ≠ succ :=
                fun h => (List.nodup_cons.mp
                  (List.nodup_append.mp hnodup').2.1).1 (h ▸ hx)
              have hxv : x ≠ v := fun h => hxnt (h ▸ hv_stk)
              have hxtnone : (assocGet t.indices x).isNone := by
                rcases P.ext_new x hxs' with h | h
                · exact absurd h hxnt
                · exact h
              refine ⟨?_, ?_, ?_⟩
              · rw [Option.isNone_iff_eq_none] at hxtnone ⊢
                cases h : assocGet s1.indices x with
                | none => rfl
                | some k =>
                  have := hvis_mono x (by rw [h]; rfl)
                  rw [hxtnone] at this
                  cases this
              · rw [idxOf_setLow, lowOf_setLow, if_neg hxv]
                exact P.ext_strict x hxs' hxnt hxsucc
              · rw [lowOf_setLow, if_pos rfl, lowOf_setLow, if_neg hxv]
                exact le_trans (Nat.min_le_right _ _) (P.ext_low_ge x hxs' hxnt)
    · intro x hx hxn
      rw [indices_setLow] at hx
      by_cases hxt : (assocGet t.indices x).isSome
      · exact hscan.reach_new x hxt hxn
      · have hxtn : (assocGet t.indices x).isNone := by
          cases h : assocGet t.indices x with
          | none => rfl
          | some k => exact absurd (by rw [h]; rfl) hxt
        exact (Relation.ReflTransGen.single hedge).trans
          (P.reach_new x hx hxtn)
    · obtain ⟨n1, hn1⟩ := hscan.sccs_ext
      refine ⟨n1 ++ newSccs, ?_⟩
      rw [sccs_setLow, hnew, hn1, List.append_assoc]
    · intro y hy
      rcases List.mem_append.mp hy with hy | hy
      · rcases hscan.edgeP_done y hy with ⟨c, hc, hyc⟩ | ⟨hys, hb⟩
        · refine Or.inl ⟨c, ?_, hyc⟩
          rw [sccs_setLow, hnew]
          exact List.mem_append.mpr (Or.inl hc)
        · refine Or.inr ⟨by rw [stack_setLow]; exact ht_prefix y hys, ?_⟩
          obtain ⟨hsy, _⟩ := hstable_stack y hys
          rw [lowOf_setLow, if_pos rfl, idxOf_setLow, hsy]
          exact le_trans (le_trans hm_le (le_of_eq hlow'_v)) hb
      · rw [List.mem_singleton] at hy
        rw [hy]
        rcases P.stack_low with ⟨hstt, _⟩ | ⟨ext', hstk', _⟩
        · refine Or.inl ?_
          rcases (P.inv.visited_iff succ).mp (by rw [P.v_index]; rfl) with h | h
          · rw [hstt] at h
            exact absurd h hsucc_nstk
          · obtain ⟨c, hc, hcy⟩ := h
            exact ⟨c, by rw [sccs_setLow]; exact hc, hcy⟩
        · have hsucc_stk' : succ ∈ (g succ t).stack := by
            rw [hstk']
            exact List.mem_append.mpr (Or.inr (List.mem_cons_self _ _))
          refine Or.inr ⟨by rw [stack_setLow]; exact hsucc_stk', ?_⟩
          rw [lowOf_setLow, if_pos rfl, idxOf_setLow]
          exact le_trans (Nat.min_le_right _ _)
            (P.inv.low_le succ (by rw [P.v_index]; rfl))
    · intro x hxs hxn y hxy
      rw [stack_setLow] at hxs
      have hxv : x ≠ v := by
        intro h
        subst h
        rw [Option.isNone_iff_eq_none, hidx_v] at hxn
        cases hxn
      by_cases hxt : x ∈ t.stack
      · rcases hscan.edgeP_ext x hxt hxn y hxy with ⟨c, hc, hyc⟩ | ⟨hys, hb⟩
        · refine Or.inl ⟨c, ?_, hyc⟩
          rw [sccs_setLow, hnew]
          exact List.mem_append.mpr (Or.inl hc)
        · refine Or.inr ⟨by rw [stack_setLow]; exact ht_prefix y hys, ?_⟩
          obtain ⟨hsy, _⟩ := hstable_stack y hys
          obtain ⟨_, hlx⟩ := hstable_stack x hxt
          rw [lowOf_setLow, if_neg hxv, idxOf_setLow, hsy, hlx]
          exact hb
      · rcases P.ext_edgeP x hxs hxt y hxy with ⟨c, hc, hyc⟩ | ⟨hys, hb⟩
        · refine Or.inl ⟨c, ?_, hyc⟩
          rw [sccs_setLow]
          exact hc
        · refine Or.inr ⟨by rw [stack_setLow]; exact hys, ?_⟩
          rw [lowOf_setLow, if_neg hxv, idxOf_setLow]
          exact hb

theorem filter_length_strict {α : Type} {p q : α → Bool}
    (h : ∀ x, p x = true → q x = true) (a : α) (hqa : q a = true)
    (hpa : p a = false) :
    ∀ l : List α, a ∈ l → (l.filter p).length < (l.filter q).length := by
  intro l
  induction l with
  | nil => intro h'; cases h'
  | cons x xs ih =>
    intro hmem
    rcases List.mem_cons.mp hmem with rfl | hmem
    · rw [List.filter_cons, List.filter_cons, hpa, hqa]
      simp only [Bool.false_eq_true, if_false, if_true, List.length_cons]
      exact Nat.lt_succ_of_le (filter_length_mono h xs)
    · rw [List.filter_cons, List.filter_cons]
      cases hp : p x with
      | true =>
        rw [h x hp]
        simp only [if_true, List.length_cons]
        exact Nat.succ_lt_succ (ih hmem)
      | false =>
        cases hq : q x with
        | true =>
          simp only [Bool.false_eq_true, if_false, if_true, List.length_cons]
          exact Nat.lt_succ_of_lt (ih hmem)
        | false =>
          simp only [Bool.false_eq_true, if_false]
          exact ih hmem

theorem unvisitedCount_pushNode_lt (idx : RecipeIndex) (v : Item)
    (s : TarjanState) (hmem : v ∈ allItemsOf idx)
    (hunv : assocGet s.indices v = none) :
    unvisitedCount idx (pushNode v s) < unvisitedCount idx s := by
  unfold unvisitedCount
  refine filter_length_strict ?_ v ?_ ?_ (allItemsOf idx) hmem
  · intro x hx
    rw [Option.isNone_iff_eq_none] at hx ⊢
    rw [indices_pushNode] at hx
    by_cases hxv : x = v
    · rw [if_pos hxv] at hx
      cases hx
    · rwa [if_neg hxv] at hx
  · rw [Option.isNone_iff_eq_none, hunv]
  · rw [Bool.eq_false_iff]
    intro h
    rw [Option.isNone_iff_eq_none, indices_pushNode, if_pos rfl] at h
    cases h

theorem scanItem_eq_foldl (g : Item → TarjanState → TarjanState)
    (idx : RecipeIndex) (item : Item) (s : TarjanState) :
    scanItem g idx item s
      = (succList idx item).foldl (fun u w => visitSuccessor g item w u) s := by
  unfold scanItem succList
  rw [List.foldl_flatten, List.foldl_map]
  congr 1
  funext u r
  rw [List.foldl_map]

theorem scan_fold (idx : RecipeIndex) (fuel : Nat)
    (g : Item → TarjanState → TarjanState)
    (hg : ∀ w u, SCPre idx w u → unvisitedCount idx u < fuel →
      SCPost idx w u (g w u))
    (v : Item) (i0 : Nat) (s0stk : List Item) (s1 : TarjanState)
    (hidx_v : assocGet s1.indices v = some i0)
    (hs0vis : ∀ x ∈ s0stk, (assocGet s1.indices x).isSome)
    (hfuel : unvisitedCount idx s1 < fuel) :
    ∀ (todo done : List Item) (t : TarjanState),
      (∀ w ∈ todo, depEdge idx v w) →
      ScanInv idx v i0 s0stk s1 done t →
      ScanInv idx v i0 s0stk s1 (done ++ todo)
        (todo.foldl (fun u w => visitSuccessor g v w u) t) := by
  intro todo
  induction todo with
  | nil =>
    intro done t _ hscan
    rw [List.append_nil]
    exact hscan
  | cons w todo ih =>
    intro done t hedges hscan
    rw [List.foldl_cons,
      show done ++ w :: todo = (done ++ [w]) ++ todo by simp]
    exact ih (done ++ [w]) (visitSuccessor g v w t)
      (fun u hu => hedges u (List.mem_cons_of_mem _ hu))
      (visitSuccessor_step idx fuel g hg v i0 s0stk s1 done t w hscan
        (hedges w (List.mem_cons_self _ _)) hidx_v hs0vis hfuel)

theorem noemit_case (idx : RecipeIndex) (v : Item) (s : TarjanState)
    (hpre : SCPre idx v s) (t : TarjanState)
    (hscan : ScanInv idx v s.index s.stack (pushNode v s) (succList idx v) t)
    (hroot : lowOf t v < idxOf t v) :
    SCPost idx v s t := by
  have hv1idx : assocGet (pushNode v s).indices v = some s.index := by
    rw [indices_pushNode, if_pos rfl]
  have hvt_idx : assocGet t.indices v = some s.index := by
    rw [hscan.idx_stable v (by rw [hv1idx]; rfl)]
    exact hv1idx
  have hs1none_to_s : ∀ x, assocGet (pushNode v s).indices x = none →
      assocGet s.indices x = none := by
    intro x hx
    rw [indices_pushNode] at hx
    by_cases hxv : x = v
    · rw [if_pos hxv] at hx; cases hx
    · rwa [if_neg hxv] at hx
  have hvis_to_s1 : ∀ x, (assocGet s.indices x).isSome →
      (assocGet (pushNode v s).indices x).isSome := by
    intro x hx
    rw [indices_pushNode]
    by_cases hxv : x = v
    · rw [if_pos hxv]; rfl
    · rw [if_neg hxv]; exact hx
  have hne_of_vis : ∀ x, (assocGet s.indices x).isSome → x ≠ v := by
    intro x hx h
    subst h
    rw [hpre.unvisited] at hx
    cases hx
  have hidx_stable_s : ∀ x, (assocGet s.indices x).isSome →
      assocGet t.indices x = assocGet s.indices x := by
    intro x hx
    rw [hscan.idx_stable x (hvis_to_s1 x hx), indices_pushNode,
      if_neg (hne_of_vis x hx)]
  have hlow_stable_s : ∀ x, (assocGet s.indices x).isSome →
      assocGet t.lowLinks x = assocGet s.lowLinks x := by
    intro x hx
    rw [hscan.low_stable_old x (hvis_to_s1 x hx) (hne_of_vis x hx),
      lowLinks_pushNode, if_neg (hne_of_vis x hx)]
  obtain ⟨ext, hstk, hextP⟩ := hscan.stack_shape
  refine ⟨hscan.inv, hidx_stable_s, hlow_stable_s, ?_, hvt_idx, ?_, ?_, ?_,
    ?_, ?_, ?_, ?_, ?_⟩
  · have h1 : (pushNode v s).index = s.index + 1 := rfl
    have := hscan.counter_ge
    omega
  · intro x n hx
    rcases hscan.new_idx_ge x n hx with h | h
    · by_cases hxv : x = v
      · subst hxv
        rw [hvt_idx] at hx
        cases hx
        exact Or.inr (Nat.le_refl _)
      · rw [indices_pushNode, if_neg hxv] at h
        exact Or.inl h
    · have h1 : (pushNode v s).index = s.index + 1 := rfl
      rw [h1] at h
      exact Or.inr (by omega)
  · intro x hx hxn
    by_cases hxv : x = v
    · subst hxv
      exact Relation.ReflTransGen.refl
    · refine hscan.reach_new x hx ?_
      rw [Option.isNone_iff_eq_none] at hxn ⊢
      rw [indices_pushNode, if_neg hxv]
      exact hxn
  · exact hscan.sccs_ext
  · exact Or.inr ⟨ext, hstk, hroot⟩
  · intro x hx
    rw [hstk] at hx
    rcases List.mem_append.mp hx with hx | hx
    · exact Or.inl hx
    · rcases List.mem_cons.mp hx with rfl | hx
      · exact Or.inr (by rw [Option.isNone_iff_eq_none]; exact hpre.unvisited)
      · refine Or.inr ?_
        have h1 := (hextP x hx).1
        rw [Option.isNone_iff_eq_none] at h1 ⊢
        exact hs1none_to_s x h1
  · intro x hx hxns hxv
    rw [hstk] at hx
    rcases List.mem_append.mp hx with hx | hx
    · exact absurd hx hxns
    · rcases List.mem_cons.mp hx with rfl | hx
      · exact absurd rfl hxv
      · exact (hextP x hx).2.1
  · intro x hx hxns
    rw [hstk] at hx
    rcases List.mem_append.mp hx with hx | hx
    · exact absurd hx hxns
    · rcases List.mem_cons.mp hx with rfl | hx
      · exact Nat.le_refl _
      · exact (hextP x hx).2.2
  · intro x hx hxns y hxy
    by_cases hxv : x = v
    · subst hxv
      have hy : y ∈ succList idx x := (depEdge_iff_mem_succList idx x y).mp hxy
      exact hscan.edgeP_done y hy
    · have hxext : x ∈ ext := by
        rw [hstk] at hx
        rcases List.mem_append.mp hx with h | h
        · exact absurd h hxns
        · rcases List.mem_cons.mp h with h | h
          · exact absurd h hxv
          · exact h
      exact hscan.edgeP_ext x hx (hextP x hxext).1 y hxy

theorem emit_case (idx : RecipeIndex) (v : Item) (s : TarjanState)
    (hpre : SCPre idx v s) (t : TarjanState)
    (hscan : ScanInv idx v s.index s.stack (pushNode v s) (succList idx v) t)
    (hroot : lowOf t v = s.index) :
    SCPost idx v s (emitScc v t) := by
  have hv1idx : assocGet (pushNode v s).indices v = some s.index := by
    rw [indices_pushNode, if_pos rfl]
  have hvt_idx : assocGet t.indices v = some s.index := by
    rw [hscan.idx_stable v (by rw [hv1idx]; rfl)]
    exact hv1idx
  have hidxOf_v : idxOf t v = s.index := by unfold idxOf; rw [hvt_idx]; rfl
  have hs1none_to_s : ∀ x, assocGet (pushNode v s).indices x = none →
      assocGet s.indices x = none := by
    intro x hx
    rw [indices_pushNode] at hx
    by_cases hxv : x = v
    · rw [if_pos hxv] at hx; cases hx
    · rwa [if_neg hxv] at hx
  have hvis_to_s1 : ∀ x, (assocGet s.indices x).isSome →
      (assocGet (pushNode v s).indices x).isSome := by
    intro x hx
    rw [indices_pushNode]
    by_cases hxv : x = v
    · rw [if_pos hxv]; rfl
    · rw [if_neg hxv]; exact hx
  have hne_of_vis : ∀ x, (assocGet s.indices x).isSome → x ≠ v := by
    intro x hx h
    subst h
    rw [hpre.unvisited] at hx
    cases hx
  have hidx_stable_s : ∀ x, (assocGet s.indices x).isSome →
      assocGet t.indices x = assocGet s.indices x := by
    intro x hx
    rw [hscan.idx_stable x (hvis_to_s1 x hx), indices_pushNode,
      if_neg (hne_of_vis x hx)]
  have hlow_stable_s : ∀ x, (assocGet s.indices x).isSome →
      assocGet t.lowLinks x = assocGet s.lowLinks x := by
    intro x hx
    rw [hscan.low_stable_old x (hvis_to_s1 x hx) (hne_of_vis x hx),
      lowLinks_pushNode, if_neg (hne_of_vis x hx)]
  obtain ⟨ext, hstk, hextP⟩ := hscan.stack_shape
  have hstknd : t.stack.Nodup := hscan.inv.nodup.of_append_right
  rw [hstk] at hstknd
  have hvnext : v ∉ ext := (List.nodup_cons.mp hstknd.of_append_right).1
  have hdisj : ∀ x ∈ s.stack, ¬(x = v ∨ x ∈ ext) := by
    intro x hx h
    exact (List.nodup_append.mp hstknd).2.2 hx (List.mem_cons.mpr h)
  have hext_stk : ∀ x ∈ ext, x ∈ t.stack := by
    intro x hx
    rw [hstk]
    exact List.mem_append.mpr (Or.inr (List.mem_cons_of_mem _ hx))
  have hext_vis : ∀ x ∈ ext, (assocGet t.indices x).isSome := by
    intro x hx
    exact (hscan.inv.visited_iff x).mpr (Or.inl (hext_stk x hx))
  have hpre_lt : ∀ y ∈ s.stack, idxOf t y < s.index := by
    intro y hy
    have hp := hscan.inv.stack_incr
    rw [hstk] at hp
    have := (List.pairwise_append.mp hp).2.2 y hy v (List.mem_cons_self _ _)
    rwa [hidxOf_v] at this
  have hgroup : ∀ y ∈ t.stack, s.index ≤ idxOf t y → y = v ∨ y ∈ ext := by
    intro y hy hge
    rw [hstk] at hy
    rcases List.mem_append.mp hy with hy | hy
    · exact absurd hge (by have := hpre_lt y hy; omega)
    · exact List.mem_cons.mp hy
  have hdesc : ∀ u ∈ v :: ext, Relation.ReflTransGen (depEdge idx) u v :=
    stack_descent idx t hscan.inv v s.stack ext hstk
      (fun x hx => (hextP x hx).2.1)
  have hasc : ∀ u ∈ v :: ext, Relation.ReflTransGen (depEdge idx) v u := by
    intro u hu
    rcases List.mem_cons.mp hu with rfl | hu
    · exact Relation.ReflTransGen.refl
    · exact hscan.reach_new u (hext_vis u hu) (hextP u hu).1
  have hsccmem : ∀ x, x ∈ ext.reverse ++ [v] ↔ x = v ∨ x ∈ ext := by
    intro x
    constructor
    · intro h
      rcases List.mem_append.mp h with h | h
      · exact Or.inr (List.mem_reverse.mp h)
      · exact Or.inl (List.mem_singleton.mp h)
    · intro h
      rcases h with rfl | h
      · exact List.mem_append.mpr (Or.inr (List.mem_singleton.mpr rfl))
      · exact List.mem_append.mpr (Or.inl (List.mem_reverse.mpr h))
  obtain ⟨onStack', heq, honmem⟩ := emitScc_spec v t s.stack ext hstk hvnext
  rw [heq]
  have hinv' : TarjanInv idx
      { t with stack := s.stack, onStack := onStack',
               sccs := t.sccs ++ [ext.reverse ++ [v]] } := by
    refine ⟨hscan.inv.low_dom, hscan.inv.idx_lt, hscan.inv.idx_inj,
      hscan.inv.low_le, ?_, ?_, ?_, hscan.inv.visited_sub, ?_, ?_, ?_, ?_,
      ?_, ?_⟩
    · intro x
      show onStack'.contains x = true ↔ x ∈ s.stack
      rw [contains_iff_mem, honmem x]
      constructor
      · rintro ⟨h1, h2⟩
        have hx : x ∈ t.stack := (hscan.inv.onStack_iff x).mp
          ((contains_iff_mem t.onStack x).mpr h1)
        rw [hstk] at hx
        rcases List.mem_append.mp hx with hx | hx
        · exact hx
        · exact absurd (List.mem_cons.mp hx) h2
      · intro hx
        have hxt : x ∈ t.stack := by
          rw [hstk]
          exact List.mem_append.mpr (Or.inl hx)
        exact ⟨(contains_iff_mem t.onStack x).mp
          ((hscan.inv.onStack_iff x).mpr hxt), hdisj x hx⟩
    · show ((t.sccs ++ [ext.reverse ++ [v]]).flatten ++ s.stack).Nodup
      have hnd := hscan.inv.nodup
      rw [hstk] at hnd
      have hperm : (t.sccs.flatten ++ (s.stack ++ v :: ext)).Perm
          ((t.sccs ++ [ext.reverse ++ [v]]).flatten ++ s.stack) := by
        rw [List.flatten_append, List.flatten_cons, List.flatten_nil,
          List.append_nil, List.append_assoc]
        refine List.Perm.append_left _ (List.Perm.trans List.perm_append_comm ?_)
        exact List.Perm.append_right _
          ((((List.reverse_perm ext).append_right [v]).trans
            (List.perm_append_singleton v ext)).symm)
      exact hperm.nodup hnd
    · intro x
      show (assocGet t.indices x).isSome ↔
        x ∈ s.stack ∨ ∃ c ∈ t.sccs ++ [ext.reverse ++ [v]], x ∈ c
      rw [hscan.inv.visited_iff x]
      constructor
      · rintro (hx | ⟨c, hc, hxc⟩)
        · rw [hstk] at hx
          rcases List.mem_append.mp hx with hx | hx
          · exact Or.inl hx
          · exact Or.inr ⟨ext.reverse ++ [v],
              List.mem_append.mpr (Or.inr (List.mem_singleton.mpr rfl)),
              (hsccmem x).mpr (List.mem_cons.mp hx)⟩
        · exact Or.inr ⟨c, List.mem_append.mpr (Or.inl hc), hxc⟩
      · rintro (hx | ⟨c, hc, hxc⟩)
        · refine Or.inl ?_
          rw [hstk]
          exact List.mem_append.mpr (Or.inl hx)
        · rcases List.mem_append.mp hc with hc | hc
          · exact Or.inr ⟨c, hc, hxc⟩
          · rw [List.mem_singleton] at hc
            subst hc
            refine Or.inl ?_
            rw [hstk]
            exact List.mem_append.mpr
              (Or.inr (List.mem_cons.mpr ((hsccmem x).mp hxc)))
    · show s.stack.Pairwise _
      have hp := hscan.inv.stack_incr
      rw [hstk] at hp
      exact (List.pairwise_append.mp hp).1
    · show s.stack.Pairwise _
      have hp := hscan.inv.stack_reach
      rw [hstk] at hp
      exact (List.pairwise_append.mp hp).1
    · intro u hu
      have huvis : (assocGet s.indices u).isSome :=
        (hpre.inv.visited_iff u).mpr (Or.inl hu)
      obtain ⟨x, hxs, hxi, hr⟩ := hpre.inv.low_witness u hu
      have hxvis : (assocGet s.indices x).isSome :=
        (hpre.inv.visited_iff x).mpr (Or.inl hxs)
      refine ⟨x, hxs, ?_, hr⟩
      show idxOf t x = lowOf t u
      have h1 : idxOf t x = idxOf s x := by
        unfold idxOf
        rw [hidx_stable_s x hxvis]
      have h2 : lowOf t u = lowOf s u := by
        unfold lowOf
        rw [hlow_stable_s u huvis]
      rw [h1, h2]
      exact hxi
    · intro c hc x hx y hy
      rcases List.mem_append.mp hc with hc | hc
      · exact hscan.inv.scc_mutual c hc x hx y hy
      · rw [List.mem_singleton] at hc
        subst hc
        exact (hdesc x (List.mem_cons.mpr ((hsccmem x).mp hx))).trans
          (hasc y (List.mem_cons.mpr ((hsccmem y).mp hy)))
    · intro c hc
      rcases List.mem_append.mp hc with hc | hc
      · exact hscan.inv.scc_nonempty c hc
      · rw [List.mem_singleton] at hc
        subst hc
        simp
    · intro i c hgc x hx y hxy
      show ∃ j c', j ≤ i ∧
        (t.sccs ++ [ext.reverse ++ [v]]).get? j = some c' ∧ y ∈ c'
      by_cases hi : i < t.sccs.length
      · rw [List.get?_append hi] at hgc
        obtain ⟨j, c', hj, hget, hyc⟩ := hscan.inv.scc_edges i c hgc x hx y hxy
        obtain ⟨hjlt, _⟩ := List.get?_eq_some.mp hget
        refine ⟨j, c', hj, ?_, hyc⟩
        rw [List.get?_append hjlt]
        exact hget
      · have hge : t.sccs.length ≤ i := Nat.le_of_not_lt hi
        rw [List.get?_append_right hge] at hgc
        cases hd : i - t.sccs.length with
        | zero =>
          rw [hd, List.get?_cons_zero] at hgc
          cases hgc
          have hx' : x = v ∨ x ∈ ext := (hsccmem x).mp hx
          have hedgeP : (∃ c' ∈ t.sccs, y ∈ c') ∨
              (y ∈ t.stack ∧ s.index ≤ idxOf t y) := by
            rcases hx' with hxv | hxe
            · subst hxv
              have hy : y ∈ succList idx x :=
                (depEdge_iff_mem_succList idx x y).mp hxy
              rcases hscan.edgeP_done y hy with h | ⟨h1, h2⟩
              · exact Or.inl h
              · refine Or.inr ⟨h1, ?_⟩
                rw [← hroot]
                exact h2
            · rcases hscan.edgeP_ext x (hext_stk x hxe) (hextP x hxe).1 y hxy
                with h | ⟨h1, h2⟩
              · exact Or.inl h
              · refine Or.inr ⟨h1, ?_⟩
                have h3 := (hextP x hxe).2.2
                rw [hroot] at h3
                omega
          rcases hedgeP with ⟨c', hc', hyc⟩ | ⟨h1, h2⟩
          · obtain ⟨j, hj⟩ := List.mem_iff_get?.mp hc'
            obtain ⟨hjlt, _⟩ := List.get?_eq_some.mp hj
            refine ⟨j, c', by omega, ?_, hyc⟩
            rw [List.get?_append hjlt]
            exact hj
          · refine ⟨t.sccs.length, ext.reverse ++ [v], by omega, ?_,
              (hsccmem y).mpr (hgroup y h1 h2)⟩
            exact List.get?_concat_length t.sccs _
        | succ k =>
          rw [hd, List.get?_cons_succ, List.get?_nil] at hgc
          cases hgc
  refine ⟨hinv', hidx_stable_s, hlow_stable_s, ?_, hvt_idx, ?_, ?_, ?_, ?_,
    ?_, ?_, ?_, ?_⟩
  · show s.index < t.index
    have h1 : (pushNode v s).index = s.index + 1 := rfl
    have := hscan.counter_ge
    omega
  · intro x n hx
    rcases hscan.new_idx_ge x n hx with h | h
    · by_cases hxv : x = v
      · subst hxv
        have hx' : assocGet t.indices x = some n := hx
        rw [hvt_idx] at hx'
        cases hx'
        exact Or.inr (Nat.le_refl _)
      · rw [indices_pushNode, if_neg hxv] at h
        exact Or.inl h
    · have h1 : (pushNode v s).index = s.index + 1 := rfl
      rw [h1] at h
      exact Or.inr (by omega)
  · intro x hx hxn
    by_cases hxv : x = v
    · subst hxv
      exact Relation.ReflTransGen.refl
    · refine hscan.reach_new x hx ?_
      rw [Option.isNone_iff_eq_none] at hxn ⊢
      rw [indices_pushNode, if_neg hxv]
      exact hxn
  · obtain ⟨new0, hnew0⟩ := hscan.sccs_ext
    refine ⟨new0 ++ [ext.reverse ++ [v]], ?_⟩
    show t.sccs ++ [ext.reverse ++ [v]] = s.sccs ++ (new0 ++ [ext.reverse ++ [v]])
    rw [hnew0, List.append_assoc]
    rfl
  · refine Or.inl ⟨rfl, ?_⟩
    show lowOf t v = idxOf t v
    rw [hroot, hidxOf_v]
  · intro x hx
    exact Or.inl hx
  · intro x hx hxns _
    exact absurd hx hxns
  · intro x hx hxns
    exact absurd hx hxns
  · intro x hx hxns y _
    exact absurd hx hxns

theorem strongConnect_post (idx : RecipeIndex) :
    ∀ (fuel : Nat) (v : Item) (s : TarjanState), SCPre idx v s →
      unvisitedCount idx s < fuel →
      SCPost idx v s (strongConnect idx fuel v s) := by
  intro fuel
  induction fuel with
  | zero =>
    intro v s _ hf
    omega
  | succ fuel ih =>
    intro v s hpre hf
    obtain ⟨hinv1, hscan0, hv1idx, hidx1, hstk1⟩ := pushNode_spec idx v s hpre
    have hcnt1 : unvisitedCount idx (pushNode v s) < fuel := by
      have := unvisitedCount_pushNode_lt idx v s hpre.mem_all hpre.unvisited
      omega
    have hvis1 : ∀ x ∈ s.stack, (assocGet (pushNode v s).indices x).isSome := by
      intro x hx
      rw [indices_pushNode]
      by_cases hxv : x = v
      · rw [if_pos hxv]; rfl
      · rw [if_neg hxv]
        exact (hpre.inv.visited_iff x).mpr (Or.inl hx)
    have hscan := scan_fold idx fuel (strongConnect idx fuel) ih v s.index
      s.stack (pushNode v s) hv1idx hvis1 hcnt1 (succList idx v) []
      (pushNode v s) (fun w hw => (depEdge_iff_mem_succList idx v w).mpr hw)
      hscan0
    rw [List.nil_append, ← scanItem_eq_foldl] at hscan
    have hred : strongConnect idx (fuel + 1) v s
        = (if assocGet (scanItem (strongConnect idx fuel) idx v
              (pushNode v s)).lowLinks v
            == assocGet (scanItem (strongConnect idx fuel) idx v
              (pushNode v s)).indices v
           then emitScc v (scanItem (strongConnect idx fuel) idx v
             (pushNode v s))
           else scanItem (strongConnect idx fuel) idx v (pushNode v s)) := rfl
    rw [hred]
    set t := scanItem (strongConnect idx fuel) idx v (pushNode v s) with hts
    have hvt_idx : assocGet t.indices v = some s.index := by
      rw [hscan.idx_stable v (by rw [hv1idx]; rfl)]
      exact hv1idx
    have hvt_vis : (assocGet t.indices v).isSome := by rw [hvt_idx]; rfl
    have hidxOf_v : idxOf t v = s.index := by unfold idxOf; rw [hvt_idx]; rfl
    have hlow_dom : (assocGet t.lowLinks v).isSome :=
      (hscan.inv.low_dom v).mpr hvt_vis
    obtain ⟨L, hL⟩ := Option.isSome_iff_exists.mp hlow_dom
    have hlowOf : lowOf t v = L := by unfold lowOf; rw [hL]; rfl
    by_cases hcond : L = s.index
    · have hbeq : (assocGet t.lowLinks v == assocGet t.indices v) = true := by
        rw [hL, hvt_idx, hcond]
        exact beq_self_eq_true _
      rw [if_pos hbeq]
      refine emit_case idx v s hpre t hscan ?_
      rw [hlowOf]
      exact hcond
    · have hbeq : (assocGet t.lowLinks v == assocGet t.indices v) = false := by
        rw [hL, hvt_idx]
        exact beq_eq_false_iff_ne.mpr (by simp [hcond])
      rw [hbeq, if_neg (by simp)]
      refine noemit_case idx v s hpre t hscan ?_
      have hle := hscan.inv.low_le v hvt_vis
      rw [hlowOf, hidxOf_v] at hle ⊢
      omega

theorem post_empty_stack (idx : RecipeIndex) (v : Item) (s s' : TarjanState)
    (hinv : TarjanInv idx s) (hstk : s.stack = [])
    (hpost : SCPost idx v s s') : s'.stack = [] := by
  rcases hpost.stack_low with ⟨h, _⟩ | ⟨ext, h, hlt⟩
  · rw [h, hstk]
  · exfalso
    rw [hstk, List.nil_append] at h
    have hv_stk : v ∈ s'.stack := by
      rw [h]
      exact List.mem_cons_self _ _
    obtain ⟨x, hxs, hxi, _⟩ := hpost.inv.low_witness v hv_stk
    have hxvis' : (assocGet s'.indices x).isSome :=
      (hpost.inv.visited_iff x).mpr (Or.inl hxs)
    obtain ⟨n, hn⟩ := Option.isSome_iff_exists.mp hxvis'
    have hge : s.index ≤ n := by
      rcases hpost.new_idx_ge x n hn with hvis | hge
      · exfalso
        rcases (hinv.visited_iff x).mp hvis with hx | ⟨c, hc, hxc⟩
        · rw [hstk] at hx
          cases hx
        · obtain ⟨new, hnew⟩ := hpost.sccs_ext
          have hxfl : x ∈ s'.sccs.flatten := by
            rw [hnew]
            exact List.mem_flatten.mpr ⟨c, List.mem_append.mpr (Or.inl hc), hxc⟩
          exact (List.nodup_append.mp hpost.inv.nodup).2.2 hxfl hxs
      · exact hge
    have hidxx : idxOf s' x = n := by unfold idxOf; rw [hn]; rfl
    have hvidx : idxOf s' v = s.index := by
      unfold idxOf
      rw [hpost.v_index]
      rfl
    rw [hxi] at hidxx
    rw [hvidx] at hlt
    omega

theorem initTarjan_inv (idx : RecipeIndex) : TarjanInv idx initTarjan := by
  refine ⟨?_, ?_, ?_, ?_, ?_, ?_, ?_, ?_, ?_, ?_, ?_, ?_, ?_, ?_⟩
  · intro x
    exact Iff.rfl
  · intro x n h
    cases h
  · intro x y n h
    cases h
  · intro x h
    cases h
  · intro x
    simp [initTarjan]
  · simp [initTarjan]
  · intro x
    simp [initTarjan, assocGet]
  · intro x h
    cases h
  · exact List.Pairwise.nil
  · exact List.Pairwise.nil
  · intro u hu
    cases hu
  · intro c hc
    cases hc
  · intro c hc
    cases hc
  · intro i c h
    cases h

theorem tarjanLoop_inv (idx : RecipeIndex) (N : Nat)
    (hN : (allItemsOf idx).length < N) :
    ∀ (l : List Item) (u : TarjanState), (∀ x ∈ l, x ∈ allItemsOf idx) →
      TarjanInv idx u → u.stack = [] →
      TarjanInv idx (l.foldl (fun s item =>
          match assocGet s.indices item with
          | none => strongConnect idx N item s
          | some _ => s) u) ∧
      (l.foldl (fun s item =>
          match assocGet s.indices item with
          | none => strongConnect idx N item s
          | some _ => s) u).stack = [] ∧
      (∀ x, (assocGet u.indices x).isSome →
        (assocGet (l.foldl (fun s item =>
          match assocGet s.indices item with
          | none => strongConnect idx N item s
          | some _ => s) u).indices x).isSome) ∧
      (∀ x ∈ l, (assocGet (l.foldl (fun s item =>
          match assocGet s.indices item with
          | none => strongConnect idx N item s
          | some _ => s) u).indices x).isSome) := by
  intro l
  induction l with
  | nil =>
    intro u _ hinv hstk
    exact ⟨hinv, hstk, fun x hx => hx,
      fun x hx => absurd hx (List.not_mem_nil x)⟩
  | cons v l ih =>
    intro u hl hinv hstk
    rw [List.foldl_cons]
    cases hv : assocGet u.indices v with
    | some k =>
      obtain ⟨h1, h2, h3, h4⟩ :=
        ih u (fun x hx => hl x (List.mem_cons_of_mem _ hx)) hinv hstk
      refine ⟨h1, h2, h3, ?_⟩
      intro x hx
      rcases List.mem_cons.mp hx with rfl | hx
      · exact h3 x (by rw [hv]; rfl)
      · exact h4 x hx
    | none =>
      have hpre : SCPre idx v u :=
        ⟨hinv, hv, hl v (List.mem_cons_self _ _), by
          intro w hw
          rw [hstk] at hw
          cases hw⟩
      have hcnt : unvisitedCount idx u < N := by
        have hle : unvisitedCount idx u ≤ (allItemsOf idx).length := by
          unfold unvisitedCount
          exact List.length_filter_le _ _
        omega
      have P := strongConnect_post idx N v u hpre hcnt
      have hstk' : (strongConnect idx N v u).stack = [] :=
        post_empty_stack idx v u _ hinv hstk P
      obtain ⟨h1, h2, h3, h4⟩ := ih (strongConnect idx N v u)
        (fun x hx => hl x (List.mem_cons_of_mem _ hx)) P.inv hstk'
      refine ⟨h1, h2, ?_, ?_⟩
      · intro x hx
        refine h3 x ?_
        rw [P.idx_stable x hx]
        exact hx
      · intro x hx
        rcases List.mem_cons.mp hx with rfl | hx
        · exact h3 x (by rw [P.v_index]; rfl)
        · exact h4 x hx

theorem runTarjan_spec (idx : RecipeIndex) :
    TarjanInv idx (runTarjan idx) ∧ (runTarjan idx).stack = [] ∧
    ∀ x ∈ allItemsOf idx, (assocGet (runTarjan idx).indices x).isSome := by
  obtain ⟨h1, h2, h3, h4⟩ := tarjanLoop_inv idx ((allItemsOf idx).length + 1)
    (by omega) (allItemsOf idx) initTarjan (fun x hx => hx)
    (initTarjan_inv idx) rfl
  exact ⟨h1, h2, h4⟩

theorem mem_availRecipes_key (idx : RecipeIndex) (item : Item)
    (r : ProcessedRecipe) (hr : r ∈ availRecipes idx item) :
    ∃ e ∈ idx, e.1 = item ∧ r ∈ e.2 := by
  simp only [availRecipes, lookupIndex] at hr
  cases hfind : idx.find? (fun e => e.1 == item) with
  | none =>
    rw [hfind] at hr
    cases hr
  | some e =>
    rw [hfind] at hr
    refine ⟨e, List.mem_of_find?_eq_some hfind, ?_, hr⟩
    have := List.find?_some hfind
    exact beq_iff_eq.mp this

theorem addItem_nodup (l : List Item) (i : Item) (h : l.Nodup) :
    (addItem l i).Nodup := by
  unfold addItem
  split
  · exact h
  · rename_i hc
    rw [List.nodup_append]
    refine ⟨h, List.nodup_singleton i, ?_⟩
    intro a ha hai
    rw [List.mem_singleton] at hai
    subst hai
    exact hc ((contains_iff_mem l a).mpr ha)

theorem foldl_preserves_nodup {β : Type} (f : List Item → β → List Item)
    (hf : ∀ acc b, acc.Nodup → (f acc b).Nodup) (l : List β) :
    ∀ acc, acc.Nodup → (l.foldl f acc).Nodup := by
  induction l with
  | nil => intro acc h; exact h
  | cons b l ih => intro acc h; exact ih _ (hf acc b h)

theorem allItemsOf_nodup (idx : RecipeIndex) : (allItemsOf idx).Nodup := by
  have h1 : (idx.foldl (fun acc e => addItem acc e.1) []).Nodup :=
    foldl_preserves_nodup _ (fun acc e h => addItem_nodup _ _ h) idx []
      List.nodup_nil
  exact foldl_preserves_nodup _ (fun acc e h =>
    foldl_preserves_nodup _ (fun acc2 r h2 =>
      foldl_preserves_nodup _ (fun acc3 ing h3 => addItem_nodup _ _ h3)
        r.ingredients acc2 h2) e.2 acc h) idx _ h1

theorem flatten_length_singletons (L : List (List Item))
    (h : ∀ c ∈ L, c.length = 1) : L.flatten.length = L.length := by
  induction L with
  | nil => rfl
  | cons c L ih =>
    rw [List.flatten_cons, List.length_append, List.length_cons,
      h c (List.mem_cons_self _ _),
      ih (fun c hc => h c (List.mem_cons_of_mem _ hc))]
    omega

theorem hasSelfLoop_depEdge (idx : RecipeIndex) (item : Item)
    (h : hasSelfLoop item idx = true) : depEdge idx item item := by
  unfold hasSelfLoop at h
  rw [List.any_eq_true] at h
  obtain ⟨r, hr, hing⟩ := h
  rw [List.any_eq_true] at hing
  obtain ⟨ing, hi, hbeq⟩ := hing
  exact ⟨r, hr, ing, hi, beq_iff_eq.mp hbeq⟩

theorem sccIsCircular_false (idx : RecipeIndex) (c : List Item)
    (hlen : c.length = 1) (hsl : hasSelfLoop (c.headD "") idx = false) :
    sccIsCircular idx c = false := by
  unfold sccIsCircular
  rw [hsl]
  simp [hlen]

theorem foldl_if_false {β : Type} (cond : β → Bool)
    (f : List Item → β → List Item) :
    ∀ (l : List β), (∀ p ∈ l, cond p = false) →
    ∀ acc, l.foldl (fun ci p => if cond p then f ci p else ci) acc = acc := by
  intro l
  induction l with
  | nil =>
    intro _ acc
    rfl
  | cons b l ih =>
    intro h acc
    rw [List.foldl_cons,
      if_neg (by rw [h b (List.mem_cons_self _ _)]; exact Bool.false_ne_true)]
    exact ih (fun p hp => h p (List.mem_cons_of_mem _ hp)) acc

theorem circularItems_nil (idx : RecipeIndex)
    (h : ∀ c ∈ (runTarjan idx).sccs, sccIsCircular idx c = false) :
    (findStronglyConnectedComponents idx).circularItems = [] := by
  show (runTarjan idx).sccs.enum.foldl (fun ci p =>
    if sccIsCircular idx p.2 then p.2.foldl addItem ci else ci) [] = []
  refine foldl_if_false (fun p => sccIsCircular idx p.2)
    (fun ci p => p.2.foldl addItem ci) ((runTarjan idx).sccs.enum) ?_ []
  intro p hp
  obtain ⟨i, c⟩ := p
  refine h c ?_
  have := List.mem_enum_iff_get?.mp hp
  exact List.get?_mem this

/-- C4: for a RecipeIndex whose ingredient-dependency graph is acyclic
(no item reaches itself through ingredient edges, self-loops included),
`findStronglyConnectedComponents` returns an empty `circularItems` set
and exactly one SCC per distinct item of the index. -/
theorem C4_acyclic_sccs (idx : RecipeIndex) (h : depAcyclic idx) :
    (findStronglyConnectedComponents idx).circularItems = [] ∧
    (findStronglyConnectedComponents idx).stronglyConnectedComponents.length
      = (allItemsOf idx).length := by
  obtain ⟨hinv, hstk, hall⟩ := runTarjan_spec idx
  have hflat_nd : (runTarjan idx).sccs.flatten.Nodup := by
    have hnd := hinv.nodup
    rw [hstk, List.append_nil] at hnd
    exact hnd
  have hsing : ∀ c ∈ (runTarjan idx).sccs, c.length = 1 := by
    intro c hc
    have hne := hinv.scc_nonempty c hc
    have hnd : c.Nodup := (List.nodup_flatten.mp hflat_nd).1 c hc
    rcases c with _ | ⟨x, c'⟩
    · exact absurd rfl hne
    rcases c' with _ | ⟨y, c''⟩
    · rfl
    exfalso
    have hxy : x ≠ y := by
      intro hxyeq
      exact (List.nodup_cons.mp hnd).1 (hxyeq ▸ List.mem_cons_self _ _)
    have hxy_r : Relation.ReflTransGen (depEdge idx) x y :=
      hinv.scc_mutual _ hc x (by simp) y (by simp)
    have hyx_r : Relation.ReflTransGen (depEdge idx) y x :=
      hinv.scc_mutual _ hc y (by simp) x (by simp)
    rcases Relation.reflTransGen_iff_eq_or_transGen.mp hxy_r with heq | htg
    · exact hxy heq.symm
    · exact h x (Relation.TransGen.trans_left htg hyx_r)
  have hcirc : ∀ c ∈ (runTarjan idx).sccs, sccIsCircular idx c = false := by
    intro c hc
    have hlen := hsing c hc
    rcases c with _ | ⟨x, c'⟩
    · cases hlen
    rcases c' with _ | ⟨y, c''⟩
    · refine sccIsCircular_false idx [x] rfl ?_
      show hasSelfLoop x idx = false
      rw [Bool.eq_false_iff]
      intro hsl
      exact h x (Relation.TransGen.single (hasSelfLoop_depEdge idx x hsl))
    · simp at hlen
  have hsub1 : (runTarjan idx).sccs.flatten ⊆ allItemsOf idx := by
    intro x hx
    exact hinv.visited_sub x
      ((hinv.visited_iff x).mpr (Or.inr (List.mem_flatten.mp hx)))
  have hsub2 : allItemsOf idx ⊆ (runTarjan idx).sccs.flatten := by
    intro x hx
    rcases (hinv.visited_iff x).mp (hall x hx) with hxs | hxc
    · rw [hstk] at hxs
      cases hxs
    · exact List.mem_flatten.mpr hxc
  have hlen_eq : (runTarjan idx).sccs.flatten.length = (allItemsOf idx).length :=
    Nat.le_antisymm
      (List.subperm_of_subset hflat_nd hsub1).length_le
      (List.subperm_of_subset (allItemsOf_nodup idx) hsub2).length_le
  refine ⟨circularItems_nil idx hcirc, ?_⟩
  show (runTarjan idx).sccs.length = (allItemsOf idx).length
  rw [← flatten_length_singletons _ hsing]
  exact hlen_eq

/-- Witness: the linear iron index is acyclic, so C4's conclusion holds for
it concretely. -/
theorem C4_witness :
    (findStronglyConnectedComponents idxIron).circularItems = [] ∧
    (findStronglyConnectedComponents idxIron).stronglyConnectedComponents.length
      = (allItemsOf idxIron).length := by
  refine C4_acyclic_sccs idxIron ?_
  have hstep : ∀ a b, depEdge idxIron a b → rankIron b < rankIron a := by
    rintro a b ⟨r, hr, ing, hing, rfl⟩
    obtain ⟨e, he, hkey, hre⟩ := mem_availRecipes_key idxIron a r hr
    rcases List.mem_cons.mp he with hcase | he
    · subst hcase
      have hr1 : r = recIronPlate := by simpa using hre
      subst hr1
      have hi1 : ing = ⟨"Desc_IronIngot_C", 3⟩ := by
        simpa [recIronPlate] using hing
      subst hi1
      have ha : a = "Desc_IronPlate_C" := by simpa using hkey.symm
      subst ha
      decide
    rcases List.mem_cons.mp he with hcase | he
    · subst hcase
      have hr1 : r = recIronIngot := by simpa using hre
      subst hr1
      have hi1 : ing = ⟨"Desc_OreIron_C", 1⟩ := by
        simpa [recIronIngot] using hing
      subst hi1
      have ha : a = "Desc_IronIngot_C" := by simpa using hkey.symm
      subst ha
      decide
    cases he
  intro a hreach
  have hlt : ∀ x y, Relation.TransGen (depEdge idxIron) x y →
      rankIron y < rankIron x := by
    intro x y hxy
    induction hxy with
    | single h1 => exact hstep _ _ h1
    | tail h1 h2 ih => exact lt_trans (hstep _ _ h2) ih
  exact absurd (hlt a a hreach) (lt_irrefl _)

theorem str_append_right_cancel (a b s : String) (h : a ++ s = b ++ s) :
    a = b := by
  have hd := congrArg String.data h
  rw [String.data_append, String.data_append] at hd
  exact String.ext (List.append_cancel_right hd)

theorem getCacheKey_ne (a b : Item) (flag : Bool) (st : List Item)
    (h : a ≠ b) : getCacheKey a flag st ≠ getCacheKey b flag st := by
  intro he
  unfold getCacheKey at he
  exact h (str_append_right_cancel _ _ _
    (str_append_right_cancel _ _ _
      (str_append_right_cancel _ _ _ (str_append_right_cancel _ _ _ he))))

theorem cacheGet_nil (k : String) : cacheGet [] k = none := rfl

theorem cacheGet_single_ne (k k' : String) (v : List RecipeResult)
    (h : k' ≠ k) : cacheGet [(k, v)] k' = none := by
  unfold cacheGet
  have : (k == k') = false := beq_eq_false_iff_ne.mpr (fun hh => h hh.symm)
  simp [List.find?, this]

theorem lookupIndex_some_mem (idx : RecipeIndex) (item : Item)
    (l : List ProcessedRecipe) (h : lookupIndex idx item = some l) :
    ∃ e ∈ idx, e.1 = item ∧ e.2 = l := by
  unfold lookupIndex at h
  cases hfind : idx.find? (fun e => e.1 == item) with
  | none =>
    rw [hfind] at h
    cases h
  | some e =>
    rw [hfind] at h
    have hp := List.find?_some hfind
    refine ⟨e, List.mem_of_find?_eq_some hfind, beq_iff_eq.mp hp, ?_⟩
    simpa using h

theorem recipesToUse_singleton (cr : List String) (r : ProcessedRecipe) :
    recipesToUse cr [r] = [r] := by
  unfold recipesToUse
  by_cases h : cr.contains r.className
  · simp [h]
  · simp [h]

theorem availRecipes_eq_of_lookup (idx : RecipeIndex) (item : Item)
    (l : List ProcessedRecipe) (h : lookupIndex idx item = some l) :
    availRecipes idx item = l := by
  unfold availRecipes
  rw [h]
  rfl

theorem availRecipes_nil_of_lookup (idx : RecipeIndex) (item : Item)
    (h : lookupIndex idx item = none) : availRecipes idx item = [] := by
  unfold availRecipes
  rw [h]
  rfl

theorem genIngredients_cons (g : GenFn) (p : RecipePath) (st : List Item)
    (ed : List CircularEdge) (d : Nat) (x : Item) (rest : List Item)
    (cache : MemoCache) (count : Nat) (res1 : List RecipeResult)
    (c1 : MemoCache) (n1 : Nat) (R : List (List RecipeResult))
    (c2 : MemoCache) (n2 : Nat)
    (hx : g x p st ed (d + 1) cache count = ⟨res1, c1, n1⟩)
    (hrest : genIngredients g p st ed d rest c1 n1 = (R, c2, n2)) :
    genIngredients g p st ed d (x :: rest) cache count = (res1 :: R, c2, n2) := by
  unfold genIngredients
  rw [hx]
  show (res1 :: (genIngredients g p st ed d rest c1 n1).1,
    (genIngredients g p st ed d rest c1 n1).2) = _
  rw [hrest]

theorem genIngredients_all_leaf (g : GenFn) (p : RecipePath) (st : List Item)
    (ed : List CircularEdge) (d : Nat) :
    ∀ (items : List Item) (cache : MemoCache) (count : Nat),
      (∀ x ∈ items, g x p st ed (d + 1) cache count
        = ⟨[⟨p, ed⟩], cache, count⟩) →
      genIngredients g p st ed d items cache count
        = (items.map (fun _ => [(⟨p, ed⟩ : RecipeResult)]), cache, count) := by
  intro items
  induction items with
  | nil =>
    intro cache count _
    rfl
  | cons x rest ih =>
    intro cache count h
    refine genIngredients_cons g p st ed d x rest cache count _ _ _ _ _ _
      (h x (List.mem_cons_self _ _)) ?_
    exact ih cache count (fun y hy => h y (List.mem_cons_of_mem _ hy))

theorem cartesian_singletons_circ :
    ∀ (L : List (List RecipeResult)), L ≠ [] →
      (∀ l ∈ L, ∃ x, l = [x]) →
      ∃ z, cartesianProductWithCirculars L = [z] ∧
        z.circulars.length
          = (L.map (fun l => (l.headD ⟨[], []⟩).circulars.length)).sum := by
  intro L
  induction L with
  | nil =>
    intro h
    exact absurd rfl h
  | cons l L ih =>
    intro _ hsing
    obtain ⟨x, hx⟩ := hsing l (List.mem_cons_self _ _)
    subst hx
    cases L with
    | nil =>
      refine ⟨x, rfl, ?_⟩
      simp
    | cons l2 L2 =>
      obtain ⟨z, hz, hzlen⟩ := ih (by simp)
        (fun l hl => hsing l (List.mem_cons_of_mem _ hl))
      refine ⟨⟨mergePaths x.path z.path, x.circulars ++ z.circulars⟩, ?_, ?_⟩
      · show (([x].map (fun fi =>
          (cartesianProductWithCirculars (l2 :: L2)).map (fun ri =>
            (⟨mergePaths fi.path ri.path,
              fi.circulars ++ ri.circulars⟩ : RecipeResult)))).flatten) = _
        rw [hz]
        simp
      · simp only [List.map_cons, List.sum_cons, List.headD_cons]
        rw [List.length_append, hzlen, List.map_cons, List.sum_cons]

theorem gen_leaf (MAXC MAXD : Nat) (idx : RecipeIndex) (ana : CircularAnalysis)
    (fuel : Nat) (item : Item) (p : RecipePath) (st : List Item)
    (ed : List CircularEdge) (d : Nat) (cache : MemoCache) (count : Nat)
    (hc : cacheGet cache (getCacheKey item false st) = none)
    (hleaf : isBaseResource item = true ∨
      (st.contains item = false ∧ availRecipes idx item = [])) :
    generateRecipeCombinations MAXC MAXD idx ana false (fuel + 1) item p st ed d
      cache count = ⟨[⟨p, ed⟩], cache, count⟩ := by
  rcases hleaf with hb | ⟨hs, hr⟩
  · simp [generateRecipeCombinations, hc, hb]
  · have hs' : item ∉ st := fun hm => by
      rw [(contains_iff_mem st item).mpr hm] at hs
      cases hs
    by_cases hb : isBaseResource item
    · simp [generateRecipeCombinations, hc, hb]
    · rw [Bool.not_eq_true] at hb
      simp [generateRecipeCombinations, hc, hb, hs', hr]

theorem gen_circular (MAXC MAXD : Nat) (idx : RecipeIndex)
    (ana : CircularAnalysis) (fuel : Nat) (item : Item) (p : RecipePath)
    (st : List Item) (ed : List CircularEdge) (d : Nat) (cache : MemoCache)
    (count : Nat)
    (hc : cacheGet cache (getCacheKey item false st) = none)
    (hb : isBaseResource item = false)
    (hs : st.contains item = true) :
    ∃ e, generateRecipeCombinations MAXC MAXD idx ana false (fuel + 1) item p
      st ed d cache count = ⟨[⟨p, ed ++ [e]⟩], cache, count⟩ := by
  have hs' : item ∈ st := (contains_iff_mem st item).mp hs
  simp only [generateRecipeCombinations, hc, hb, hs, Bool.false_and,
    Bool.false_eq_true, if_false, if_true]
  exact ⟨_, rfl⟩

theorem gen_recurse (MAXC MAXD : Nat) (idx : RecipeIndex)
    (ana : CircularAnalysis) (fuel : Nat) (item : Item) (p : RecipePath)
    (st : List Item) (ed : List CircularEdge) (d : Nat) (cache : MemoCache)
    (count : Nat)
    (hc : cacheGet cache (getCacheKey item false st) = none)
    (hb : isBaseResource item = false)
    (hs : st.contains item = false)
    (rs : List ProcessedRecipe) (hr : availRecipes idx item = rs)
    (hne : rs ≠ []) (hd : d ≤ MAXD) (hcnt : count ≤ MAXC)
    (res : List RecipeResult) (c2 : MemoCache) (n2 : Nat)
    (htry : tryRecipes MAXC
      (generateRecipeCombinations MAXC MAXD idx ana false fuel) item p
      (st ++ [item]) ed d (recipesToUse ana.circularRecipes rs) [] cache count
      = (res, c2, n2)) :
    generateRecipeCombinations MAXC MAXD idx ana false (fuel + 1) item p st ed d
      cache count = ⟨res, cacheSet c2 (getCacheKey item false st) res, n2⟩ := by
  have hemp : rs.isEmpty = false := by
    cases h : rs with
    | nil => exact absurd h hne
    | cons a l => rfl
  have hd' : (d > MAXD) = False := eq_false (by omega)
  have hcnt' : (count > MAXC) = False := eq_false (by omega)
  have hs2 : item ∉ st := fun hm => by
    rw [(contains_iff_mem st item).mpr hm] at hs
    cases hs
  simp [generateRecipeCombinations, hc, hb, hs2, hr, hemp, hd', hcnt', htry]

theorem tryRecipes_single (MAXC : Nat) (g : GenFn) (item : Item)
    (p : RecipePath) (st : List Item) (ed : List CircularEdge) (d : Nat)
    (rc : ProcessedRecipe) (cache : MemoCache) (count : Nat)
    (hne : rc.ingredients ≠ [])
    (R : List (List RecipeResult)) (c1 : MemoCache) (n1 : Nat)
    (hrun : genIngredients g (setKey p item rc) st ed d
      (rc.ingredients.map (fun ing => ing.item)) cache count = (R, c1, n1))
    (z : RecipeResult) (hcart : cartesianProductWithCirculars R = [z])
    (hcnt : n1 + 1 ≤ MAXC) :
    tryRecipes MAXC g item p st ed d [rc] [] cache count = ([z], c1, n1 + 1) := by
  have hemp : (rc.ingredients.map (fun ing => ing.item)).isEmpty = false := by
    cases h : rc.ingredients with
    | nil => exact absurd h hne
    | cons a l => rfl
  have hgt : (n1 + 1 > MAXC) = False := eq_false (by omega)
  simp [tryRecipes, hemp, hrun, hcart, hgt]

theorem genIngredients_leaf_prefix (g : GenFn) (p : RecipePath) (st : List Item)
    (ed : List CircularEdge) (d : Nat) :
    ∀ (pre rest : List Item) (cache : MemoCache) (count : Nat)
      (R : List (List RecipeResult)) (c2 : MemoCache) (n2 : Nat),
      (∀ x ∈ pre, g x p st ed (d + 1) cache count = ⟨[⟨p, ed⟩], cache, count⟩) →
      genIngredients g p st ed d rest cache count = (R, c2, n2) →
      genIngredients g p st ed d (pre ++ rest) cache count
        = (pre.map (fun _ => [(⟨p, ed⟩ : RecipeResult)]) ++ R, c2, n2) := by
  intro pre
  induction pre with
  | nil =>
    intro rest cache count R c2 n2 _ hrest
    simpa using hrest
  | cons x pre ih =>
    intro rest cache count R c2 n2 hleaf hrest
    refine genIngredients_cons g p st ed d x (pre ++ rest) cache count _ _ _ _ _ _
      (hleaf x (List.mem_cons_self _ _)) ?_
    exact ih rest cache count R c2 n2
      (fun y hy => hleaf y (List.mem_cons_of_mem _ hy)) hrest


theorem gen_two_cycle_run (idx : RecipeIndex) (ana : CircularAnalysis)
    (A B : Item) (rA rB : ProcessedRecipe)
    (hAB : A ≠ B)
    (hA : lookupIndex idx A = some [rA])
    (hB : lookupIndex idx B = some [rB])
    (hbA : isBaseResource A = false) (hbB : isBaseResource B = false)
    (preA postA : List RecipeIngredient) (ingB : RecipeIngredient)
    (hiA : rA.ingredients = preA ++ ingB :: postA)
    (hingB : ingB.item = B)
    (hleafA : ∀ ing ∈ preA ++ postA,
      isBaseResource ing.item = true ∨ lookupIndex idx ing.item = none)
    (preB postB : List RecipeIngredient) (ingA : RecipeIngredient)
    (hiB : rB.ingredients = preB ++ ingA :: postB)
    (hingA : ingA.item = A)
    (hleafB : ∀ ing ∈ preB ++ postB,
      isBaseResource ing.item = true ∨ lookupIndex idx ing.item = none) :
    ∃ (z : RecipeResult) (c2 : MemoCache) (n2 : Nat),
      generateRecipeCombinations MAX_COMBINATIONS MAX_DEPTH idx ana false
        (MAX_DEPTH + 2) A [] [] [] 0 [] 0 = ⟨[z], c2, n2⟩ ∧
      z.circulars.length = 1 := by
  have hAvail : availRecipes idx A = [rA] := availRecipes_eq_of_lookup _ _ _ hA
  have hBvail : availRecipes idx B = [rB] := availRecipes_eq_of_lookup _ _ _ hB
  have hBA : B ≠ A := fun h => hAB h.symm
  have hne_leaf : ∀ (l : List RecipeIngredient),
      (∀ ing ∈ l, isBaseResource ing.item = true ∨
        lookupIndex idx ing.item = none) →
      ∀ ing ∈ l, ing.item ≠ A ∧ ing.item ≠ B := by
    intro l hl ing hi
    rcases hl ing hi with hbase | hnone
    · constructor
      · intro h
        rw [h, hbA] at hbase
        cases hbase
      · intro h
        rw [h, hbB] at hbase
        cases hbase
    · constructor
      · intro h
        rw [h, hA] at hnone
        cases hnone
      · intro h
        rw [h, hB] at hnone
        cases hnone
  have hne_leafA := hne_leaf (preA ++ postA) hleafA
  have hne_leafB := hne_leaf (preB ++ postB) hleafB
  have hcontains2 : ∀ x : Item, x ≠ A → x ≠ B → ([A, B].contains x) = false := by
    intro x h1 h2
    rw [Bool.eq_false_iff]
    intro h
    rcases List.mem_cons.mp ((contains_iff_mem _ _).mp h) with h' | h'
    · exact h1 h'
    · rw [List.mem_singleton] at h'
      exact h2 h'
  have hcontains1 : ∀ x : Item, x ≠ A → ([A].contains x) = false := by
    intro x h1
    rw [Bool.eq_false_iff]
    intro h
    exact h1 (List.mem_singleton.mp ((contains_iff_mem _ _).mp h))
  have hzero : ∀ (l : List Item) (p : RecipePath),
      ((l.map (fun _ => [(⟨p, []⟩ : RecipeResult)])).map
        (fun l2 => (l2.headD ⟨[], []⟩).circulars.length)).sum = 0 := by
    intro l p
    refine List.sum_eq_zero ?_
    intro y hy
    rw [List.mem_map] at hy
    obtain ⟨w, hw, rfl⟩ := hy
    rw [List.mem_map] at hw
    obtain ⟨u, hu, rfl⟩ := hw
    rfl
  have hsing_map : ∀ (l : List Item) (p : RecipePath),
      ∀ l2 ∈ l.map (fun _ => [(⟨p, []⟩ : RecipeResult)]), ∃ x, l2 = [x] := by
    intro l p l2 hl2
    rw [List.mem_map] at hl2
    obtain ⟨w, _, rfl⟩ := hl2
    exact ⟨_, rfl⟩
  have hsing_gen : ∀ (P Q : List (List RecipeResult)) (mid : List RecipeResult),
      (∀ l ∈ P, ∃ x, l = [x]) → (∃ x, mid = [x]) →
      (∀ l ∈ Q, ∃ x, l = [x]) →
      ∀ l ∈ P ++ mid :: Q, ∃ x, l = [x] := by
    intro P Q mid hP hmid hQ l hl
    rcases List.mem_append.mp hl with h | h
    · exact hP l h
    · rcases List.mem_cons.mp h with rfl | h
      · exact hmid
      · exact hQ l h
  have hleafB_run : ∀ x ∈ preB.map (fun i => i.item),
      generateRecipeCombinations MAX_COMBINATIONS MAX_DEPTH idx ana false
        MAX_DEPTH x (setKey (setKey [] A rA) B rB) [A, B] [] 2 [] 0
        = ⟨[⟨setKey (setKey [] A rA) B rB, []⟩], [], 0⟩ := by
    intro x hx
    obtain ⟨ing, hing, rfl⟩ := List.mem_map.mp hx
    have hmem : ing ∈ preB ++ postB := List.mem_append.mpr (Or.inl hing)
    obtain ⟨hxa, hxb⟩ := hne_leafB ing hmem
    rcases hleafB ing hmem with hbase | hnone
    · exact gen_leaf _ _ idx ana 19 _ _ _ _ _ _ _ (cacheGet_nil _)
        (Or.inl hbase)
    · exact gen_leaf _ _ idx ana 19 _ _ _ _ _ _ _ (cacheGet_nil _)
        (Or.inr ⟨hcontains2 _ hxa hxb, availRecipes_nil_of_lookup _ _ hnone⟩)
  have hpostB_run : ∀ x ∈ postB.map (fun i => i.item),
      generateRecipeCombinations MAX_COMBINATIONS MAX_DEPTH idx ana false
        MAX_DEPTH x (setKey (setKey [] A rA) B rB) [A, B] [] 2 [] 0
        = ⟨[⟨setKey (setKey [] A rA) B rB, []⟩], [], 0⟩ := by
    intro x hx
    obtain ⟨ing, hing, rfl⟩ := List.mem_map.mp hx
    have hmem : ing ∈ preB ++ postB := List.mem_append.mpr (Or.inr hing)
    obtain ⟨hxa, hxb⟩ := hne_leafB ing hmem
    rcases hleafB ing hmem with hbase | hnone
    · exact gen_leaf _ _ idx ana 19 _ _ _ _ _ _ _ (cacheGet_nil _)
        (Or.inl hbase)
    · exact gen_leaf _ _ idx ana 19 _ _ _ _ _ _ _ (cacheGet_nil _)
        (Or.inr ⟨hcontains2 _ hxa hxb, availRecipes_nil_of_lookup _ _ hnone⟩)
  obtain ⟨ecut, hcut⟩ := gen_circular MAX_COMBINATIONS MAX_DEPTH idx ana 19 A
    (setKey (setKey [] A rA) B rB) [A, B] [] 2 [] 0 (cacheGet_nil _) hbA
    ((contains_iff_mem _ _).mpr (List.mem_cons_self _ _))
  have hitemsB : rB.ingredients.map (fun ing => ing.item)
      = preB.map (fun i => i.item) ++ A :: postB.map (fun i => i.item) := by
    rw [hiB]
    simp [hingA]
  have hrunB : genIngredients (generateRecipeCombinations MAX_COMBINATIONS
      MAX_DEPTH idx ana false MAX_DEPTH) (setKey (setKey [] A rA) B rB)
      [A, B] [] 1 (rB.ingredients.map (fun ing => ing.item)) [] 0
      = ((preB.map (fun i => i.item)).map
            (fun _ => [(⟨setKey (setKey [] A rA) B rB, []⟩ : RecipeResult)])
          ++ [(⟨setKey (setKey [] A rA) B rB, [] ++ [ecut]⟩ : RecipeResult)] ::
            (postB.map (fun i => i.item)).map
            (fun _ => [(⟨setKey (setKey [] A rA) B rB, []⟩ : RecipeResult)]),
         [], 0) := by
    rw [hitemsB]
    refine genIngredients_leaf_prefix _ _ _ _ _ _ _ _ _ _ _ _ hleafB_run ?_
    exact genIngredients_cons _ _ _ _ _ _ _ _ _ _ _ _ _ _ _ hcut
      (genIngredients_all_leaf _ _ _ _ _ _ _ _ hpostB_run)
  obtain ⟨zB, hzB, hzBlen⟩ := cartesian_singletons_circ
    ((preB.map (fun i => i.item)).map
        (fun _ => [(⟨setKey (setKey [] A rA) B rB, []⟩ : RecipeResult)])
      ++ [(⟨setKey (setKey [] A rA) B rB, [] ++ [ecut]⟩ : RecipeResult)] ::
        (postB.map (fun i => i.item)).map
        (fun _ => [(⟨setKey (setKey [] A rA) B rB, []⟩ : RecipeResult)]))
    (by simp)
    (hsing_gen _ _ _ (hsing_map _ _) ⟨_, rfl⟩ (hsing_map _ _))
  have hzBlen1 : zB.circulars.length = 1 := by
    rw [hzBlen, List.map_append, List.map_cons, List.sum_append, List.sum_cons,
      hzero (preB.map (fun i => i.item)) _, hzero (postB.map (fun i => i.item)) _]
    rfl
  have hneB : rB.ingredients ≠ [] := by
    rw [hiB]
    simp
  have htryB : tryRecipes MAX_COMBINATIONS
      (generateRecipeCombinations MAX_COMBINATIONS MAX_DEPTH idx ana false
        MAX_DEPTH) B (setKey [] A rA) [A, B] [] 1 [rB] [] [] 0
      = ([zB], [], 1) :=
    tryRecipes_single _ _ _ _ _ _ _ _ _ _ hneB _ _ _ hrunB zB hzB (by decide)
  have htryB' : tryRecipes MAX_COMBINATIONS
      (generateRecipeCombinations MAX_COMBINATIONS MAX_DEPTH idx ana false
        MAX_DEPTH) B (setKey [] A rA) ([A] ++ [B]) [] 1
      (recipesToUse ana.circularRecipes [rB]) [] [] 0 = ([zB], [], 1) := by
    rw [recipesToUse_singleton]
    exact htryB
  have hgenB : generateRecipeCombinations MAX_COMBINATIONS MAX_DEPTH idx ana
      false (MAX_DEPTH + 1) B (setKey [] A rA) [A] [] 1 [] 0
      = ⟨[zB], [(getCacheKey B false [A], [zB])], 1⟩ :=
    gen_recurse MAX_COMBINATIONS MAX_DEPTH idx ana MAX_DEPTH B
      (setKey [] A rA) [A] [] 1 [] 0 (cacheGet_nil _) hbB (hcontains1 B hBA)
      [rB] hBvail (by simp) (by decide) (by decide) [zB] [] 1 htryB'
  have hleafA_run : ∀ x ∈ preA.map (fun i => i.item),
      generateRecipeCombinations MAX_COMBINATIONS MAX_DEPTH idx ana false
        (MAX_DEPTH + 1) x (setKey [] A rA) [A] [] 1 [] 0
        = ⟨[⟨setKey [] A rA, []⟩], [], 0⟩ := by
    intro x hx
    obtain ⟨ing, hing, rfl⟩ := List.mem_map.mp hx
    have hmem : ing ∈ preA ++ postA := List.mem_append.mpr (Or.inl hing)
    obtain ⟨hxa, hxb⟩ := hne_leafA ing hmem
    rcases hleafA ing hmem with hbase | hnone
    · exact gen_leaf _ _ idx ana 20 _ _ _ _ _ _ _ (cacheGet_nil _)
        (Or.inl hbase)
    · exact gen_leaf _ _ idx ana 20 _ _ _ _ _ _ _ (cacheGet_nil _)
        (Or.inr ⟨hcontains1 _ hxa, availRecipes_nil_of_lookup _ _ hnone⟩)
  have hpostA_run : ∀ x ∈ postA.map (fun i => i.item),
      generateRecipeCombinations MAX_COMBINATIONS MAX_DEPTH idx ana false
        (MAX_DEPTH + 1) x (setKey [] A rA) [A] [] 1
        [(getCacheKey B false [A], [zB])] 1
        = ⟨[⟨setKey [] A rA, []⟩], [(getCacheKey B false [A], [zB])], 1⟩ := by
    intro x hx
    obtain ⟨ing, hing, rfl⟩ := List.mem_map.mp hx
    have hmem : ing ∈ preA ++ postA := List.mem_append.mpr (Or.inr hing)
    obtain ⟨hxa, hxb⟩ := hne_leafA ing hmem
    have hcache : cacheGet [(getCacheKey B false [A], [zB])]
        (getCacheKey ing.item false [A]) = none :=
      cacheGet_single_ne _ _ _ (getCacheKey_ne ing.item B false [A] hxb)
    rcases hleafA ing hmem with hbase | hnone
    · exact gen_leaf _ _ idx ana 20 _ _ _ _ _ _ _ hcache (Or.inl hbase)
    · exact gen_leaf _ _ idx ana 20 _ _ _ _ _ _ _ hcache
        (Or.inr ⟨hcontains1 _ hxa, availRecipes_nil_of_lookup _ _ hnone⟩)
  have hitemsA : rA.ingredients.map (fun ing => ing.item)
      = preA.map (fun i => i.item) ++ B :: postA.map (fun i => i.item) := by
    rw [hiA]
    simp [hingB]
  have hrunA : genIngredients (generateRecipeCombinations MAX_COMBINATIONS
      MAX_DEPTH idx ana false (MAX_DEPTH + 1)) (setKey [] A rA) [A] [] 0
      (rA.ingredients.map (fun ing => ing.item)) [] 0
      = ((preA.map (fun i => i.item)).map
            (fun _ => [(⟨setKey [] A rA, []⟩ : RecipeResult)])
          ++ [zB] :: (postA.map (fun i => i.item)).map
            (fun _ => [(⟨setKey [] A rA, []⟩ : RecipeResult)]),
         [(getCacheKey B false [A], [zB])], 1) := by
    rw [hitemsA]
    refine genIngredients_leaf_prefix _ _ _ _ _ _ _ _ _ _ _ _ hleafA_run ?_
    exact genIngredients_cons _ _ _ _ _ _ _ _ _ _ _ _ _ _ _ hgenB
      (genIngredients_all_leaf _ _ _ _ _ _ _ _ hpostA_run)
  obtain ⟨zA, hzA, hzAlen⟩ := cartesian_singletons_circ
    ((preA.map (fun i => i.item)).map
        (fun _ => [(⟨setKey [] A rA, []⟩ : RecipeResult)])
      ++ [zB] :: (postA.map (fun i => i.item)).map
        (fun _ => [(⟨setKey [] A rA, []⟩ : RecipeResult)]))
    (by simp)
    (hsing_gen _ _ _ (hsing_map _ _) ⟨_, rfl⟩ (hsing_map _ _))
  have hzAlen1 : zA.circulars.length = 1 := by
    rw [hzAlen, List.map_append, List.map_cons, List.sum_append, List.sum_cons,
      hzero (preA.map (fun i => i.item)) _, hzero (postA.map (fun i => i.item)) _]
    simp [hzBlen1]
  have hneA : rA.ingredients ≠ [] := by
    rw [hiA]
    simp
  have htryA : tryRecipes MAX_COMBINATIONS
      (generateRecipeCombinations MAX_COMBINATIONS MAX_DEPTH idx ana false
        (MAX_DEPTH + 1)) A [] [A] [] 0 [rA] [] [] 0
      = ([zA], [(getCacheKey B false [A], [zB])], 2) :=
    tryRecipes_single _ _ _ _ _ _ _ _ _ _ hneA _ _ _ hrunA zA hzA (by decide)
  have htryA' : tryRecipes MAX_COMBINATIONS
      (generateRecipeCombinations MAX_COMBINATIONS MAX_DEPTH idx ana false
        (MAX_DEPTH + 1)) A [] ([] ++ [A]) [] 0
      (recipesToUse ana.circularRecipes [rA]) [] [] 0
      = ([zA], [(getCacheKey B false [A], [zB])], 2) := by
    rw [recipesToUse_singleton]
    exact htryA
  have hgenA := gen_recurse MAX_COMBINATIONS MAX_DEPTH idx ana (MAX_DEPTH + 1) A
    [] [] [] 0 [] 0 (cacheGet_nil _) hbA rfl [rA] hAvail (by simp)
    (by decide) (by decide) [zA] [(getCacheKey B false [A], [zB])] 2 htryA'
  exact ⟨zA, _, _, hgenA, hzAlen1⟩

theorem two_cycle_same_scc (idx : RecipeIndex) (A B : Item)
    (hAB : A ≠ B)
    (hmemA : A ∈ allItemsOf idx) (hmemB : B ∈ allItemsOf idx)
    (heAB : depEdge idx A B) (heBA : depEdge idx B A) :
    ∃ c ∈ (findStronglyConnectedComponents idx).stronglyConnectedComponents,
      A ∈ c ∧ B ∈ c ∧ sccIsCircular idx c = true := by
  obtain ⟨hinv, hstk, hall⟩ := runTarjan_spec idx
  have hflat_nd : (runTarjan idx).sccs.flatten.Nodup := by
    have hnd := hinv.nodup
    rw [hstk, List.append_nil] at hnd
    exact hnd
  have hdisj := (List.nodup_flatten.mp hflat_nd).2
  have hscc : ∀ x, x ∈ allItemsOf idx →
      ∃ i c, (runTarjan idx).sccs.get? i = some c ∧ x ∈ c := by
    intro x hx
    rcases (hinv.visited_iff x).mp (hall x hx) with h | ⟨c, hc, hxc⟩
    · rw [hstk] at h
      cases h
    · obtain ⟨i, hi⟩ := List.mem_iff_get?.mp hc
      exact ⟨i, c, hi, hxc⟩
  obtain ⟨iA, cA, hgA, hAc⟩ := hscc A hmemA
  obtain ⟨iB, cB, hgB, hBc⟩ := hscc B hmemB
  have huniq : ∀ i j c c' x, (runTarjan idx).sccs.get? i = some c →
      (runTarjan idx).sccs.get? j = some c' → x ∈ c → x ∈ c' → i = j := by
    intro i j c c' x hi hj hxc hxc'
    by_contra hne
    obtain ⟨hilt, hig⟩ := List.get?_eq_some.mp hi
    obtain ⟨hjlt, hjg⟩ := List.get?_eq_some.mp hj
    rcases Nat.lt_or_ge i j with hlt | hge
    · have hd := (List.pairwise_iff_get.mp hdisj) ⟨i, hilt⟩ ⟨j, hjlt⟩
        (Fin.mk_lt_mk.mpr hlt)
      rw [hig, hjg] at hd
      exact hd hxc hxc'
    · have hlt : j < i := by omega
      have hd := (List.pairwise_iff_get.mp hdisj) ⟨j, hjlt⟩ ⟨i, hilt⟩
        (Fin.mk_lt_mk.mpr hlt)
      rw [hig, hjg] at hd
      exact hd hxc' hxc
  have h1 : iB ≤ iA := by
    obtain ⟨j, c', hj, hget, hBc'⟩ := hinv.scc_edges iA cA hgA A hAc B heAB
    have := huniq j iB c' cB B hget hgB hBc' hBc
    omega
  have h2 : iA ≤ iB := by
    obtain ⟨j, c', hj, hget, hAc'⟩ := hinv.scc_edges iB cB hgB B hBc A heBA
    have := huniq j iA c' cA A hget hgA hAc' hAc
    omega
  have hiAB : iA = iB := Nat.le_antisymm h2 h1
  have hcc : cA = cB := by
    rw [hiAB, hgB] at hgA
    cases hgA
    rfl
  have hmemscc : cA ∈ (runTarjan idx).sccs := by
    obtain ⟨hlt, hget⟩ := List.get?_eq_some.mp hgA
    exact hget ▸ List.get_mem _ _ _
  have hBcA : B ∈ cA := by
    rw [hcc]
    exact hBc
  have hlen : 1 < cA.length := by
    rcases cA with _ | ⟨x, c'⟩
    · cases hAc
    rcases c' with _ | ⟨y, c''⟩
    · rw [List.mem_singleton] at hAc hBcA
      exact absurd (hAc.trans hBcA.symm) hAB
    · simp
  have hcircular : sccIsCircular idx cA = true := by
    unfold sccIsCircular
    rw [decide_eq_true hlen]
    rfl
  exact ⟨cA, hmemscc, hAc, hBcA, hcircular⟩

/-- C5: in an index where A's single recipe needs B (every other ingredient
being a base resource or non-producible), B's single recipe symmetrically
needs A, and neither item is a base resource (with the raw-override flag
off), default generation for target A yields exactly one
ProductionCombination carrying exactly one CircularEdge, and the cycle
analyzer puts A and B into one SCC that it classifies circular. -/
theorem C5_two_cycle (idx : RecipeIndex) (ana : CircularAnalysis)
    (A B : Item) (rA rB : ProcessedRecipe) (c0 : MemoCache)
    (hAB : A ≠ B)
    (hA : lookupIndex idx A = some [rA])
    (hB : lookupIndex idx B = some [rB])
    (hbA : isBaseResource A = false) (hbB : isBaseResource B = false)
    (preA postA : List RecipeIngredient) (ingB : RecipeIngredient)
    (hiA : rA.ingredients = preA ++ ingB :: postA)
    (hingB : ingB.item = B)
    (hleafA : ∀ ing ∈ preA ++ postA,
      isBaseResource ing.item = true ∨ lookupIndex idx ing.item = none)
    (preB postB : List RecipeIngredient) (ingA : RecipeIngredient)
    (hiB : rB.ingredients = preB ++ ingA :: postB)
    (hingA : ingA.item = A)
    (hleafB : ∀ ing ∈ preB ++ postB,
      isBaseResource ing.item = true ∨ lookupIndex idx ing.item = none) :
    (getAllProductionCombinations A idx ana false c0).length = 1 ∧
    (∀ combo ∈ getAllProductionCombinations A idx ana false c0,
      combo.circularEdges.length = 1) ∧
    ∃ c ∈ (findStronglyConnectedComponents idx).stronglyConnectedComponents,
      A ∈ c ∧ B ∈ c ∧ sccIsCircular idx c = true := by
  obtain ⟨z, c2, n2, hrun, hzlen⟩ := gen_two_cycle_run idx ana A B rA rB hAB
    hA hB hbA hbB preA postA ingB hiA hingB hleafA preB postB ingA hiB hingA
    hleafB
  have hout : getAllProductionCombinations A idx ana false c0
      = [{ id := pathId z.path, targetProduct := A, recipePath := z.path,
           rawMaterials := extractRawMaterials z.path idx false,
           circularEdges := z.circulars,
           recipeChain := buildRecipeChain A z.path }] := by
    simp [getAllProductionCombinations, getAllWith, clearMemoCache, hrun]
  refine ⟨by rw [hout]; rfl, ?_, ?_⟩
  · intro combo hc
    rw [hout, List.mem_singleton] at hc
    subst hc
    exact hzlen
  · refine two_cycle_same_scc idx A B hAB ?_ ?_ ?_ ?_
    · obtain ⟨e, he, hk, _⟩ := lookupIndex_some_mem idx A [rA] hA
      exact (mem_allItemsOf idx A).mpr (Or.inl ⟨e, he, hk⟩)
    · obtain ⟨e, he, hk, _⟩ := lookupIndex_some_mem idx B [rB] hB
      exact (mem_allItemsOf idx B).mpr (Or.inl ⟨e, he, hk⟩)
    · refine ⟨rA, ?_, ingB, ?_, hingB⟩
      · rw [availRecipes_eq_of_lookup idx A [rA] hA]
        exact List.mem_singleton.mpr rfl
      · rw [hiA]
        exact List.mem_append.mpr (Or.inr (List.mem_cons_self _ _))
    · refine ⟨rB, ?_, ingA, ?_, hingA⟩
      · rw [availRecipes_eq_of_lookup idx B [rB] hB]
        exact List.mem_singleton.mpr rfl
      · rw [hiB]
        exact List.mem_append.mpr (Or.inr (List.mem_cons_self _ _))

/-- Witness: the concrete two-item circular index, target ItemA, default
configuration, fresh cache. -/
theorem C5_witness :
    (getAllProductionCombinations "ItemA" idxCirc anaEmpty false []).length = 1 ∧
    (∀ combo ∈ getAllProductionCombinations "ItemA" idxCirc anaEmpty false [],
      combo.circularEdges.length = 1) ∧
    ∃ c ∈ (findStronglyConnectedComponents idxCirc).stronglyConnectedComponents,
      "ItemA" ∈ c ∧ "ItemB" ∈ c ∧ sccIsCircular idxCirc c = true :=
  C5_two_cycle idxCirc anaEmpty "ItemA" "ItemB" recCircA recCircB []
    (by decide) rfl rfl (by decide) (by decide)
    [] [] ⟨"ItemB", 1⟩ rfl rfl (by simp)
    [] [] ⟨"ItemA", 1⟩ rfl rfl (by simp)
